import Mathlib

/-!
# go-dnsmasq: response cache and forwarder

A shallow embedding of `cache/cache.go`, `cache/hit.go` and
`server/forwarding.go`, followed by the properties proved about them.

Conventions of the embedding:

* a Go `string` / `[]byte` is a list of bytes (`Bytes`);
* a `time.Time` is an integer number of nanoseconds since the Unix epoch and a
  `time.Duration` is an integer number of nanoseconds; conversions that can
  overflow an `int64` wrap explicitly (`wrapInt64`);
* every reading of the wall clock is an explicit argument, so that a theorem
  quantifies over all clock values;
* the order in which a `range` over a Go map yields its keys is an explicit
  argument (a list of keys), so that a theorem quantifies over all iteration
  orders;
* a Go run-time panic (nil dereference, index out of range) is the result
  `none` of an `Option`-valued function.
-/

namespace GoDnsmasq

/-! ## DNS messages (the part of `github.com/miekg/dns` the code uses) -/

/-- One byte of a Go string. -/
abbrev Byte := Fin 256

/-- A Go `string` or `[]byte`. -/
abbrev Bytes := List Byte

/-- The type `dns.Question`. -/
structure Question where
  Name : Bytes
  Qtype : Nat
  Qclass : Nat
deriving DecidableEq, Repr

/-- Payload of a resource record: the target of a `dns.CNAME`, or the
uninterpreted data of any other record type. -/
inductive RData where
  | cname (Target : Bytes)
  | raw (data : Bytes)
deriving DecidableEq, Repr

/-- A resource record `dns.RR`: the fields of its `dns.RR_Header` and its payload. -/
structure RR where
  Name : Bytes
  Rrtype : Nat
  Class : Nat
  Ttl : Nat
  rdata : RData
deriving DecidableEq, Repr

/-- The type `dns.Msg`: the header `dns.MsgHdr`, the `Compress` flag and the
four sections. -/
structure Msg where
  Id : Nat
  Response : Bool
  Opcode : Nat
  Authoritative : Bool
  Truncated : Bool
  RecursionDesired : Bool
  RecursionAvailable : Bool
  Zero : Bool
  AuthenticatedData : Bool
  CheckingDisabled : Bool
  Rcode : Nat
  Compress : Bool
  Question : List Question
  Answer : List RR
  Ns : List RR
  Extra : List RR
deriving DecidableEq, Repr

/-- The zero value `new(dns.Msg)`. -/
def Msg.new : Msg :=
  { Id := 0, Response := false, Opcode := 0, Authoritative := false, Truncated := false,
    RecursionDesired := false, RecursionAvailable := false, Zero := false,
    AuthenticatedData := false, CheckingDisabled := false, Rcode := 0, Compress := false,
    Question := [], Answer := [], Ns := [], Extra := [] }

/-- The deep copy `msg.Copy()`: in a value semantics it is the identity. -/
def Msg.Copy (m : Msg) : Msg := m

def RcodeSuccess : Nat := 0
def RcodeFormatError : Nat := 1
def RcodeServerFailure : Nat := 2
def RcodeNameError : Nat := 3
def RcodeNotImplemented : Nat := 4
def RcodeRefused : Nat := 5
def OpcodeQuery : Nat := 0
def TypeCNAME : Nat := 5
def ClassINET : Nat := 1

/-! ## Time -/

/-- A `time.Time`, in nanoseconds since the Unix epoch. -/
abbrev Time := Int

/-- A `time.Duration`, an `int64` number of nanoseconds. -/
abbrev Duration := Int

/-- The constant `time.Second`. -/
def Second : Duration := 1000000000

/-- Two's-complement wrap-around of an `int64` result. -/
def wrapInt64 (x : Int) : Int := (x + 2 ^ 63) % 2 ^ 64 - 2 ^ 63

/-- The conversion `uint32(x)` of a Go `int`. -/
def toUint32 (x : Int) : Nat := (x % 2 ^ 32).toNat

def minDuration : Duration := -(2 ^ 63)
def maxDuration : Duration := 2 ^ 63 - 1

/-- The call `time.Since(t)` when the clock reads `now`: `now.Sub(t)`, which
saturates at the smallest and largest `Duration`. -/
def Since (now t : Time) : Duration :=
  if now - t < minDuration then minDuration
  else if maxDuration < now - t then maxDuration
  else now - t

/-- The zero value `time.Time{}` (1 January of year 1, UTC). -/
def zeroTime : Time := -62135596800 * Second

/-! ## The cache (`cache/cache.go`) -/

/-- The struct `elem`. -/
structure elem where
  expiration : Time
  msg : Msg
  staleExpiration : Time
  hits : Nat
  staleHits : Nat
  ttlSeconds : Nat
deriving DecidableEq, Repr

/-- The Go map `map[string]*elem`, as an association list. -/
abbrev Entries := List (Bytes × elem)

/-- The map read `m[k]`. -/
def Entries.get : Entries → Bytes → Option elem
  | [], _ => none
  | (k1, e) :: rest, k => if k1 = k then some e else Entries.get rest k

/-- The map write `m[k] = e`. -/
def Entries.set : Entries → Bytes → elem → Entries
  | [], k, e => [(k, e)]
  | (k1, e1) :: rest, k, e =>
    if k1 = k then (k, e) :: rest else (k1, e1) :: Entries.set rest k e

/-- The built-in `delete(m, k)`. -/
def Entries.delete (m : Entries) (k : Bytes) : Entries :=
  m.filter (fun p => decide (p.1 ≠ k))

/-- An in-place update `m[k].field = ...` of the element stored under `k`. -/
def Entries.modify : Entries → Bytes → (elem → elem) → Entries
  | [], _, _ => []
  | (k1, e1) :: rest, k, f =>
    if k1 = k then (k1, f e1) :: rest else (k1, e1) :: Entries.modify rest k f

/-- The keys of the map. -/
def Entries.keys (m : Entries) : List Bytes := m.map Prod.fst

/-- The struct `Cache` (without its lock). -/
structure Cache where
  capacity : Int
  m : Entries
  ttl : Duration
  staleTtl : Duration
  ttlFromResp : Bool
  ttlMax : Duration
  ttlMinSeconds : Nat
  ttlMaxSeconds : Nat
deriving DecidableEq, Repr

/-- The method `CacheSize`: `len(c.m)`. -/
def Cache.CacheSize (c : Cache) : Int := c.m.length

/-- The constructor `New`. -/
def New (capacity ttl staleTtl : Int) (ttlFromResp : Bool) (ttlMax : Int) : Cache :=
  { capacity := capacity
    m := []
    ttl := wrapInt64 (ttl * Second)
    staleTtl := wrapInt64 (staleTtl * Second)
    ttlFromResp := ttlFromResp
    ttlMax := wrapInt64 (ttlMax * Second)
    ttlMinSeconds := toUint32 ttl
    ttlMaxSeconds := toUint32 ttlMax }

/-- The method `Remove`. -/
def Remove (c : Cache) (s : Bytes) : Cache := { c with m := c.m.delete s }

/-- The loop of `evictRandomInternal`: `order` is what is left of the sequence
of keys the `range` yields, `i` the position counter, `now` the clock reading
of `time.Since`.  The counter only moves away from zero and a map has fewer
than `2 ^ 63` entries, so `i--` never wraps.  A key the `range` yields is in
the map, so for an iteration order of the map the read `c.m[k]` finds an
element. -/
def evictLoop (onlyStale : Bool) (now : Time) : List Bytes → Int → Entries → Entries
  | [], _, m => m
  | k :: order, i, m =>
    let m1 :=
      if i = 0 then
        if onlyStale then
          match m.get k with
          | some e => if Since now e.staleExpiration > 0 then m.delete k else m
          | none => m
        else m.delete k
      else m
    evictLoop onlyStale now order (i - 1) m1

/-- The method `evictRandomInternal`. -/
def evictRandomInternal (c : Cache) (onlyStale : Bool) (now : Time) (order : List Bytes) : Cache :=
  let clen : Int := c.m.length
  if clen < c.capacity then c
  else { c with m := evictLoop onlyStale now order (c.capacity - clen) c.m }

/-- The method `EvictRandom`: a stale-only pass, then an unconditional pass,
each with its own iteration order. -/
def EvictRandom (c : Cache) (now : Time) (order1 order2 : List Bytes) : Cache :=
  evictRandomInternal (evictRandomInternal c true now order1) false now order2

/-- The function `slices.Min` on a non-empty slice of `uint32`. -/
def slicesMin : List Nat → Nat
  | [] => 0
  | [x] => x
  | x :: y :: rest => min x (slicesMin (y :: rest))

/-- The function `getLowestTtl`. -/
def getLowestTtl (r : Msg) (min max : Nat) : Nat :=
  let ttls := r.Answer.map (fun rr => rr.Ttl)
  let ttls := if ttls.length = 0 then ttls ++ [0] else ttls
  let value := slicesMin ttls
  if value < min then min
  else if value > max then max
  else value

/-- The clock readings of one `InsertMessage` call, in program order. -/
structure InsertClock where
  sinceExpiration : Time
  sinceStale : Time
  nowTtl : Time
  nowResp : Time
  nowStale : Time
  evict : Time
deriving DecidableEq, Repr

/-- A clock that reads `now` throughout one `InsertMessage` call. -/
def InsertClock.const (now : Time) : InsertClock :=
  { sinceExpiration := now, sinceStale := now, nowTtl := now, nowResp := now,
    nowStale := now, evict := now }

/-- The body of `InsertMessage` between `c.Lock()` and `c.EvictRandom()`. -/
def insertStore (c : Cache) (s : Bytes) (msg : Msg) (clk : InsertClock) : Cache :=
  let ok := (c.m.get s).isSome
  let renew :=
    match c.m.get s with
    | some e => decide (Since clk.sinceExpiration e.expiration > 0) &&
                decide (Since clk.sinceStale e.staleExpiration < 0)
    | none => false
  if !ok || renew then
    let exp : Time := clk.nowTtl + c.ttl
    let ttlSeconds : Nat := 0
    let lowestTtl := getLowestTtl msg c.ttlMinSeconds c.ttlMaxSeconds
    let exp := if c.ttlFromResp then clk.nowResp + (lowestTtl : Int) * Second else exp
    let ttlSeconds := if c.ttlFromResp then lowestTtl else ttlSeconds
    let e : elem :=
      { expiration := exp, msg := msg.Copy, staleExpiration := clk.nowStale + c.staleTtl,
        hits := 0, staleHits := 0, ttlSeconds := ttlSeconds }
    { c with m := c.m.set s e }
  else c

/-- The method `InsertMessage`. -/
def InsertMessage (c : Cache) (s : Bytes) (msg : Msg) (clk : InsertClock)
    (order1 order2 : List Bytes) : Cache :=
  if c.capacity ≤ 0 then c
  else EvictRandom (insertStore c s msg clk) clk.evict order1 order2

/-- The method `Search`: the copy of the stored message, the two expirations
and whether the key was found. -/
def Search (c : Cache) (s : Bytes) : Option Msg × Time × Time × Bool :=
  if c.capacity ≤ 0 then (none, zeroTime, zeroTime, false)
  else
    match c.m.get s with
    | some e => (some e.msg.Copy, e.expiration, e.staleExpiration, true)
    | none => (none, zeroTime, zeroTime, false)

/-- The function `packUint16`. -/
def packUint16 (i : Nat) : Bytes := [Fin.ofNat (i / 256), Fin.ofNat i]

/-- The digest `sha1.New().Sum(nil)` of a hash to which nothing was written:
the SHA-1 digest of the empty input. -/
def sha1Empty : Bytes :=
  [0xda, 0x39, 0xa3, 0xee, 0x5e, 0x6b, 0x4b, 0x0d, 0x32, 0x55,
   0xbf, 0xef, 0x95, 0x60, 0x18, 0x90, 0xaf, 0xd8, 0x07, 0x09]

/-- The function `Key`.  Nothing is written to the hash `h`, and `h.Sum(i)`
appends the current digest of `h` to `i`. -/
def Key (q : Question) (dnssec tcp : Bool) : Bytes :=
  let i := q.Name ++ packUint16 q.Qtype
  let i := if dnssec then i ++ [255] else i
  let i := if tcp then i ++ [254] else i
  i ++ sha1Empty

/-- The width of Go's `uint` (64-bit platforms). -/
def uintMod : Nat := 2 ^ 64

/-- The clock readings of one `Hit` call, in program order. -/
structure HitClock where
  valid : Time
  stale : Time
deriving DecidableEq, Repr

/-- A clock that reads `now` throughout one `Hit` call. -/
def HitClock.const (now : Time) : HitClock := { valid := now, stale := now }

/-- The method `Hit` (`cache/hit.go`): the returned message and the cache afterwards. -/
def Hit (c : Cache) (question : Question) (dnssec tcp : Bool) (msgid : Nat)
    (keepStale returnStale : Bool) (clk : HitClock) : Option Msg × Cache :=
  let key := Key question dnssec tcp
  match Search c key with
  | (some m1, exp, staleExp, true) =>
    let valid := decide (Since clk.valid exp < 0)
    if valid || returnStale then
      let m1 := { m1 with Id := msgid, Compress := true, Truncated := false }
      let c1 :=
        if valid then { c with m := c.m.modify key (fun e => { e with hits := (e.hits + 1) % uintMod }) }
        else { c with m := c.m.modify key (fun e => { e with staleHits := (e.staleHits + 1) % uintMod }) }
      let c2 := if Since clk.stale staleExp > 0 then Remove c1 key else c1
      (some m1, c2)
    else
      let c1 := if !keepStale then Remove c key else c
      (none, c1)
  | _ => (none, c)

/-! ## Auxiliary descriptions of what `InsertMessage` stores and `Hit` serves -/

/-- The element `InsertMessage` stores. -/
def insertedElem (c : Cache) (msg : Msg) (clk : InsertClock) : elem :=
  { expiration :=
      if c.ttlFromResp then
        clk.nowResp + (getLowestTtl msg c.ttlMinSeconds c.ttlMaxSeconds : Int) * Second
      else clk.nowTtl + c.ttl
    msg := msg
    staleExpiration := clk.nowStale + c.staleTtl
    hits := 0
    staleHits := 0
    ttlSeconds := if c.ttlFromResp then getLowestTtl msg c.ttlMinSeconds c.ttlMaxSeconds else 0 }

/-- The message `Hit` returns for a stored message: three fields are overwritten. -/
def servedMsg (m : Msg) (msgid : Nat) : Msg :=
  { m with Id := msgid, Compress := true, Truncated := false }

/-- The cache after `Hit` served the entry under `key`. -/
def servedCache (c : Cache) (key : Bytes) (valid : Bool) (clk : HitClock) (staleExp : Time) :
    Cache :=
  let c1 : Cache :=
    if valid then
      { c with m := c.m.modify key (fun e => { e with hits := (e.hits + 1) % uintMod }) }
    else
      { c with m := c.m.modify key (fun e => { e with staleHits := (e.staleHits + 1) % uintMod }) }
  if Since clk.stale staleExp > 0 then Remove c1 key else c1

/-! ## Sequences of cache operations -/

/-- One call on a cache, with the clock readings and map iteration orders it meets. -/
inductive Op where
  | insert (s : Bytes) (msg : Msg) (clk : InsertClock) (order1 order2 : List Bytes)
  | hit (question : Question) (dnssec tcp : Bool) (msgid : Nat)
      (keepStale returnStale : Bool) (clk : HitClock)
  | remove (s : Bytes)
deriving DecidableEq, Repr

/-- The cache after one call. -/
def Op.apply (c : Cache) : Op → Cache
  | .insert s msg clk order1 order2 => InsertMessage c s msg clk order1 order2
  | .hit question dnssec tcp msgid keepStale returnStale clk =>
    (Hit c question dnssec tcp msgid keepStale returnStale clk).2
  | .remove s => Remove c s

/-- The iteration orders that come with a call are orders Go can produce: each
`range` yields every key of the map it ranges over exactly once.  The order of
the first pass of `EvictRandom` ranges over the map after the store, the order
of the second pass over the map the first pass leaves. -/
def Op.ValidOrders (c : Cache) : Op → Prop
  | .insert s msg clk order1 order2 =>
    order1.Perm (insertStore c s msg clk).m.keys ∧
    order2.Perm (evictRandomInternal (insertStore c s msg clk) true clk.evict order1).m.keys
  | _ => True

/-- The cache after a sequence of calls. -/
def run (c : Cache) : List Op → Cache
  | [] => c
  | op :: ops => run (op.apply c) ops

/-- Every call of the sequence comes with valid iteration orders. -/
def ValidRun (c : Cache) : List Op → Prop
  | [] => True
  | op :: ops => op.ValidOrders c ∧ ValidRun (op.apply c) ops

instance Op.decidableValidOrders (c : Cache) : (op : Op) → Decidable (op.ValidOrders c)
  | .insert _ _ _ _ _ => inferInstanceAs (Decidable (_ ∧ _))
  | .hit _ _ _ _ _ _ _ => isTrue trivial
  | .remove _ => isTrue trivial

instance ValidRun.decidable : (c : Cache) → (ops : List Op) → Decidable (ValidRun c ops)
  | _, [] => isTrue trivial
  | c, op :: ops =>
    match Op.decidableValidOrders c op, ValidRun.decidable (op.apply c) ops with
    | isTrue h1, isTrue h2 => isTrue ⟨h1, h2⟩
    | isFalse h1, _ => isFalse (fun h => h1 h.1)
    | _, isFalse h2 => isFalse (fun h => h2 h.2)

/-- The representation invariant of a cache: a disabled cache (capacity zero or
negative) stores nothing.  Every cache built by `New` and the operations
satisfies it (`WF_run`). -/
def Cache.WF (c : Cache) : Prop := c.capacity ≤ 0 → c.m = []

/-- Every entry of the map satisfies `P`. -/
def Entries.All (P : elem → Prop) (m : Entries) : Prop := ∀ p ∈ m, P p.2

/-- The wall clock does not step backwards inside an `InsertMessage` call
between the reading used for the fresh expiration and the reading used for the
stale expiration. -/
def InsertClock.Monotone (clk : InsertClock) : Prop :=
  clk.nowTtl ≤ clk.nowStale ∧ clk.nowResp ≤ clk.nowStale

/-- The clock of every `InsertMessage` call of the sequence is monotone. -/
def MonotoneClocks : List Op → Prop
  | [] => True
  | .insert _ _ clk _ _ :: ops => clk.Monotone ∧ MonotoneClocks ops
  | _ :: ops => MonotoneClocks ops

/-- The configuration of the cache orders the time-to-live values: the fresh
TTL, and with `ttlFromResp` both clamping bounds, are at most the stale TTL. -/
def Cache.TtlOrdered (c : Cache) : Prop :=
  c.ttl ≤ c.staleTtl ∧
  (c.ttlFromResp = true →
    (c.ttlMinSeconds : Int) * Second ≤ c.staleTtl ∧ (c.ttlMaxSeconds : Int) * Second ≤ c.staleTtl)

/-- Two caches differ at most in their map. -/
def Cache.SameConfig (c c1 : Cache) : Prop := c1 = { c with m := c1.m }

/-- The fresh expiration of the entry is at or before its stale expiration. -/
def elem.Ordered (e : elem) : Prop := e.expiration ≤ e.staleExpiration

instance elem.decidableOrdered : DecidablePred elem.Ordered :=
  fun e => inferInstanceAs (Decidable (e.expiration ≤ e.staleExpiration))

instance Entries.decidableAll (P : elem → Prop) [DecidablePred P] (m : Entries) :
    Decidable (Entries.All P m) :=
  inferInstanceAs (Decidable (∀ p ∈ m, P p.2))

/-! ## Example data -/

/-- The question `a. IN A`. -/
def exQuestionA : Question := { Name := [97, 46], Qtype := 1, Qclass := 1 }

/-- The question `b. IN A`. -/
def exQuestionB : Question := { Name := [98, 46], Qtype := 1, Qclass := 1 }

/-- A message whose question section is `a. IN A`. -/
def exMsgA : Msg := { Msg.new with Question := [exQuestionA] }

/-- A message whose question section is `b. IN A`. -/
def exMsgB : Msg := { Msg.new with Question := [exQuestionB] }

/-- The key of `a. IN A` over UDP without DNSSEC. -/
def exKeyA : Bytes := Key exQuestionA false false

/-- The key of `b. IN A` over UDP without DNSSEC. -/
def exKeyB : Bytes := Key exQuestionB false false

/-- An entry for `a. IN A` with fresh expiration at 10 s and stale expiration at 30 s. -/
def exElemA : elem :=
  { expiration := 10 * Second, msg := exMsgA, staleExpiration := 30 * Second,
    hits := 0, staleHits := 0, ttlSeconds := 0 }

/-- A cache of capacity 10 that holds `exElemA`. -/
def exCacheA : Cache := { New 10 10 30 false 0 with m := [(exKeyA, exElemA)] }

/-! ## The forwarder (`server/forwarding.go`) -/

/-- An upstream address `host:port`. -/
abbrev Server := String

/-- A Go `error` value. -/
abbrev Error := String

/-- The fields of `server.Config` the forwarder reads, and the field
`RCacheNonNegative` that `main.go` sets from the flag `rcache-non-negative` and
that no statement of `forwarding.go` reads.  The stub-zone map is an
association list. -/
structure Config where
  NoRec : Bool
  Nameservers : List Server
  FwdNdots : Int
  Ndots : Int
  EnableSearch : Bool
  SearchDomains : List Bytes
  Stub : List (Bytes × List Server)
  RCacheNonNegative : Bool

/-- The result `(r, _, err)` of one `Exchange` with an upstream: a response
(`err == nil`), or a transport error together with whatever `r` the client
library returned with it. -/
inductive Exchange where
  | answer (r : Msg)
  | failure (r : Option Msg) (err : Error)
deriving DecidableEq, Repr

/-- One exchange that took place: the upstream contacted, the transport, the
request sent and what came back. -/
structure Call where
  server : Server
  tcp : Bool
  req : Msg
  out : Exchange
deriving DecidableEq, Repr

/-- Everything the forwarder calls that lies outside the repository's code:
the upstreams (the outcome of the `n`-th exchange since start-up, for a given
transport, request and upstream), the order in which a `range` over the
stub-zone map yields its entries (it may differ from one loop to the next), and
the library functions `dns.CountLabel`, `strings.ToLower` and the helper
`appendDomain`. -/
structure Env where
  exchange : Nat → Bool → Msg → Server → Exchange
  stubRange : Nat → List (Bytes × List Server) → List (Bytes × List Server)
  CountLabel : Bytes → Int
  ToLower : Bytes → Bytes
  appendDomain : Bytes → Bytes → Bytes

/-- The counters of `server/stats.go` the forwarder increments: each field is
the number of `Inc(1)` calls made on that counter. -/
structure Stats where
  ForwardCount : Nat
  StubForwardCount : Nat
  NameErrorCount : Nat
  NoDataCount : Nat
  StaleCacheHit : Nat
  RequestFail : Nat
deriving DecidableEq, Repr

/-- The observable state around the forwarder: the counters, the exchanges
made so far (oldest first) and the messages written to the client (oldest
first). -/
structure World where
  stats : Stats
  calls : List Call
  written : List Msg
deriving DecidableEq, Repr

/-- The call `StatsForwardCount.Inc(1)`. -/
def World.incForwardCount (w : World) : World :=
  { w with stats := { w.stats with ForwardCount := w.stats.ForwardCount + 1 } }

/-- The call `StatsStubForwardCount.Inc(1)`. -/
def World.incStubForwardCount (w : World) : World :=
  { w with stats := { w.stats with StubForwardCount := w.stats.StubForwardCount + 1 } }

/-- The call `StatsNameErrorCount.Inc(1)`. -/
def World.incNameErrorCount (w : World) : World :=
  { w with stats := { w.stats with NameErrorCount := w.stats.NameErrorCount + 1 } }

/-- The call `StatsNoDataCount.Inc(1)`. -/
def World.incNoDataCount (w : World) : World :=
  { w with stats := { w.stats with NoDataCount := w.stats.NoDataCount + 1 } }

/-- The call `StatsStaleCacheHit.Inc(1)`. -/
def World.incStaleCacheHit (w : World) : World :=
  { w with stats := { w.stats with StaleCacheHit := w.stats.StaleCacheHit + 1 } }

/-- The call `StatsRequestFail.Inc(1)`. -/
def World.incRequestFail (w : World) : World :=
  { w with stats := { w.stats with RequestFail := w.stats.RequestFail + 1 } }

/-- The function `writeMsg`: the message goes to the client. -/
def writeMsg (w : World) (m : Msg) : World := { w with written := w.written ++ [m] }

/-- The library method `dns.Msg.SetReply`. -/
def Msg.SetReply (dns request : Msg) : Msg :=
  let dns := { dns with Id := request.Id, Response := true, Opcode := request.Opcode }
  let dns :=
    if dns.Opcode = OpcodeQuery then
      { dns with RecursionDesired := request.RecursionDesired,
                 CheckingDisabled := request.CheckingDisabled }
    else dns
  let dns := { dns with Rcode := RcodeSuccess }
  match request.Question with
  | q :: _ => { dns with Question := [q] }
  | [] => dns

/-- The library method `dns.Msg.SetRcode`. -/
def Msg.SetRcode (dns request : Msg) (rcode : Nat) : Msg :=
  { dns.SetReply request with Rcode := rcode }

/-- The library function `strings.HasSuffix`. -/
def HasSuffix (s suffix : Bytes) : Bool := suffix.isSuffixOf s

/-- The assignment `r.Question[0] = q`, which panics on an empty question section. -/
def setQuestion0 (r : Msg) (q : Question) : Option Msg :=
  match r.Question with
  | [] => none
  | _ :: rest => some { r with Question := q :: rest }

/-- The pair `(r, err)` a lookup returns. -/
abbrev Result := Option Msg × Option Error

/-- The stub-zone loop of `forwardQuery` over the entries in the order the
`range` yields them: the upstream list to use and the world afterwards. -/
def stubLoop (req : Msg) :
    List (Bytes × List Server) → List Server → World → Option (List Server × World)
  | [], nservers, w => some (nservers, w)
  | (zone, srv) :: rest, nservers, w =>
    match req.Question with
    | [] => none
    | q :: _ =>
      if HasSuffix q.Name zone then some (srv, w.incStubForwardCount)
      else stubLoop req rest nservers w

/-- The response codes on which `forwardQuery` returns at once. -/
def returnsAtOnce (rcode : Nat) : Bool :=
  rcode == RcodeSuccess || rcode == RcodeNameError || rcode == RcodeFormatError ||
  rcode == RcodeRefused || rcode == RcodeNotImplemented

/-- One `Exchange` of `forwardQuery` with the upstream `srv`, as it is recorded:
the outcome is that of the next exchange since start-up. -/
def Env.call (env : Env) (w : World) (tcp : Bool) (req : Msg) (srv : Server) : Call :=
  { server := srv, tcp := tcp, req := req, out := env.exchange w.calls.length tcp req srv }

/-- The upstream loop of `forwardQuery`: `res` is the current value of
`(r, err)`.  The arguments of `log.Debugf` read `req.Question[0]`. -/
def queryLoop (env : Env) (req : Msg) (tcp : Bool) :
    List Server → Result → World → Option (Result × World)
  | [], res, w => some (res, w)
  | srv :: rest, _, w =>
    match req.Question with
    | [] => none
    | _ :: _ =>
      let w1 := { w with calls := w.calls ++ [env.call w tcp req srv] }
      match (env.call w tcp req srv).out with
      | .answer r =>
        let w2 := if r.Rcode = RcodeNameError then w1.incNameErrorCount else w1
        if returnsAtOnce r.Rcode then some ((some r, none), w2)
        else queryLoop env req tcp rest (some r, none) w2
      | .failure r err => queryLoop env req tcp rest (r, some err) w1

/-- The method `forwardQuery`. -/
def forwardQuery (env : Env) (cfg : Config) (req : Msg) (tcp : Bool) (w : World) :
    Option (Result × World) :=
  match stubLoop req (env.stubRange w.calls.length cfg.Stub) cfg.Nameservers w with
  | none => none
  | some (nservers, w) => queryLoop env req tcp nservers (none, none) w

/-- The local variables of `forwardSearch`. -/
structure SearchState where
  r : Option Msg
  nodata : Option Msg
  searchName : Bytes
  err : Option Error
  didSearch : Bool
  reqCopy : Msg

/-- The loop of `forwardSearch` over the search domains. -/
def searchLoop (env : Env) (cfg : Config) (name : Bytes) (tcp : Bool) :
    List Bytes → SearchState → World → Option (SearchState × World)
  | [], st, w => some (st, w)
  | domain :: rest, st, w =>
    if HasSuffix name domain then searchLoop env cfg name tcp rest st w
    else
      let searchName := env.ToLower (env.appendDomain name domain)
      match st.reqCopy.Question with
      | [] => none
      | q0 :: qs =>
        let reqCopy :=
          { st.reqCopy with
            Question := { Name := searchName, Qtype := q0.Qtype, Qclass := q0.Qclass } :: qs }
        match forwardQuery env cfg reqCopy tcp w with
        | none => none
        | some ((r, err), w) =>
          let st := { st with r := r, err := err, searchName := searchName, didSearch := true,
                              reqCopy := reqCopy }
          match err with
          | some _ => some (st, w)
          | none =>
            match r with
            | none => none
            | some rm =>
              let w := if rm.Rcode = RcodeNameError then w.incNameErrorCount else w
              if rm.Rcode = RcodeSuccess then
                if rm.Answer.length = 0 ∧ rm.Truncated = false then
                  searchLoop env cfg name tcp rest { st with nodata := some rm.Copy } w
                else some (st, w)
              else if rm.Rcode = RcodeNameError ∨ rm.Rcode = RcodeServerFailure then
                searchLoop env cfg name tcp rest st w
              else some (st, w)

/-- The CNAME record `forwardSearch` puts in front of the answer section. -/
def searchCname (name searchName : Bytes) : RR :=
  { Name := name, Rrtype := TypeCNAME, Class := ClassINET, Ttl := 360,
    rdata := RData.cname searchName }

/-- The statements of `forwardSearch` after its loop, once a search was made. -/
def searchFinish (q0 : Question) (st : SearchState) : Option Result :=
  let step1 : Option (Option Msg) :=
    match st.err with
    | none =>
      match st.r with
      | none => none
      | some r =>
        let r :=
          if r.Rcode = RcodeSuccess then
            if r.Answer.length > 0 then
              { r with Answer := searchCname q0.Name st.searchName :: r.Answer }
            else r
          else
            match st.nodata with
            | some nodata => nodata
            | none => r
        (setQuestion0 r q0).map some
    | some _ => some st.r
  match step1 with
  | none => none
  | some r =>
    match st.err, st.nodata with
    | some _, some nodata => (setQuestion0 nodata q0).map (fun r => (some r, none))
    | _, _ => some (r, st.err)

/-- The method `forwardSearch`. -/
def forwardSearch (env : Env) (cfg : Config) (req : Msg) (tcp : Bool) (w : World) :
    Option (Result × World) :=
  match req.Question with
  | [] => none
  | q0 :: _ =>
    match searchLoop env cfg q0.Name tcp cfg.SearchDomains
        { r := none, nodata := none, searchName := [], err := none, didSearch := false,
          reqCopy := req.Copy } w with
    | none => none
    | some (st, w) =>
      if !st.didSearch then some ((some (Msg.new.SetRcode req RcodeNameError), none), w)
      else (searchFinish q0 st).map (fun res => (res, w))

/-- The refusal switch at the head of `ServeDNSForward`. -/
def refuse (cfg : Config) (nameDots : Int) : Bool :=
  if cfg.NoRec then true
  else if cfg.Nameservers.length = 0 then true
  else if nameDots < cfg.FwdNdots ∧ cfg.EnableSearch = false then true
  else false

/-- The local variables of `ServeDNSForward` that outlive a lookup. -/
structure LookupState where
  didAbsolute : Bool
  didSearch : Bool
  absoluteRes : Option Msg
  searchRes : Option Msg
  absoluteErr : Option Error
  searchErr : Option Error

/-- Where control is after a block of `ServeDNSForward`: the function returned
`(m, servedStale)`, or it goes on with the next block. -/
inductive Flow where
  | ret (m : Msg) (servedStale : Bool) (w : World)
  | next (st : LookupState) (w : World)

/-- An absolute lookup of `ServeDNSForward`: the call of `forwardQuery` on the
request as given and the test of its result (the same statements at both
places of the source). -/
def absoluteLookup (env : Env) (cfg : Config) (tcp : Bool) (req : Msg) (st : LookupState)
    (w : World) : Option Flow :=
  match forwardQuery env cfg req tcp w with
  | none => none
  | some ((r, err), w) =>
    let st := { st with absoluteRes := r, absoluteErr := err }
    match err, r with
    | none, none => none
    | none, some res =>
      if res.Rcode = RcodeSuccess then
        let res := { res with Compress := true, Id := req.Id }
        some (Flow.ret res false (writeMsg w res))
      else some (Flow.next { st with didAbsolute := true } w)
    | some _, _ => some (Flow.next { st with didAbsolute := true } w)

/-- The block "if there are enough dots in the name, start with trying to
resolve the literal name". -/
def initialAbsolute (env : Env) (cfg : Config) (tcp : Bool) (req : Msg) (nameDots : Int)
    (st : LookupState) (w : World) : Option Flow :=
  if nameDots ≥ cfg.Ndots then
    if nameDots ≥ cfg.FwdNdots then absoluteLookup env cfg tcp req st w
    else some (Flow.next st w)
  else some (Flow.next st w)

/-- The block "we do at least one level of search if search is enabled and we
didn't previously fail to query the upstreams". -/
def searchLookup (env : Env) (cfg : Config) (tcp : Bool) (req : Msg) (searchEnabled : Bool)
    (st : LookupState) (w : World) : Option Flow :=
  if st.absoluteErr = none ∧ searchEnabled = true then
    match forwardSearch env cfg req tcp w with
    | none => none
    | some ((r, err), w) =>
      let st := { st with searchRes := r, searchErr := err }
      match err, r with
      | none, none => none
      | none, some res =>
        if res.Rcode = RcodeSuccess then
          let res := { res with Compress := true, Id := req.Id }
          some (Flow.ret res false (writeMsg w res))
        else some (Flow.next { st with didSearch := true } w)
      | some _, _ => some (Flow.next { st with didSearch := true } w)
  else some (Flow.next st w)

/-- The block "if we didn't yet do an absolute lookup then do that now". -/
def lateAbsolute (env : Env) (cfg : Config) (tcp : Bool) (req : Msg) (nameDots : Int)
    (st : LookupState) (w : World) : Option Flow :=
  if st.searchErr = none ∧ st.didAbsolute = false then
    if nameDots ≥ cfg.FwdNdots then absoluteLookup env cfg tcp req st w
    else some (Flow.next st w)
  else some (Flow.next st w)

/-- The substitution of the stale response in a failure branch: the message
sent and returned, the flag returned and the world after the counter update. -/
def staleOr (staleRes : Option Msg) (m : Msg) (w : World) : Msg × Bool × World :=
  match staleRes with
  | some stale => (stale, true, w.incStaleCacheHit)
  | none => (m, false, w.incRequestFail)

/-- The three failure branches at the end of `ServeDNSForward`. -/
def failureResponse (req : Msg) (staleRes : Option Msg) (st : LookupState) (w : World) :
    Option (Msg × Bool × World) :=
  if st.didAbsolute = true ∧ st.absoluteErr = none then
    match st.absoluteRes with
    | none => none
    | some res =>
      let res := { res with Compress := true, Id := req.Id }
      let (m, stale, w) := staleOr staleRes res w
      some (m, stale, writeMsg w m)
  else if st.didSearch = true ∧ st.searchErr = none then
    match st.searchRes with
    | none => none
    | some res =>
      let m := Msg.new.SetRcode req res.Rcode
      let (m, stale, w) := staleOr staleRes m w
      let w := w.incNoDataCount
      some (m, stale, writeMsg w m)
  else
    let m := Msg.new.SetRcode req RcodeServerFailure
    let (m, stale, w) := staleOr staleRes m w
    some (m, stale, writeMsg w m)

/-- The method `ServeDNSForward`: `tcp` is `isTCP(w)` of the response writer;
the result is the returned message, the returned `servedStale` flag and the
world afterwards. -/
def ServeDNSForward (env : Env) (cfg : Config) (tcp : Bool) (req : Msg) (staleRes : Option Msg)
    (w : World) : Option (Msg × Bool × World) :=
  match req.Question with
  | [] => none
  | q0 :: _ =>
    let name := q0.Name
    let nameDots := env.CountLabel name - 1
    if refuse cfg nameDots then
      let m := Msg.new.SetRcode req RcodeRefused
      some (m, false, writeMsg w m)
    else
      let w := w.incForwardCount
      let searchEnabled := cfg.EnableSearch && decide (cfg.SearchDomains.length > 0)
      let st : LookupState :=
        { didAbsolute := false, didSearch := false, absoluteRes := none, searchRes := none,
          absoluteErr := none, searchErr := none }
      match initialAbsolute env cfg tcp req nameDots st w with
      | none => none
      | some (Flow.ret m stale w) => some (m, stale, w)
      | some (Flow.next st w) =>
        match searchLookup env cfg tcp req searchEnabled st w with
        | none => none
        | some (Flow.ret m stale w) => some (m, stale, w)
        | some (Flow.next st w) =>
          match lateAbsolute env cfg tcp req nameDots st w with
          | none => none
          | some (Flow.ret m stale w) => some (m, stale, w)
          | some (Flow.next st w) => failureResponse req staleRes st w

/-- The lookup result is a response without error whose code is NOERROR. -/
def Result.okNoError : Result → Bool
  | (some r, none) => r.Rcode == RcodeSuccess
  | _ => false

/-- The exchange brought a response without transport error whose code is NOERROR. -/
def Call.isNoError (c : Call) : Bool :=
  match c.out with
  | .answer r => r.Rcode == RcodeSuccess
  | .failure _ _ => false

/-- The world `w1` comes from `w` by the exchanges `new` and by counter
updates that leave `StaleCacheHit`, `RequestFail`, `ForwardCount` and
`NoDataCount` alone; nothing was written to the client. -/
def World.Extends (w w1 : World) (new : List Call) : Prop :=
  w1.calls = w.calls ++ new ∧ w1.written = w.written ∧
  w1.stats.StaleCacheHit = w.stats.StaleCacheHit ∧
  w1.stats.RequestFail = w.stats.RequestFail ∧
  w1.stats.ForwardCount = w.stats.ForwardCount ∧
  w1.stats.NoDataCount = w.stats.NoDataCount

/-- The outcome on which the upstream loop of `forwardQuery` returns at once:
a response without transport error whose code is one of NOERROR, NXDOMAIN,
FORMERR, REFUSED, NOTIMP. -/
def Exchange.returnsAtOnce : Exchange → Bool
  | .answer r => GoDnsmasq.returnsAtOnce r.Rcode
  | .failure _ _ => false

/-- An environment for examples: upstream `"good"` answers every request with a
NOERROR reply to it, every other upstream fails with a transport error; names
have one label per dot. -/
def exEnv : Env :=
  { exchange := fun _ _ req srv =>
      if srv = "good" then Exchange.answer (Msg.new.SetReply req)
      else Exchange.failure none "i/o timeout"
    stubRange := fun _ stubs => stubs
    CountLabel := fun name => ((name.filter (fun b => decide (b = 46))).length : Int)
    ToLower := fun name => name
    appendDomain := fun name domain => name ++ domain }

/-- A configuration for examples: two upstreams, no search, no stub zones. -/
def exConfig : Config :=
  { NoRec := false, Nameservers := ["bad", "good"], FwdNdots := 0, Ndots := 1,
    EnableSearch := false, SearchDomains := [], Stub := [], RCacheNonNegative := false }

/-- A configuration for examples with recursion disabled. -/
def exConfigNoRec : Config := { exConfig with NoRec := true }

/-- A configuration for examples whose only upstream fails. -/
def exConfigBad : Config := { exConfig with Nameservers := ["bad"] }

/-- The question `a.b. IN A`. -/
def exQuestionAB : Question := { Name := [97, 46, 98, 46], Qtype := 1, Qclass := 1 }

/-- A request with id 7 whose question section is `a.b. IN A`. -/
def exMsgAB : Msg := { Msg.new with Id := 7, Question := [exQuestionAB] }

/-- The world after `forwardQuery` on `exMsgAB` from `exWorld` with one
forward counted: upstream `"bad"` failed, upstream `"good"` answered. -/
def exWorldQueried : World :=
  { stats := { ForwardCount := 1, StubForwardCount := 0, NameErrorCount := 0, NoDataCount := 0,
               StaleCacheHit := 0, RequestFail := 0 },
    calls := [Call.mk "bad" false exMsgAB (Exchange.failure none "i/o timeout"),
              Call.mk "good" false exMsgAB (Exchange.answer (Msg.new.SetReply exMsgAB))],
    written := [] }

/-- The world after `ServeDNSForward` answered `exMsgAB` with the stale
candidate `exMsgB` under `exConfigBad`: the only upstream failed. -/
def exWorldStale : World :=
  { stats := { ForwardCount := 1, StubForwardCount := 0, NameErrorCount := 0, NoDataCount := 0,
               StaleCacheHit := 1, RequestFail := 0 },
    calls := [Call.mk "bad" false exMsgAB (Exchange.failure none "i/o timeout")],
    written := [exMsgB] }

/-- A world in which nothing has happened yet. -/
def exWorld : World :=
  { stats := { ForwardCount := 0, StubForwardCount := 0, NameErrorCount := 0, NoDataCount := 0,
               StaleCacheHit := 0, RequestFail := 0 },
    calls := [], written := [] }

/-- What is known of the local variables of `forwardSearch` at the head of its
loop, where `b` tells whether some exchange made so far answered NOERROR: that
is the case exactly when a NODATA reply has been captured; a captured reply has
code NOERROR; and before the first search nothing has been assigned. -/
def SearchState.HeadInv (st : SearchState) (b : Bool) : Prop :=
  b = st.nodata.isSome ∧
  (Result.okNoError (st.r, st.err) = true → st.nodata.isSome = true) ∧
  (∀ nd, st.nodata = some nd → nd.Rcode = RcodeSuccess) ∧
  (st.didSearch = false → st.nodata = none ∧ st.r = none)

/-- What is known of the local variables of `forwardSearch` when its loop is
left, where `b` tells whether some exchange made so far answered NOERROR. -/
def SearchState.ExitInv (st : SearchState) (b : Bool) : Prop :=
  b = (st.nodata.isSome || Result.okNoError (st.r, st.err)) ∧
  (∀ nd, st.nodata = some nd → nd.Rcode = RcodeSuccess) ∧
  (st.didSearch = false → st.nodata = none ∧ st.r = none)

/-- What a lookup block of `ServeDNSForward` entered in world `w` guarantees:
if it returns, the flag is `false` and one of its exchanges answered NOERROR;
if control goes on, none of its exchanges answered NOERROR, nothing was written
and the failure counters are untouched. -/
def Flow.Spec (w : World) : Flow → Prop
  | .ret _ stale w1 => stale = false ∧ ∃ new, w1.calls = w.calls ++ new ∧
      new.any Call.isNoError = true
  | .next _ w1 => ∃ new, w.Extends w1 new ∧ new.any Call.isNoError = false

/-- Every response of an upstream to a request with a question section carries
a question section. -/
def Env.AnswersCarryQuestion (env : Env) : Prop :=
  ∀ n tcp req srv r, req.Question ≠ [] → env.exchange n tcp req srv = Exchange.answer r →
    r.Question ≠ []

/-- Every stub zone the `range` can yield has at least one upstream (the
command line parser of `main.go` only builds such maps). -/
def Env.StubsNonempty (env : Env) (cfg : Config) : Prop :=
  ∀ n, ∀ p ∈ env.stubRange n cfg.Stub, p.2 ≠ []

/-- A lookup result the callers can use without a nil dereference: when there
is no error there is a response, and it has a question section. -/
def Result.Good (res : Result) : Prop :=
  res.2 = none → ∃ r, res.1 = some r ∧ r.Question ≠ []

/-- The local variables of `forwardSearch` can be used without a panic. -/
def SearchState.Good (st : SearchState) : Prop :=
  st.reqCopy.Question ≠ [] ∧
  (st.didSearch = true → Result.Good (st.r, st.err)) ∧
  (∀ nd, st.nodata = some nd → nd.Question ≠ [])

/-- The local variables of `ServeDNSForward` can be used without a nil
dereference in the failure branches. -/
def LookupState.Good (st : LookupState) : Prop :=
  (st.didAbsolute = true → st.absoluteErr = none → st.absoluteRes.isSome = true) ∧
  (st.didSearch = true → st.searchErr = none → st.searchRes.isSome = true)

/-- A block of `ServeDNSForward` that lets control go on leaves good local variables. -/
def Flow.GoodNext : Flow → Prop
  | .ret _ _ _ => True
  | .next st _ => st.Good

/-! ## Auxiliary descriptions for the key -/

/-- The bytes `Key` appends for the two flags: `0xFF` for DNSSEC, then `0xFE`
for TCP. -/
def flagBytes (dnssec tcp : Bool) : Bytes :=
  (if dnssec then [255] else []) ++ (if tcp then [254] else [])

/-- The question `a. IN 11777` (type `0x2E01`). -/
def exQuestionA1 : Question := { Name := [97, 46], Qtype := 11777, Qclass := 1 }

/-- The question `a.. IN 511` (type `0x01FF`). -/
def exQuestionA2 : Question := { Name := [97, 46, 46], Qtype := 511, Qclass := 1 }

/-- The question with the three-byte name `a.` followed by a NUL byte, and
type 511 (`0x01FF`). -/
def exQuestionA3 : Question := { Name := [97, 46, 0], Qtype := 511, Qclass := 1 }

/-! ## Reachable caches and example runs -/

/-- The cache is one that `New` with a positive capacity and a sequence of
`InsertMessage`, `Hit` and `Remove` calls can produce. -/
def Cache.Reachable (c : Cache) : Prop :=
  ∃ (capacity ttl staleTtl : Int) (ttlFromResp : Bool) (ttlMax : Int) (ops : List Op),
    0 < capacity ∧ ValidRun (New capacity ttl staleTtl ttlFromResp ttlMax) ops ∧
    c = run (New capacity ttl staleTtl ttlFromResp ttlMax) ops

/-- A cache of capacity 2 (fresh TTL 1 s, stale TTL 3 s) into which `a. IN A`
was inserted at time 0. -/
def exCacheTwo : Cache :=
  run (New 2 1 3 false 0) [Op.insert exKeyA exMsgA (InsertClock.const 0) [exKeyA] [exKeyA]]

/-- The cache of capacity 1 right after `InsertMessage` stored `a. IN A` in it
and before `EvictRandom` runs. -/
def exCacheFull : Cache := insertStore (New 1 60 120 false 0) exKeyA exMsgA (InsertClock.const 0)

/-- A cache of capacity 1 that holds two entries. -/
def exCacheOver : Cache := { New 1 60 120 false 0 with m := [(exKeyA, exElemA), (exKeyB, exElemA)] }

/-- A run on a cache with fresh TTL 10 s and stale TTL 30 s: `a. IN A` is
inserted at time 0, hit at 5 s while fresh, and hit at 20 s as a stale entry. -/
def exOpsHits : List Op :=
  [Op.insert exKeyA exMsgA (InsertClock.const 0) [exKeyA] [exKeyA],
   Op.hit exQuestionA false false 7 true false (HitClock.const (5 * Second)),
   Op.hit exQuestionA false false 7 true true (HitClock.const (20 * Second))]

/-- The cache after the run `exOpsHits`. -/
def exCacheHits : Cache := run (New 10 10 30 false 0) exOpsHits

/-! ## The TTL computation in the words of the specification -/

/-- The minimum TTL over the records of the answer section, 0 when the answer
section is empty. -/
def specMinTtl (r : Msg) : Nat :=
  match r.Answer.map (fun rr => rr.Ttl) with
  | [] => 0
  | t :: ts => ts.foldl min t

/-- The value `v` clamped into the interval from `lo` to `hi`. -/
def specClamp (lo hi v : Nat) : Nat := max lo (min v hi)

/-- A message with two answer records, of TTL 300 and 20. -/
def exMsgTtl : Msg :=
  { exMsgA with
    Answer := [{ Name := [97, 46], Rrtype := 1, Class := 1, Ttl := 300, rdata := RData.raw [1] },
               { Name := [97, 46], Rrtype := 1, Class := 1, Ttl := 20, rdata := RData.raw [2] }] }

/-- The cache `c` with the map `m` in place of its own: every cache with the
configuration of `c`. -/
def Cache.withEntries (c : Cache) (m : Entries) : Cache := { c with m := m }

/-! ## The forwarder: one pass of the search loop -/

/-- The request `forwardSearch` sends for the candidate `searchName`: the
assignment `reqCopy.Question[0] = dns.Question{Name: searchName, ...}`, which
keeps the type and class and panics on an empty question section. -/
def searchRequest (reqCopy : Msg) (searchName : Bytes) : Option Msg :=
  match reqCopy.Question with
  | [] => none
  | q0 :: qs =>
    some { reqCopy with
           Question := { Name := searchName, Qtype := q0.Qtype, Qclass := q0.Qclass } :: qs }

/-- One pass through the body of the loop of `forwardSearch`, for the search
domain `domain`: the flag tells whether the pass ends in `continue` (the loop
goes on with the next domain) or in `break`. -/
def searchStep (env : Env) (cfg : Config) (name : Bytes) (tcp : Bool) (domain : Bytes)
    (st : SearchState) (w : World) : Option (Bool × SearchState × World) :=
  if HasSuffix name domain then some (true, st, w)
  else
    let searchName := env.ToLower (env.appendDomain name domain)
    match searchRequest st.reqCopy searchName with
    | none => none
    | some reqCopy =>
      match forwardQuery env cfg reqCopy tcp w with
      | none => none
      | some ((r, err), w) =>
        let st := { st with r := r, err := err, searchName := searchName, didSearch := true,
                            reqCopy := reqCopy }
        match err with
        | some _ => some (false, st, w)
        | none =>
          match r with
          | none => none
          | some rm =>
            let w := if rm.Rcode = RcodeNameError then w.incNameErrorCount else w
            if rm.Rcode = RcodeSuccess then
              if rm.Answer.length = 0 ∧ rm.Truncated = false then
                some (true, { st with nodata := some rm.Copy }, w)
              else some (false, st, w)
            else if rm.Rcode = RcodeNameError ∨ rm.Rcode = RcodeServerFailure then
              some (true, st, w)
            else some (false, st, w)

/-- The passes of the loop of `forwardSearch` for the domains `domains`, as
long as every one of them ends in `continue`: the local variables and the
world at the head of the loop afterwards; `none` when a pass ends in `break`
or panics. -/
def searchPasses (env : Env) (cfg : Config) (name : Bytes) (tcp : Bool) :
    List Bytes → SearchState → World → Option (SearchState × World)
  | [], st, w => some (st, w)
  | domain :: rest, st, w =>
    match searchStep env cfg name tcp domain st w with
    | some (true, st1, w1) => searchPasses env cfg name tcp rest st1 w1
    | _ => none

/-- The local variables of `forwardSearch` when its loop is entered. -/
def searchInit (req : Msg) : SearchState :=
  { r := none, nodata := none, searchName := [], err := none, didSearch := false,
    reqCopy := req.Copy }

/-- The message `r` after the assignment `r.Question[0] = q`, where the
question section of `r` is not empty. -/
def Msg.withQuestion0 (r : Msg) (q : GoDnsmasq.Question) : Msg :=
  { r with Question := q :: r.Question.tail }

/-- An address record `a.o. IN A` with TTL 30. -/
def exRRA : RR :=
  { Name := [97, 46, 111, 46], Rrtype := 1, Class := 1, Ttl := 30, rdata := RData.raw [10, 0, 0, 1] }

/-- The reply of the upstream of `exEnvZones` to `req` whose question name is
`name`: an address record under `o.`, NODATA under `n.`, REFUSED under `r.`,
SERVFAIL under `s.` and NXDOMAIN for every other name. -/
def exZoneReply (req : Msg) (name : Bytes) : Msg :=
  if HasSuffix name [111, 46] then { Msg.new.SetReply req with Answer := [exRRA] }
  else if HasSuffix name [110, 46] then Msg.new.SetReply req
  else if HasSuffix name [114, 46] then Msg.new.SetRcode req RcodeRefused
  else if HasSuffix name [115, 46] then Msg.new.SetRcode req RcodeServerFailure
  else Msg.new.SetRcode req RcodeNameError

/-- An environment for examples with search domains: every upstream fails with
a transport error for a name under `t.` and answers every other name with
`exZoneReply`; names have one label per dot and `appendDomain` concatenates. -/
def exEnvZones : Env :=
  { exchange := fun _ _ req _ =>
      match req.Question with
      | [] => Exchange.failure none "no question"
      | q :: _ =>
        if HasSuffix q.Name [116, 46] then Exchange.failure none "i/o timeout"
        else Exchange.answer (exZoneReply req q.Name)
    stubRange := fun _ stubs => stubs
    CountLabel := fun name => ((name.filter (fun b => decide (b = 46))).length : Int)
    ToLower := fun name => name
    appendDomain := fun name domain => name ++ domain }

/-- A configuration for examples with one upstream and the search domains
`domains`. -/
def exConfigSearch (domains : List Bytes) : Config :=
  { exConfig with Nameservers := ["ns"], EnableSearch := true, SearchDomains := domains }

/-- The search domain `o.`. -/
def exDomO : Bytes := [111, 46]

/-- The search domain `n.`. -/
def exDomN : Bytes := [110, 46]

/-- The search domain `r.`. -/
def exDomR : Bytes := [114, 46]

/-- The search domain `s.`. -/
def exDomS : Bytes := [115, 46]

/-- The search domain `t.`. -/
def exDomT : Bytes := [116, 46]

/-- The search domain `x.`. -/
def exDomX : Bytes := [120, 46]

/-- The copy `reqCopy` of `forwardSearch` differs from the request `req` in
the name of the first question at most: a candidate request built from it is
the one built from `req`. -/
def SearchState.CopyOf (st : SearchState) (req : Msg) : Prop :=
  ∀ n, searchRequest st.reqCopy n = searchRequest req n

/-- Every reply captured in the variable `nodata` of `forwardSearch` is a
NODATA reply: code NOERROR, empty answer section, not truncated. -/
def SearchState.NodataInv (st : SearchState) : Prop :=
  ∀ nd, st.nodata = some nd → nd.Rcode = RcodeSuccess ∧ nd.Answer = [] ∧ nd.Truncated = false

/-- The reply captured in the variable `nodata` of `forwardSearch`, if any,
has a question section. -/
def SearchState.NodataQuestion (st : SearchState) : Prop :=
  ∀ nd, st.nodata = some nd → nd.Question ≠ []

/-- The response code an exchange brought, if it brought a response without
transport error. -/
def Call.rcode (c : Call) : Option Nat :=
  match c.out with
  | .answer r => some r.Rcode
  | .failure _ _ => none

/-- The name of the first question of the request an exchange carried. -/
def Call.qname (c : Call) : Option Bytes := c.req.Question.head?.map (fun q => q.Name)
/-- The request `forwardSearch` sends for `exMsgA` and the search domain `domain`. -/
def exCandidate (domain : Bytes) : Msg :=
  { exMsgA with Question := [{ Name := [97, 46] ++ domain, Qtype := 1, Qclass := 1 }] }

/-- The exchange of `exEnvZones` for `exMsgA` and the search domain `domain`
when the upstream answers. -/
def exCallZone (domain : Bytes) : Call :=
  Call.mk "ns" false (exCandidate domain)
    (Exchange.answer (exZoneReply (exCandidate domain) ([97, 46] ++ domain)))

/-- The exchange of `exEnvZones` for `exMsgA` and the search domain `t.`: a
transport error. -/
def exCallTimeout : Call :=
  Call.mk "ns" false (exCandidate exDomT) (Exchange.failure none "i/o timeout")

/-- The world `exWorld` after the exchanges `calls`. -/
def exWorldCalls (calls : List Call) : World := { exWorld with calls := calls }

/-- The local variables of `forwardSearch` for `exMsgA` after the pass for the
search domain `n.`, which captured the NODATA reply. -/
def exStateN : SearchState :=
  { r := some (exZoneReply (exCandidate exDomN) ([97, 46] ++ exDomN)),
    nodata := some (exZoneReply (exCandidate exDomN) ([97, 46] ++ exDomN)),
    searchName := [97, 46] ++ exDomN, err := none, didSearch := true,
    reqCopy := exCandidate exDomN }

/-- The world of the examples in which `ServeDNSForward` has counted the
forward, `n` NXDOMAIN responses have been counted and the exchanges `calls`
have been made. -/
def exWorldForward (n : Nat) (calls : List Call) : World :=
  { stats := { ForwardCount := 1, StubForwardCount := 0, NameErrorCount := n, NoDataCount := 0,
               StaleCacheHit := 0, RequestFail := 0 },
    calls := calls, written := [] }

/-- A configuration for examples with search domains in which a name needs
one label-dot to be forwarded as given (`fwd-ndots 1`). -/
def exConfigFwd (domains : List Bytes) : Config :=
  { exConfigSearch domains with FwdNdots := 1 }

/-- What the examples observe of a call of `ServeDNSForward`: the code of the
returned message, the flag, the exchanges made so far and the counters. -/
def observe (res : Option (Msg × Bool × World)) : Option (Nat × Bool × List Call × Stats) :=
  res.map (fun p => (p.1.Rcode, p.2.1, p.2.2.calls, p.2.2.stats))

/-- The three lookup blocks of `ServeDNSForward` in a row, entered after the
refusal switch with `forward_count` incremented: control returns from one of
them, or it reaches the failure branches with the local variables `st`. -/
def lookupBlocks (env : Env) (cfg : Config) (tcp : Bool) (req : Msg) (nameDots : Int)
    (w : World) : Option Flow :=
  let searchEnabled := cfg.EnableSearch && decide (cfg.SearchDomains.length > 0)
  let st : LookupState :=
    { didAbsolute := false, didSearch := false, absoluteRes := none, searchRes := none,
      absoluteErr := none, searchErr := none }
  match initialAbsolute env cfg tcp req nameDots st w with
  | none => none
  | some (Flow.ret m stale w) => some (Flow.ret m stale w)
  | some (Flow.next st w) =>
    match searchLookup env cfg tcp req searchEnabled st w with
    | none => none
    | some (Flow.ret m stale w) => some (Flow.ret m stale w)
    | some (Flow.next st w) => lateAbsolute env cfg tcp req nameDots st w

/-- The local variables of `ServeDNSForward` record the attempts made so far:
`didAbsolute` tells whether an absolute attempt was made, and then
`(absoluteRes, absoluteErr)` is what `forwardQuery` returned for the request as
given; `didSearch` tells whether a search attempt was made, and then
`(searchRes, searchErr)` is what `forwardSearch` returned. -/
def LookupState.Records (st : LookupState) (env : Env) (cfg : Config) (tcp : Bool)
    (req : Msg) : Prop :=
  (st.didAbsolute = true →
    ∃ wa wb, forwardQuery env cfg req tcp wa = some ((st.absoluteRes, st.absoluteErr), wb)) ∧
  (st.didAbsolute = false → st.absoluteRes = none ∧ st.absoluteErr = none) ∧
  (st.didSearch = true →
    ∃ wa wb, forwardSearch env cfg req tcp wa = some ((st.searchRes, st.searchErr), wb)) ∧
  (st.didSearch = false → st.searchRes = none ∧ st.searchErr = none)
/-- The exchange of `exEnvZones` for `exMsgA` as given: the name `a.` is
answered NXDOMAIN. -/
def exCallAbsolute : Call :=
  Call.mk "ns" false exMsgA (Exchange.answer (exZoneReply exMsgA [97, 46]))

/-- The result of `forwardSearch` for `exMsgA` when its only candidate `a.x.`
is answered NXDOMAIN: that response with the original question. -/
def exSearchResX : Msg :=
  (exZoneReply (exCandidate exDomX) [97, 46, 120, 46]).withQuestion0 exQuestionA

/-- The local variables of `ServeDNSForward` for `exMsgA` under
`exConfigSearch [exDomX]` at the failure branches: the search and then the
absolute attempt were answered NXDOMAIN. -/
def exLookupBoth : LookupState :=
  { didAbsolute := true, didSearch := true, absoluteRes := some (exZoneReply exMsgA [97, 46]),
    searchRes := some exSearchResX, absoluteErr := none, searchErr := none }

/-- The local variables of `ServeDNSForward` for `exMsgA` under
`exConfigFwd [exDomX]` at the failure branches: the search was answered
NXDOMAIN and no absolute attempt was made. -/
def exLookupSearch : LookupState :=
  { didAbsolute := false, didSearch := true, absoluteRes := none,
    searchRes := some exSearchResX, absoluteErr := none, searchErr := none }

/-- The local variables of `ServeDNSForward` for `exMsgA` under
`exConfigSearch [exDomT]` at the failure branches: the search ended with a
transport error and no absolute attempt was made. -/
def exLookupTimeout : LookupState :=
  { didAbsolute := false, didSearch := true, absoluteRes := none, searchRes := none,
    absoluteErr := none, searchErr := some "i/o timeout" }

/-- None of the exchanges `new` brought a response: each ended with a
transport error. -/
def AllFailed (new : List Call) : Prop := ∀ c ∈ new, c.rcode = none

/-- A request with id 7 whose question section is `t. IN A`. -/
def exMsgT : Msg := { Msg.new with Id := 7, Question := [{ Name := [116, 46], Qtype := 1, Qclass := 1 }] }

/-- The exchange of `exEnvZones` for `exMsgT` as given: a transport error. -/
def exCallT : Call := Call.mk "ns" false exMsgT (Exchange.failure none "i/o timeout")

/-- The exchange brought a response with code NXDOMAIN. -/
def Call.isNameError (c : Call) : Bool := c.rcode == some RcodeNameError

/-- The number of responses with code NXDOMAIN among the exchanges `new`. -/
def nameErrors (new : List Call) : Nat := (new.filter Call.isNameError).length

/-- A configuration for examples with one upstream and no search. -/
def exConfigOne : Config := { exConfig with Nameservers := ["ns"] }

/-- A request with id 7 whose question section is `a.x. IN A`. -/
def exMsgAX : Msg :=
  { Msg.new with Id := 7, Question := [{ Name := [97, 46, 120, 46], Qtype := 1, Qclass := 1 }] }

/-- A configuration for examples with two upstreams and the flag
`rcache-non-negative` set. -/
def exConfigNonNegative : Config :=
  { exConfig with Nameservers := ["ns1", "ns2"], RCacheNonNegative := true }
/-- A configuration for examples with the default upstream `ns` and the stub
zone `o.` served by `stub1` and `stub2`. -/
def exConfigStub : Config :=
  { exConfig with Nameservers := ["ns"], Stub := [([111, 46], ["stub1", "stub2"])] }

/-! ## The hash `crypto/sha1` (FIPS 180-4) -/

/-- The 32-bit word `x` rotated left by `n` bits. -/
def rotl32 (x n : Nat) : Nat := ((x <<< n) ||| (x >>> (32 - n))) % 2 ^ 32

/-- The eight bytes of the 64-bit value `n`, most significant first. -/
def be64 (n : Nat) : List Nat :=
  [n >>> 56 % 256, n >>> 48 % 256, n >>> 40 % 256, n >>> 32 % 256,
   n >>> 24 % 256, n >>> 16 % 256, n >>> 8 % 256, n % 256]

/-- The padded message: the byte `0x80`, zero bytes up to 56 modulo 64, and
the length of the message in bits as a 64-bit big-endian number. -/
def sha1Pad (msg : List Nat) : List Nat :=
  msg ++ [128] ++ List.replicate ((119 - msg.length % 64) % 64) 0 ++ be64 (8 * msg.length)

/-- The big-endian 32-bit words of a list of bytes; `fuel` bounds their number. -/
def beWords : Nat → List Nat → List Nat
  | fuel + 1, b0 :: b1 :: b2 :: b3 :: rest =>
    (((b0 * 256 + b1) * 256 + b2) * 256 + b3) :: beWords fuel rest
  | _, _ => []

/-- The message schedule: the words `ws` extended by `n` further words, each
the rotation of the exclusive or of the words 3, 8, 14 and 16 places back. -/
def sha1Schedule : Nat → List Nat → List Nat
  | 0, ws => ws
  | n + 1, ws =>
    let t := ws.length
    sha1Schedule n
      (ws ++ [rotl32 (ws.getD (t - 3) 0 ^^^ ws.getD (t - 8) 0 ^^^ ws.getD (t - 14) 0 ^^^
        ws.getD (t - 16) 0) 1])

/-- The five working variables of SHA-1. -/
structure Sha1State where
  a : Nat
  b : Nat
  c : Nat
  d : Nat
  e : Nat

/-- Round `t` of the compression function with the schedule word `wt`. -/
def sha1Round (s : Sha1State) (t wt : Nat) : Sha1State :=
  let f :=
    if t < 20 then (s.b &&& s.c) ||| ((s.b ^^^ (2 ^ 32 - 1)) &&& s.d)
    else if t < 40 then s.b ^^^ s.c ^^^ s.d
    else if t < 60 then (s.b &&& s.c) ||| (s.b &&& s.d) ||| (s.c &&& s.d)
    else s.b ^^^ s.c ^^^ s.d
  let k :=
    if t < 20 then 0x5A827999
    else if t < 40 then 0x6ED9EBA1
    else if t < 60 then 0x8F1BBCDC
    else 0xCA62C1D6
  { a := (rotl32 s.a 5 + f + s.e + k + wt) % 2 ^ 32, b := s.a, c := rotl32 s.b 30, d := s.c,
    e := s.d }

/-- The rounds for the schedule words `ws`, the first of which is round `t`. -/
def sha1Rounds : List Nat → Nat → Sha1State → Sha1State
  | [], _, s => s
  | wt :: ws, t, s => sha1Rounds ws (t + 1) (sha1Round s t wt)

/-- The compression of one 64-byte block into the hash value `h`. -/
def sha1Block (h : Sha1State) (block : List Nat) : Sha1State :=
  let s := sha1Rounds (sha1Schedule 64 (beWords 16 block)) 0 h
  { a := (h.a + s.a) % 2 ^ 32, b := (h.b + s.b) % 2 ^ 32, c := (h.c + s.c) % 2 ^ 32,
    d := (h.d + s.d) % 2 ^ 32, e := (h.e + s.e) % 2 ^ 32 }

/-- The compression of the 64-byte blocks of `bytes`, in order; `fuel` bounds
their number. -/
def sha1Blocks : Nat → Sha1State → List Nat → Sha1State
  | 0, h, _ => h
  | fuel + 1, h, bytes =>
    if bytes.length < 64 then h
    else sha1Blocks fuel (sha1Block h (bytes.take 64)) (bytes.drop 64)

/-- The four bytes of the 32-bit word `x`, most significant first. -/
def be32 (x : Nat) : List Nat := [x >>> 24 % 256, x >>> 16 % 256, x >>> 8 % 256, x % 256]

/-- The SHA-1 digest of `msg`: what `h.Sum(nil)` returns after `h.Write(msg)`
on `h := sha1.New()`. -/
def sha1Sum (msg : Bytes) : Bytes :=
  let bytes := sha1Pad (msg.map (fun b => b.val))
  let h := sha1Blocks (bytes.length / 64)
    { a := 0x67452301, b := 0xEFCDAB89, c := 0x98BADCFE, d := 0x10325476, e := 0xC3D2E1F0 } bytes
  (be32 h.a ++ be32 h.b ++ be32 h.c ++ be32 h.d ++ be32 h.e).map (fun n => Fin.ofNat n)

/-- The bytes `Key` puts in front of the digest: the name, the type as a
big-endian 16-bit number, and the flag bytes. -/
def keyPrefix (q : Question) (dnssec tcp : Bool) : Bytes :=
  q.Name ++ packUint16 q.Qtype ++ flagBytes dnssec tcp

/-! ## Lowercase names in the words of the specification -/

/-- The byte `b` with an ASCII capital letter replaced by the small letter. -/
def specLowerByte (b : Byte) : Byte :=
  if 65 ≤ b.val ∧ b.val ≤ 90 then Fin.ofNat (b.val + 32) else b

/-- The name with every ASCII capital letter replaced by the small letter:
two names differ only in the case of ASCII letters when this gives the same
name for both. -/
def specLowerName (name : Bytes) : Bytes := name.map specLowerByte

/-- The name `Example.COM.`. -/
def exNameMixed : Bytes := [69, 120, 97, 109, 112, 108, 101, 46, 67, 79, 77, 46]

/-- The name `example.com.`. -/
def exNameLower : Bytes := [101, 120, 97, 109, 112, 108, 101, 46, 99, 111, 109, 46]

/-- The call is an `InsertMessage` for the key `s` whose clock reads at or
past the stale expiration of the entry `e`. -/
def Op.InsertsPastStale (s : Bytes) (e : elem) : Op → Prop
  | .insert s1 _ clk _ _ => s1 = s ∧ e.staleExpiration ≤ clk.sinceStale
  | _ => False

/-! ## NODATA replies in the trace of exchanges -/

/-- The reply is a NODATA reply: code NOERROR, empty answer section, not
truncated (the test on which `forwardSearch` captures it). -/
def Msg.isNodata (r : Msg) : Bool :=
  decide (r.Rcode = RcodeSuccess) && decide (r.Answer.length = 0) && decide (r.Truncated = false)

/-- The NODATA reply an exchange brought, if it brought one. -/
def Call.nodataReply (c : Call) : Option Msg :=
  match c.out with
  | .answer r => if r.isNodata then some r else none
  | .failure _ _ => none

/-- The most recent NODATA reply among the exchanges `calls` (oldest first). -/
def lastNodata (calls : List Call) : Option Msg := (calls.filterMap Call.nodataReply).getLast?

/-- The NODATA reply a lookup returned, if it returned one without error. -/
def Result.nodataList : Result → List Msg
  | (some r, none) => if r.isNodata then [r] else []
  | _ => []

/-- A NODATA reply of the examples to `req`, whose authority section holds one
SOA record owned by the queried name `name`. -/
def exSoaReply (req : Msg) (name : Bytes) : Msg :=
  { Msg.new.SetReply req with
    Ns := [{ Name := name, Rrtype := 6, Class := 1, Ttl := 60, rdata := RData.raw [] }] }

/-- An environment for examples like `exEnvZones`, except that a name under
`n.` is answered with the NODATA reply `exSoaReply`, so that the NODATA replies
to different names differ beyond their question section. -/
def exEnvSoa : Env :=
  { exEnvZones with
    exchange := fun _ _ req _ =>
      match req.Question with
      | [] => Exchange.failure none "no question"
      | q :: _ =>
        if HasSuffix q.Name [116, 46] then Exchange.failure none "i/o timeout"
        else if HasSuffix q.Name [110, 46] then Exchange.answer (exSoaReply req q.Name)
        else Exchange.answer (exZoneReply req q.Name) }

/-- An environment for examples like `exEnvZones`, except that every reply
comes without a question section. -/
def exEnvBare : Env :=
  { exEnvZones with
    exchange := fun _ _ req _ =>
      match req.Question with
      | [] => Exchange.failure none "no question"
      | q :: _ =>
        if HasSuffix q.Name [116, 46] then Exchange.failure none "i/o timeout"
        else Exchange.answer { exZoneReply req q.Name with Question := [] } }

/-- The search domain `b.n.`. -/
def exDomBN : Bytes := [98, 46, 110, 46]

/-- The exchange of `exEnvSoa` for `exMsgA` and a search domain under `n.`. -/
def exCallSoa (domain : Bytes) : Call :=
  Call.mk "ns" false (exCandidate domain)
    (Exchange.answer (exSoaReply (exCandidate domain) ([97, 46] ++ domain)))

/-- The exchange of `exEnvBare` for `exMsgA` and the search domain `domain`. -/
def exCallBare (domain : Bytes) : Call :=
  Call.mk "ns" false (exCandidate domain)
    (Exchange.answer { exZoneReply (exCandidate domain) ([97, 46] ++ domain) with Question := [] })

/-! ## Lemmas on the map operations -/

theorem Entries.length_delete_le (m : Entries) (k : Bytes) :
    (m.delete k).length ≤ m.length := by
  unfold Entries.delete
  exact List.length_filter_le _ _

theorem Entries.length_delete_lt (m : Entries) (k : Bytes) (h : k ∈ m.keys) :
    (m.delete k).length < m.length := by
  induction m with
  | nil => simp [Entries.keys] at h
  | cons p rest ih =>
    by_cases hp : p.1 = k
    · have h1 : Entries.delete (p :: rest) k = Entries.delete rest k := by
        simp [Entries.delete, List.filter_cons, hp]
      rw [h1]
      have := Entries.length_delete_le rest k
      simp only [List.length_cons]
      omega
    · have h1 : Entries.delete (p :: rest) k = p :: Entries.delete rest k := by
        simp [Entries.delete, List.filter_cons, hp]
      rw [h1]
      have hk : k ∈ Entries.keys rest := by
        simp only [Entries.keys, List.map_cons, List.mem_cons] at h
        rcases h with h | h
        · exact absurd h.symm hp
        · exact h
      have := ih hk
      simp only [List.length_cons]
      omega

theorem Entries.length_set_le (m : Entries) (k : Bytes) (e : elem) :
    (m.set k e).length ≤ m.length + 1 := by
  induction m with
  | nil => simp [Entries.set]
  | cons p rest ih =>
    obtain ⟨k1, e1⟩ := p
    by_cases hp : k1 = k
    · simp [Entries.set, hp]
    · simp only [Entries.set, hp, if_false, List.length_cons]
      omega

theorem Entries.length_modify (m : Entries) (k : Bytes) (f : elem → elem) :
    (m.modify k f).length = m.length := by
  induction m with
  | nil => simp [Entries.modify]
  | cons p rest ih =>
    obtain ⟨k1, e1⟩ := p
    by_cases hp : k1 = k
    · simp [Entries.modify, hp]
    · simp only [Entries.modify, hp, if_false, List.length_cons, ih]

/-! ## Lemmas on eviction -/

/-- Once the position counter is negative the loop deletes nothing. -/
theorem evictLoop_neg (onlyStale : Bool) (now : Time) (order : List Bytes) (i : Int)
    (m : Entries) (hi : i < 0) : evictLoop onlyStale now order i m = m := by
  induction order generalizing i m with
  | nil => rfl
  | cons k order ih =>
    have h0 : ¬ i = 0 := by omega
    simp only [evictLoop, h0, if_false]
    exact ih (i - 1) m (by omega)

/-- The loop never adds an entry. -/
theorem evictLoop_length_le (onlyStale : Bool) (now : Time) (order : List Bytes) (i : Int)
    (m : Entries) (hi : i ≤ 0) : (evictLoop onlyStale now order i m).length ≤ m.length := by
  cases order with
  | nil => simp [evictLoop]
  | cons k order =>
    simp only [evictLoop]
    rw [evictLoop_neg _ _ _ _ _ (by omega)]
    split
    · split
      · split
        · split
          · exact Entries.length_delete_le _ _
          · exact le_refl _
        · exact le_refl _
      · exact Entries.length_delete_le _ _
    · exact le_refl _

theorem evictRandomInternal_capacity (c : Cache) (onlyStale : Bool) (now : Time)
    (order : List Bytes) : (evictRandomInternal c onlyStale now order).capacity = c.capacity := by
  simp only [evictRandomInternal]
  split <;> rfl

theorem evictRandomInternal_length_le (c : Cache) (onlyStale : Bool) (now : Time)
    (order : List Bytes) : (evictRandomInternal c onlyStale now order).m.length ≤ c.m.length := by
  simp only [evictRandomInternal]
  split
  · exact le_refl _
  · rename_i h
    exact evictLoop_length_le _ _ _ _ _ (by simp only [not_lt] at h; omega)

/-- The unconditional pass, run on a map that holds exactly `capacity` entries
with an iteration order of that map, leaves fewer than `capacity` entries. -/
theorem evictRandomInternal_false_lt (c : Cache) (now : Time) (order : List Bytes)
    (hcap : 0 < c.capacity) (hlen : (c.m.length : Int) ≤ c.capacity)
    (hord : order.Perm c.m.keys) :
    ((evictRandomInternal c false now order).m.length : Int) < c.capacity := by
  simp only [evictRandomInternal]
  split
  · assumption
  · rename_i h
    have heq : c.capacity - (c.m.length : Int) = 0 := by simp only [not_lt] at h; omega
    cases order with
    | nil =>
      have hk : c.m.keys = [] := List.Perm.eq_nil (List.Perm.symm hord)
      have : c.m.length = 0 := by
        have := congrArg List.length hk
        simpa [Entries.keys] using this
      omega
    | cons k order =>
      have hk : k ∈ c.m.keys := (List.Perm.mem_iff hord).1 (List.mem_cons_self _ _)
      have hlt := Entries.length_delete_lt c.m k hk
      simp only [evictLoop, heq, if_true]
      rw [evictLoop_neg _ _ _ _ _ (by omega)]
      simp only [Bool.false_eq_true, if_false]
      omega

theorem EvictRandom_capacity (c : Cache) (now : Time) (order1 order2 : List Bytes) :
    (EvictRandom c now order1 order2).capacity = c.capacity := by
  simp [EvictRandom, evictRandomInternal_capacity]

/-- The store of `InsertMessage` either writes `insertedElem` under the key or
leaves the cache as it is. -/
theorem insertStore_cases (c : Cache) (s : Bytes) (msg : Msg) (clk : InsertClock) :
    insertStore c s msg clk = { c with m := c.m.set s (insertedElem c msg clk) } ∨
    insertStore c s msg clk = c := by
  simp only [insertStore, insertedElem, Msg.Copy]
  split
  · left; rfl
  · right; rfl

theorem insertStore_capacity (c : Cache) (s : Bytes) (msg : Msg) (clk : InsertClock) :
    (insertStore c s msg clk).capacity = c.capacity := by
  rcases insertStore_cases c s msg clk with h | h <;> rw [h]

theorem insertStore_length_le (c : Cache) (s : Bytes) (msg : Msg) (clk : InsertClock) :
    (insertStore c s msg clk).m.length ≤ c.m.length + 1 := by
  rcases insertStore_cases c s msg clk with h | h <;> rw [h]
  · exact Entries.length_set_le _ _ _
  · omega

theorem InsertMessage_capacity (c : Cache) (s : Bytes) (msg : Msg) (clk : InsertClock)
    (order1 order2 : List Bytes) :
    (InsertMessage c s msg clk order1 order2).capacity = c.capacity := by
  unfold InsertMessage
  split
  · rfl
  · rw [EvictRandom_capacity, insertStore_capacity]

/-- With valid iteration orders, `InsertMessage` on a cache that holds fewer
than `capacity` entries leaves fewer than `capacity` entries. -/
theorem InsertMessage_length_lt (c : Cache) (s : Bytes) (msg : Msg) (clk : InsertClock)
    (order1 order2 : List Bytes) (hcap : 0 < c.capacity)
    (hlen : (c.m.length : Int) < c.capacity)
    (hord : (Op.insert s msg clk order1 order2).ValidOrders c) :
    ((InsertMessage c s msg clk order1 order2).m.length : Int) < c.capacity := by
  obtain ⟨_, h2⟩ := hord
  have hnot : ¬ c.capacity ≤ 0 := by omega
  simp only [InsertMessage, hnot, if_false, EvictRandom]
  have hs := insertStore_length_le c s msg clk
  have h1 := evictRandomInternal_length_le (insertStore c s msg clk) true clk.evict order1
  have hc1 := evictRandomInternal_capacity (insertStore c s msg clk) true clk.evict order1
  have hc0 := insertStore_capacity c s msg clk
  have := evictRandomInternal_false_lt
    (evictRandomInternal (insertStore c s msg clk) true clk.evict order1) clk.evict order2
    (by rw [hc1, hc0]; exact hcap) (by rw [hc1, hc0]; omega) h2
  rw [hc1, hc0] at this
  exact this

/-! ## Lemmas on `Search` and `Hit` -/

theorem Search_found (c : Cache) (s : Bytes) (e : elem) (hcap : 0 < c.capacity)
    (h : c.m.get s = some e) :
    Search c s = (some e.msg, e.expiration, e.staleExpiration, true) := by
  have hnot : ¬ c.capacity ≤ 0 := by omega
  simp only [Search, hnot, if_false, h, Msg.Copy]

theorem Search_absent (c : Cache) (s : Bytes) (h : c.m.get s = none) :
    Search c s = (none, zeroTime, zeroTime, false) := by
  simp only [Search, h]
  split <;> rfl

theorem Search_disabled (c : Cache) (s : Bytes) (h : c.capacity ≤ 0) :
    Search c s = (none, zeroTime, zeroTime, false) := by
  simp only [Search, h, if_true]

/-- What `Hit` does when the key has an entry. -/
theorem Hit_found (c : Cache) (q : Question) (dnssec tcp : Bool) (msgid : Nat)
    (keepStale returnStale : Bool) (clk : HitClock) (e : elem) (hcap : 0 < c.capacity)
    (h : c.m.get (Key q dnssec tcp) = some e) :
    Hit c q dnssec tcp msgid keepStale returnStale clk =
      if (decide (Since clk.valid e.expiration < 0) || returnStale) = true then
        (some (servedMsg e.msg msgid),
          servedCache c (Key q dnssec tcp) (decide (Since clk.valid e.expiration < 0)) clk
            e.staleExpiration)
      else (none, if (!keepStale) = true then Remove c (Key q dnssec tcp) else c) := by
  simp only [Hit, Search_found c _ e hcap h, servedMsg, servedCache]

/-- What `Hit` does when the key has no entry or the cache is disabled. -/
theorem Hit_absent (c : Cache) (q : Question) (dnssec tcp : Bool) (msgid : Nat)
    (keepStale returnStale : Bool) (clk : HitClock)
    (h : c.capacity ≤ 0 ∨ c.m.get (Key q dnssec tcp) = none) :
    Hit c q dnssec tcp msgid keepStale returnStale clk = (none, c) := by
  have hs : Search c (Key q dnssec tcp) = (none, zeroTime, zeroTime, false) := by
    rcases h with h | h
    · exact Search_disabled c _ h
    · exact Search_absent c _ h
  simp only [Hit, hs]

theorem servedCache_capacity (c : Cache) (key : Bytes) (valid : Bool) (clk : HitClock)
    (staleExp : Time) : (servedCache c key valid clk staleExp).capacity = c.capacity := by
  simp only [servedCache]
  split <;> split <;> rfl

theorem servedCache_length_le (c : Cache) (key : Bytes) (valid : Bool) (clk : HitClock)
    (staleExp : Time) : (servedCache c key valid clk staleExp).m.length ≤ c.m.length := by
  simp only [servedCache]
  split <;> split <;>
    first
    | (simp only [Remove]
       exact le_trans (Entries.length_delete_le _ _) (le_of_eq (Entries.length_modify _ _ _)))
    | exact le_of_eq (Entries.length_modify _ _ _)

theorem Hit_capacity (c : Cache) (q : Question) (dnssec tcp : Bool) (msgid : Nat)
    (keepStale returnStale : Bool) (clk : HitClock) :
    (Hit c q dnssec tcp msgid keepStale returnStale clk).2.capacity = c.capacity := by
  by_cases hcap : c.capacity ≤ 0
  · rw [Hit_absent _ _ _ _ _ _ _ _ (Or.inl hcap)]
  · cases hg : c.m.get (Key q dnssec tcp) with
    | none => rw [Hit_absent _ _ _ _ _ _ _ _ (Or.inr hg)]
    | some e =>
      rw [Hit_found _ _ _ _ _ _ _ _ e (by omega) hg]
      split
      · exact servedCache_capacity _ _ _ _ _
      · split <;> rfl

theorem Hit_length_le (c : Cache) (q : Question) (dnssec tcp : Bool) (msgid : Nat)
    (keepStale returnStale : Bool) (clk : HitClock) :
    (Hit c q dnssec tcp msgid keepStale returnStale clk).2.m.length ≤ c.m.length := by
  by_cases hcap : c.capacity ≤ 0
  · rw [Hit_absent _ _ _ _ _ _ _ _ (Or.inl hcap)]
  · cases hg : c.m.get (Key q dnssec tcp) with
    | none => rw [Hit_absent _ _ _ _ _ _ _ _ (Or.inr hg)]
    | some e =>
      rw [Hit_found _ _ _ _ _ _ _ _ e (by omega) hg]
      split
      · exact servedCache_length_le _ _ _ _ _
      · split
        · exact Entries.length_delete_le _ _
        · exact le_refl _

/-- The invariant behind the size bound: the capacity never changes and the
cache holds fewer than `capacity` entries. -/
theorem run_length_lt (c : Cache) (ops : List Op) (hcap : 0 < c.capacity)
    (hlen : (c.m.length : Int) < c.capacity) (hv : ValidRun c ops) :
    (run c ops).capacity = c.capacity ∧ ((run c ops).m.length : Int) < c.capacity := by
  induction ops generalizing c with
  | nil => exact ⟨rfl, hlen⟩
  | cons op ops ih =>
    obtain ⟨hv1, hv2⟩ := hv
    have hstep : (op.apply c).capacity = c.capacity ∧
        ((op.apply c).m.length : Int) < c.capacity := by
      cases op with
      | insert s msg clk order1 order2 =>
        exact ⟨InsertMessage_capacity _ _ _ _ _ _,
          InsertMessage_length_lt c s msg clk order1 order2 hcap hlen hv1⟩
      | hit q dnssec tcp msgid keepStale returnStale clk =>
        refine ⟨Hit_capacity _ _ _ _ _ _ _ _, ?_⟩
        have := Hit_length_le c q dnssec tcp msgid keepStale returnStale clk
        simp only [Op.apply]
        omega
      | remove s =>
        refine ⟨rfl, ?_⟩
        have := Entries.length_delete_le c.m s
        simp only [Op.apply, Remove]
        omega
    have := ih (op.apply c) (by rw [hstep.1]; exact hcap) (by rw [hstep.1]; exact hstep.2) hv2
    simp only [run]
    rw [hstep.1] at this
    exact this

theorem run_append (c : Cache) (ops1 ops2 : List Op) :
    run c (ops1 ++ ops2) = run (run c ops1) ops2 := by
  induction ops1 generalizing c with
  | nil => rfl
  | cons op ops ih =>
    show run (op.apply c) (ops ++ ops2) = run (run (op.apply c) ops) ops2
    exact ih _

/-! ## Reading the map after a write -/

theorem Entries.get_set (m : Entries) (k : Bytes) (e : elem) (k1 : Bytes) :
    (m.set k e).get k1 = if k = k1 then some e else m.get k1 := by
  induction m with
  | nil => simp [Entries.set, Entries.get]
  | cons p rest ih =>
    obtain ⟨k0, e0⟩ := p
    by_cases h0 : k0 = k
    · subst h0
      by_cases h1 : k0 = k1 <;> simp [Entries.set, Entries.get, h1]
    · by_cases h1 : k0 = k1
      · subst h1
        have : ¬ k = k0 := fun h => h0 h.symm
        simp [Entries.set, Entries.get, h0, this]
      · simp [Entries.set, Entries.get, h0, h1, ih]

theorem Entries.get_delete (m : Entries) (k k1 : Bytes) :
    (m.delete k).get k1 = if k = k1 then none else m.get k1 := by
  induction m with
  | nil => simp [Entries.delete, Entries.get]
  | cons p rest ih =>
    obtain ⟨k0, e0⟩ := p
    have hrec : Entries.delete ((k0, e0) :: rest) k =
        if k0 = k then Entries.delete rest k else (k0, e0) :: Entries.delete rest k := by
      by_cases h0 : k0 = k <;> simp [Entries.delete, List.filter_cons, h0]
    rw [hrec]
    by_cases h0 : k0 = k
    · subst h0
      by_cases h1 : k0 = k1
      · subst h1
        simp [ih]
      · simp [Entries.get, h1, ih]
    · by_cases h1 : k0 = k1
      · subst h1
        have : ¬ k = k0 := fun h => h0 h.symm
        simp [Entries.get, h0, this]
      · simp [Entries.get, h0, h1, ih]

theorem Entries.get_modify (m : Entries) (k : Bytes) (f : elem → elem) (k1 : Bytes) :
    (m.modify k f).get k1 = if k = k1 then (m.get k).map f else m.get k1 := by
  induction m with
  | nil => simp [Entries.modify, Entries.get]
  | cons p rest ih =>
    obtain ⟨k0, e0⟩ := p
    by_cases h0 : k0 = k
    · subst h0
      by_cases h1 : k0 = k1 <;> simp [Entries.modify, Entries.get, h1]
    · by_cases h1 : k0 = k1
      · subst h1
        have : ¬ k = k0 := fun h => h0 h.symm
        simp [Entries.modify, Entries.get, h0, this]
      · simp [Entries.modify, Entries.get, h0, h1, ih]

/-! ## Clock comparisons -/

theorem Since_neg_iff (now t : Time) : Since now t < 0 ↔ now < t := by
  have h1 : minDuration = -9223372036854775808 := by unfold minDuration; norm_num
  have h2 : maxDuration = 9223372036854775807 := by unfold maxDuration; norm_num
  unfold Since
  rw [h1, h2]
  split
  · constructor <;> intro h <;> linarith
  · split
    · constructor <;> intro h <;> linarith
    · constructor <;> intro h <;> linarith

theorem Since_pos_iff (now t : Time) : Since now t > 0 ↔ t < now := by
  have h1 : minDuration = -9223372036854775808 := by unfold minDuration; norm_num
  have h2 : maxDuration = 9223372036854775807 := by unfold maxDuration; norm_num
  unfold Since
  rw [h1, h2]
  split
  · constructor <;> intro h <;> linarith
  · split
    · constructor <;> intro h <;> linarith
    · constructor <;> intro h <;> linarith

/-! ## The representation invariant -/

theorem Cache.WF.capacity_pos {c : Cache} (hwf : c.WF) {s : Bytes} {e : elem}
    (h : c.m.get s = some e) : 0 < c.capacity := by
  by_contra hcap
  have hm := hwf (by omega)
  rw [hm] at h
  simp [Entries.get] at h

theorem WF_New (capacity ttl staleTtl : Int) (ttlFromResp : Bool) (ttlMax : Int) :
    (New capacity ttl staleTtl ttlFromResp ttlMax).WF := fun _ => rfl

theorem WF_apply (c : Cache) (op : Op) (hwf : c.WF) : (op.apply c).WF := by
  intro hcap
  cases op with
  | insert s msg clk order1 order2 =>
    simp only [Op.apply] at hcap ⊢
    rw [InsertMessage_capacity] at hcap
    simp only [InsertMessage, hcap, if_true]
    exact hwf hcap
  | hit q dnssec tcp msgid keepStale returnStale clk =>
    simp only [Op.apply] at hcap ⊢
    rw [Hit_capacity] at hcap
    rw [Hit_absent _ _ _ _ _ _ _ _ (Or.inl hcap)]
    exact hwf hcap
  | remove s =>
    simp only [Op.apply, Remove] at hcap ⊢
    rw [hwf hcap]
    rfl

/-- Every cache built by `New` and a sequence of calls satisfies the
representation invariant. -/
theorem WF_run (c : Cache) (ops : List Op) (hwf : c.WF) : (run c ops).WF := by
  induction ops generalizing c with
  | nil => exact hwf
  | cons op ops ih => exact ih _ (WF_apply c op hwf)

/-! ## Properties of all entries -/

theorem Entries.All_set {P : elem → Prop} (m : Entries) (k : Bytes) (e : elem)
    (h : Entries.All P m) (he : P e) : Entries.All P (m.set k e) := by
  induction m with
  | nil =>
    intro p hp
    simp only [Entries.set, List.mem_singleton] at hp
    subst hp
    exact he
  | cons p0 rest ih =>
    obtain ⟨k0, e0⟩ := p0
    have hrest : Entries.All P rest := fun p hp => h p (List.mem_cons_of_mem _ hp)
    intro p hp
    by_cases h0 : k0 = k
    · simp only [Entries.set, h0, if_true, List.mem_cons] at hp
      rcases hp with hp | hp
      · subst hp
        exact he
      · exact hrest p hp
    · simp only [Entries.set, h0, if_false, List.mem_cons] at hp
      rcases hp with hp | hp
      · subst hp
        exact h _ (List.mem_cons_self _ _)
      · exact ih hrest p hp

theorem Entries.All_delete {P : elem → Prop} (m : Entries) (k : Bytes)
    (h : Entries.All P m) : Entries.All P (m.delete k) := by
  intro p hp
  exact h p (List.mem_of_mem_filter hp)

theorem Entries.All_modify {P : elem → Prop} (m : Entries) (k : Bytes) (f : elem → elem)
    (h : Entries.All P m) (hf : ∀ e, P e → P (f e)) : Entries.All P (m.modify k f) := by
  induction m with
  | nil =>
    intro p hp
    simp [Entries.modify] at hp
  | cons p0 rest ih =>
    obtain ⟨k0, e0⟩ := p0
    have hrest : Entries.All P rest := fun p hp => h p (List.mem_cons_of_mem _ hp)
    have h0e : P e0 := h (k0, e0) (List.mem_cons_self _ _)
    intro p hp
    by_cases h0 : k0 = k
    · simp only [Entries.modify, h0, if_true, List.mem_cons] at hp
      rcases hp with hp | hp
      · subst hp
        exact hf _ h0e
      · exact hrest p hp
    · simp only [Entries.modify, h0, if_false, List.mem_cons] at hp
      rcases hp with hp | hp
      · subst hp
        exact h0e
      · exact ih hrest p hp

theorem evictLoop_All {P : elem → Prop} (onlyStale : Bool) (now : Time) (order : List Bytes)
    (i : Int) (m : Entries) (h : Entries.All P m) :
    Entries.All P (evictLoop onlyStale now order i m) := by
  induction order generalizing i m with
  | nil => exact h
  | cons k order ih =>
    simp only [evictLoop]
    apply ih
    split
    · split
      · split
        · split
          · exact Entries.All_delete _ _ h
          · exact h
        · exact h
      · exact Entries.All_delete _ _ h
    · exact h

theorem evictRandomInternal_All {P : elem → Prop} (c : Cache) (onlyStale : Bool) (now : Time)
    (order : List Bytes) (h : Entries.All P c.m) :
    Entries.All P (evictRandomInternal c onlyStale now order).m := by
  simp only [evictRandomInternal]
  split
  · exact h
  · exact evictLoop_All _ _ _ _ _ h

/-! ## Operations change nothing but the map -/

theorem evictRandomInternal_SameConfig (c : Cache) (onlyStale : Bool) (now : Time)
    (order : List Bytes) : c.SameConfig (evictRandomInternal c onlyStale now order) := by
  simp only [evictRandomInternal, Cache.SameConfig]
  split <;> rfl

theorem insertStore_SameConfig (c : Cache) (s : Bytes) (msg : Msg) (clk : InsertClock) :
    c.SameConfig (insertStore c s msg clk) := by
  unfold Cache.SameConfig
  rcases insertStore_cases c s msg clk with h | h <;> rw [h]

theorem Cache.SameConfig.andThen {c c1 c2 : Cache} (h1 : c.SameConfig c1)
    (h2 : c1.SameConfig c2) : c.SameConfig c2 := by
  unfold Cache.SameConfig at *
  rw [h2, h1]

theorem Op.apply_SameConfig (c : Cache) (op : Op) : c.SameConfig (op.apply c) := by
  cases op with
  | insert s msg clk order1 order2 =>
    simp only [Op.apply, InsertMessage]
    split
    · rfl
    · exact (insertStore_SameConfig c s msg clk).andThen
        ((evictRandomInternal_SameConfig _ _ _ _).andThen (evictRandomInternal_SameConfig _ _ _ _))
  | hit q dnssec tcp msgid keepStale returnStale clk =>
    simp only [Op.apply]
    by_cases hcap : c.capacity ≤ 0
    · rw [Hit_absent _ _ _ _ _ _ _ _ (Or.inl hcap)]
      rfl
    · cases hg : c.m.get (Key q dnssec tcp) with
      | none =>
        rw [Hit_absent _ _ _ _ _ _ _ _ (Or.inr hg)]
        rfl
      | some e =>
        rw [Hit_found _ _ _ _ _ _ _ _ e (by omega) hg]
        split
        · simp only [servedCache]
          split <;> split <;> rfl
        · split <;> rfl
  | remove s => rfl

theorem Cache.SameConfig.keepsTtlOrdered {c c1 : Cache} (h : c.SameConfig c1)
    (ho : c.TtlOrdered) : c1.TtlOrdered := by
  unfold Cache.SameConfig at h
  rw [h]
  exact ho

/-! ## Time-to-live arithmetic -/

theorem wrapInt64_of_range (x : Int) (h1 : -(2 ^ 63) ≤ x) (h2 : x < 2 ^ 63) :
    wrapInt64 x = x := by
  unfold wrapInt64
  norm_num at h1 h2 ⊢
  omega

theorem toUint32_le (x : Int) (h : 0 ≤ x) : (toUint32 x : Int) ≤ x := by
  unfold toUint32
  norm_num
  omega

theorem getLowestTtl_le (r : Msg) (lo hi : Nat) :
    getLowestTtl r lo hi ≤ lo ∨ getLowestTtl r lo hi ≤ hi := by
  simp only [getLowestTtl]
  generalize slicesMin _ = v
  by_cases h1 : v < lo
  · simp [h1]
  · by_cases h2 : v > hi
    · simp [h1, h2]
    · right
      simp only [h1, h2, if_false]
      omega

/-- In a cache whose TTL values are ordered, an entry stored with a monotone
clock has its fresh expiration at or before its stale expiration. -/
theorem insertedElem_Ordered (c : Cache) (msg : Msg) (clk : InsertClock)
    (ho : c.TtlOrdered) (hclk : clk.Monotone) : (insertedElem c msg clk).Ordered := by
  obtain ⟨h1, h2⟩ := ho
  obtain ⟨hc1, hc2⟩ := hclk
  simp only [elem.Ordered, insertedElem]
  split
  · rename_i hf
    obtain ⟨h3, h4⟩ := h2 hf
    have hle := getLowestTtl_le msg c.ttlMinSeconds c.ttlMaxSeconds
    have hle2 : (getLowestTtl msg c.ttlMinSeconds c.ttlMaxSeconds : Int) * Second ≤ c.staleTtl := by
      rcases hle with h | h
      · have : (getLowestTtl msg c.ttlMinSeconds c.ttlMaxSeconds : Int) ≤ (c.ttlMinSeconds : Int) := by
          exact_mod_cast h
        have hs : (0 : Int) ≤ Second := by unfold Second; norm_num
        exact le_trans (mul_le_mul_of_nonneg_right this hs) h3
      · have : (getLowestTtl msg c.ttlMinSeconds c.ttlMaxSeconds : Int) ≤ (c.ttlMaxSeconds : Int) := by
          exact_mod_cast h
        have hs : (0 : Int) ≤ Second := by unfold Second; norm_num
        exact le_trans (mul_le_mul_of_nonneg_right this hs) h4
    linarith
  · linarith

theorem New_TtlOrdered (capacity ttl staleTtl : Int) (ttlFromResp : Bool) (ttlMax : Int)
    (httl : 0 ≤ ttl) (hle : ttl ≤ staleTtl) (hbound : staleTtl * Second < 2 ^ 63)
    (hmax : ttlFromResp = true → 0 ≤ ttlMax ∧ ttlMax ≤ staleTtl) :
    (New capacity ttl staleTtl ttlFromResp ttlMax).TtlOrdered := by
  have hb : staleTtl * 1000000000 < 9223372036854775808 := by
    have h := hbound
    unfold Second at h
    norm_num at h
    exact h
  have hw1 : wrapInt64 (ttl * 1000000000) = ttl * 1000000000 := by
    apply wrapInt64_of_range
    · norm_num; omega
    · norm_num; omega
  have hw2 : wrapInt64 (staleTtl * 1000000000) = staleTtl * 1000000000 := by
    apply wrapInt64_of_range
    · norm_num; omega
    · norm_num; omega
  simp only [Cache.TtlOrdered, New, Second, hw1, hw2]
  refine ⟨?_, ?_⟩
  · linarith
  · intro hf
    obtain ⟨hm1, hm2⟩ := hmax hf
    have h1 := toUint32_le ttl httl
    have h2 := toUint32_le ttlMax hm1
    constructor <;> linarith

/-- With ordered TTL values and monotone clocks every entry of the cache stays
ordered along a run. -/
theorem run_Ordered (c : Cache) (ops : List Op) (ho : c.TtlOrdered)
    (hall : Entries.All elem.Ordered c.m) (hclk : MonotoneClocks ops) :
    Entries.All elem.Ordered (run c ops).m := by
  induction ops generalizing c with
  | nil => exact hall
  | cons op ops ih =>
    have ho1 : (op.apply c).TtlOrdered := (Op.apply_SameConfig c op).keepsTtlOrdered ho
    cases op with
    | insert s msg clk order1 order2 =>
      obtain ⟨hc, hrest⟩ := hclk
      refine ih _ ho1 ?_ hrest
      simp only [Op.apply, InsertMessage]
      split
      · exact hall
      · apply evictRandomInternal_All
        apply evictRandomInternal_All
        rcases insertStore_cases c s msg clk with h | h <;> rw [h]
        · exact Entries.All_set _ _ _ hall (insertedElem_Ordered c msg clk ho hc)
        · exact hall
    | hit q dnssec tcp msgid keepStale returnStale clk =>
      refine ih _ ho1 ?_ hclk
      simp only [Op.apply]
      by_cases hcap : c.capacity ≤ 0
      · rw [Hit_absent _ _ _ _ _ _ _ _ (Or.inl hcap)]
        exact hall
      · cases hg : c.m.get (Key q dnssec tcp) with
        | none =>
          rw [Hit_absent _ _ _ _ _ _ _ _ (Or.inr hg)]
          exact hall
        | some e =>
          rw [Hit_found _ _ _ _ _ _ _ _ e (by omega) hg]
          split
          · simp only [servedCache]
            split <;> split <;>
              first
              | (apply Entries.All_delete
                 apply Entries.All_modify _ _ _ hall
                 intro e he
                 exact he)
              | (apply Entries.All_modify _ _ _ hall
                 intro e he
                 exact he)
          · split
            · exact Entries.All_delete _ _ hall
            · exact hall
    | remove s =>
      refine ih _ ho1 ?_ hclk
      exact Entries.All_delete _ _ hall

/-! ## The forwarder: what a lookup leaves behind -/

theorem World.Extends.refl (w : World) : w.Extends w [] :=
  ⟨by simp, rfl, rfl, rfl, rfl, rfl⟩

theorem World.Extends.trans {w w1 w2 : World} {new1 new2 : List Call}
    (h1 : w.Extends w1 new1) (h2 : w1.Extends w2 new2) : w.Extends w2 (new1 ++ new2) := by
  obtain ⟨a1, a2, a3, a4, a5, a6⟩ := h1
  obtain ⟨b1, b2, b3, b4, b5, b6⟩ := h2
  refine ⟨?_, ?_, ?_, ?_, ?_, ?_⟩
  · rw [b1, a1, List.append_assoc]
  · rw [b2, a2]
  · rw [b3, a3]
  · rw [b4, a4]
  · rw [b5, a5]
  · rw [b6, a6]

theorem World.Extends.ofIncNameError (w : World) : w.Extends w.incNameErrorCount [] :=
  ⟨by simp [World.incNameErrorCount], rfl, rfl, rfl, rfl, rfl⟩

theorem World.Extends.ofIncStubForward (w : World) : w.Extends w.incStubForwardCount [] :=
  ⟨by simp [World.incStubForwardCount], rfl, rfl, rfl, rfl, rfl⟩

theorem World.Extends.condNameError (w : World) (b : Prop) [Decidable b] :
    w.Extends (if b then w.incNameErrorCount else w) [] := by
  split
  · exact World.Extends.ofIncNameError w
  · exact World.Extends.refl w

theorem stubLoop_Extends (req : Msg) (stubs : List (Bytes × List Server))
    (nservers ns : List Server) (w w1 : World)
    (h : stubLoop req stubs nservers w = some (ns, w1)) : w.Extends w1 [] := by
  induction stubs with
  | nil =>
    simp only [stubLoop, Option.some.injEq, Prod.mk.injEq] at h
    rw [← h.2]
    exact World.Extends.refl w
  | cons p rest ih =>
    obtain ⟨zone, srv⟩ := p
    simp only [stubLoop] at h
    split at h
    · exact absurd h (by simp)
    · split at h
      · simp only [Option.some.injEq, Prod.mk.injEq] at h
        rw [← h.2]
        exact World.Extends.ofIncStubForward w
      · exact ih h

theorem World.Extends.ofCall (env : Env) (w : World) (tcp : Bool) (req : Msg) (srv : Server) :
    w.Extends { w with calls := w.calls ++ [env.call w tcp req srv] } [env.call w tcp req srv] :=
  ⟨rfl, rfl, rfl, rfl, rfl, rfl⟩

/-- The upstream loop only adds exchanges that carry the request and the
transport it was given; and unless it started from a NOERROR result, some
exchange of the loop answered NOERROR exactly when the loop returns a NOERROR
response without error. -/
theorem queryLoop_spec (env : Env) (req : Msg) (tcp : Bool) (ns : List Server) (acc : Result)
    (w : World) (res : Result) (w1 : World)
    (h : queryLoop env req tcp ns acc w = some (res, w1)) :
    ∃ new, w.Extends w1 new ∧ (∀ c ∈ new, c.req = req ∧ c.tcp = tcp) ∧
      (acc.okNoError = false → new.any Call.isNoError = res.okNoError) := by
  induction ns generalizing acc w with
  | nil =>
    simp only [queryLoop, Option.some.injEq, Prod.mk.injEq] at h
    obtain ⟨h1, h2⟩ := h
    subst h1 h2
    exact ⟨[], World.Extends.refl w, by simp, fun ha => by simp [ha]⟩
  | cons srv rest ih =>
    simp only [queryLoop] at h
    have hcall := World.Extends.ofCall env w tcp req srv
    have hcreq : ∀ c ∈ [env.call w tcp req srv], c.req = req ∧ c.tcp = tcp := by
      intro c hc
      simp only [List.mem_singleton] at hc
      subst hc
      exact ⟨rfl, rfl⟩
    split at h
    · exact absurd h (by simp)
    · split at h
      · rename_i r hout
        have hname := World.Extends.condNameError
          { w with calls := w.calls ++ [env.call w tcp req srv] } (r.Rcode = RcodeNameError)
        have hext := hcall.trans hname
        split at h
        · simp only [Option.some.injEq, Prod.mk.injEq] at h
          obtain ⟨h1, h2⟩ := h
          subst h1 h2
          refine ⟨_, hext, ?_, ?_⟩
          · simpa using hcreq
          · intro _
            simp [Call.isNoError, hout, Result.okNoError]
        · rename_i hret
          obtain ⟨new, he, hreq, hno⟩ := ih _ _ h
          have hne : ¬ r.Rcode = RcodeSuccess := by
            intro h0
            apply hret
            simp [returnsAtOnce, h0]
          refine ⟨_, hext.trans he, ?_, ?_⟩
          · intro c hc
            simp only [List.append_nil, List.singleton_append, List.mem_cons] at hc
            rcases hc with hc | hc
            · subst hc
              exact ⟨rfl, rfl⟩
            · exact hreq c hc
          · intro _
            have := hno (by simp [Result.okNoError, hne])
            simp [Call.isNoError, hout, hne, this]
      · rename_i r err hout
        obtain ⟨new, he, hreq, hno⟩ := ih _ _ h
        refine ⟨_, hcall.trans he, ?_, ?_⟩
        · intro c hc
          simp only [List.singleton_append, List.mem_cons] at hc
          rcases hc with hc | hc
          · subst hc
            exact ⟨rfl, rfl⟩
          · exact hreq c hc
        · intro _
          have := hno (by simp [Result.okNoError])
          simp [Call.isNoError, hout, this]

/-- What `forwardQuery` leaves behind. -/
theorem forwardQuery_spec (env : Env) (cfg : Config) (req : Msg) (tcp : Bool) (w : World)
    (res : Result) (w1 : World) (h : forwardQuery env cfg req tcp w = some (res, w1)) :
    ∃ new, w.Extends w1 new ∧ (∀ c ∈ new, c.req = req ∧ c.tcp = tcp) ∧
      new.any Call.isNoError = res.okNoError := by
  simp only [forwardQuery] at h
  split at h
  · exact absurd h (by simp)
  · rename_i ns w0 hs
    obtain ⟨new, he, hreq, hno⟩ := queryLoop_spec env req tcp ns (none, none) w0 res w1 h
    have h0 := stubLoop_Extends _ _ _ _ _ _ hs
    have := h0.trans he
    simp only [List.nil_append] at this
    exact ⟨new, this, hreq, hno (by simp [Result.okNoError])⟩

/-! ## The forwarder: the first upstream that settles a query -/

theorem condNameError_calls (w : World) (b : Prop) [Decidable b] :
    (if b then w.incNameErrorCount else w).calls = w.calls := by
  split <;> rfl

/-- If the `j`-th upstream of the list is the first whose exchange makes the
loop return at once, the loop returns its response without error and has
contacted exactly the first `j + 1` upstreams, in list order. -/
theorem queryLoop_first (env : Env) (req : Msg) (tcp : Bool) (ns : List Server) (acc : Result)
    (w : World) (j : Nat) (sj : Server) (r : Msg) (hq : req.Question ≠ [])
    (hbefore : ∀ i, i < j → ∀ s, ns[i]? = some s →
      (env.exchange (w.calls.length + i) tcp req s).returnsAtOnce = false)
    (hj : ns[j]? = some sj)
    (hout : env.exchange (w.calls.length + j) tcp req sj = Exchange.answer r)
    (hret : returnsAtOnce r.Rcode = true) :
    ∃ w1, queryLoop env req tcp ns acc w = some ((some r, none), w1) ∧
      w1.calls.map Call.server = w.calls.map Call.server ++ ns.take (j + 1) ∧
      w1.calls.length = w.calls.length + (j + 1) := by
  induction ns generalizing acc w j with
  | nil => simp at hj
  | cons srv rest ih =>
    obtain ⟨q0, qs, hq0⟩ := List.exists_cons_of_ne_nil hq
    cases j with
    | zero =>
      simp only [List.getElem?_cons_zero, Option.some.injEq] at hj
      subst hj
      simp only [Nat.add_zero] at hout
      simp only [queryLoop, hq0, Env.call, hout, hret, if_true]
      refine ⟨_, rfl, ?_, ?_⟩
      · rw [condNameError_calls]
        simp
      · rw [condNameError_calls]
        simp
    | succ j =>
      have h0 := hbefore 0 (Nat.succ_pos j) srv (by simp)
      simp only [Nat.add_zero] at h0
      simp only [List.getElem?_cons_succ] at hj
      have hshift : ∀ (w2 : World), w2.calls.length = w.calls.length + 1 →
          (∀ i, i < j → ∀ s, rest[i]? = some s →
            (env.exchange (w2.calls.length + i) tcp req s).returnsAtOnce = false) ∧
          env.exchange (w2.calls.length + j) tcp req sj = Exchange.answer r := by
        intro w2 hlen
        constructor
        · intro i hi s hs
          have := hbefore (i + 1) (by omega) s (by simpa using hs)
          rw [hlen, Nat.add_assoc, Nat.add_comm 1 i]
          exact this
        · rw [hlen, Nat.add_assoc, Nat.add_comm 1 j]
          exact hout
      cases hex : env.exchange w.calls.length tcp req srv with
      | answer r0 =>
        rw [hex] at h0
        simp only [Exchange.returnsAtOnce] at h0
        have hlen : (if r0.Rcode = RcodeNameError then
            World.incNameErrorCount { w with calls := w.calls ++ [env.call w tcp req srv] }
            else { w with calls := w.calls ++ [env.call w tcp req srv] }).calls.length =
            w.calls.length + 1 := by
          rw [condNameError_calls]
          simp
        obtain ⟨hb, ho⟩ := hshift _ hlen
        obtain ⟨w1, h1, h2, h3⟩ := ih (some r0, none) _ j hb hj ho
        refine ⟨w1, ?_, ?_, ?_⟩
        · simp only [queryLoop, hq0, Env.call, hex, h0, Bool.false_eq_true, if_false]
          simp only [Env.call, hex] at h1
          exact h1
        · rw [h2, condNameError_calls]
          simp [Env.call]
        · rw [h3, hlen]
          omega
      | failure r0 err =>
        have hlen : ({ w with calls := w.calls ++ [env.call w tcp req srv] } : World).calls.length =
            w.calls.length + 1 := by
          simp
        obtain ⟨hb, ho⟩ := hshift _ hlen
        obtain ⟨w1, h1, h2, h3⟩ := ih (r0, some err) _ j hb hj ho
        refine ⟨w1, ?_, ?_, ?_⟩
        · simp only [queryLoop, hq0, Env.call, hex]
          simp only [Env.call, hex] at h1
          exact h1
        · rw [h2]
          simp [Env.call]
        · rw [h3, hlen]
          omega

/-! ## The forwarder: NOERROR exchanges and the result of a search -/

theorem setQuestion0_Rcode (r : Msg) (q : Question) (r1 : Msg)
    (h : setQuestion0 r q = some r1) : r1.Rcode = r.Rcode := by
  simp only [setQuestion0] at h
  split at h
  · exact absurd h (by simp)
  · simp only [Option.some.injEq] at h
    rw [← h]

theorem SearchState.HeadInv.exit {st : SearchState} {b : Bool} (h : st.HeadInv b) :
    st.ExitInv b := by
  obtain ⟨h1, h2, h3, h4⟩ := h
  refine ⟨?_, h3, h4⟩
  rw [h1]
  cases hn : st.nodata.isSome with
  | true => rfl
  | false =>
    cases ho : Result.okNoError (st.r, st.err) with
    | false => rfl
    | true =>
      have := h2 ho
      rw [hn] at this
      exact absurd this (by simp)

/-- The loop of `forwardSearch` keeps track of NOERROR answers: when it is
left, some exchange answered NOERROR exactly when a NODATA reply is captured
or the current result is a NOERROR response without error. -/
theorem searchLoop_spec (env : Env) (cfg : Config) (name : Bytes) (tcp : Bool)
    (domains : List Bytes) (st : SearchState) (w : World) (b : Bool) (st1 : SearchState)
    (w1 : World) (hinv : st.HeadInv b)
    (h : searchLoop env cfg name tcp domains st w = some (st1, w1)) :
    ∃ new, w.Extends w1 new ∧ st1.ExitInv (b || new.any Call.isNoError) := by
  induction domains generalizing st w b with
  | nil =>
    simp only [searchLoop, Option.some.injEq, Prod.mk.injEq] at h
    obtain ⟨h1, h2⟩ := h
    subst h1 h2
    exact ⟨[], World.Extends.refl w, by simpa using hinv.exit⟩
  | cons domain rest ih =>
    simp only [searchLoop] at h
    split at h
    · exact ih st w b hinv h
    · split at h
      · exact absurd h (by simp)
      · rename_i q0 qs hq0
        split at h
        · exact absurd h (by simp)
        · rename_i r err w2 hfq
          obtain ⟨new1, he1, _, hno1⟩ := forwardQuery_spec _ _ _ _ _ _ _ hfq
          obtain ⟨i1, i2, i3, i4⟩ := hinv
          split at h
          · -- transport error: the loop is left
            rename_i e
            simp only [Option.some.injEq, Prod.mk.injEq] at h
            obtain ⟨h1, h2⟩ := h
            subst h1 h2
            refine ⟨new1, he1, ?_, i3, ?_⟩
            · simp [hno1, i1, Result.okNoError]
            · intro hd
              exact absurd hd (by simp)
          · split at h
            · exact absurd h (by simp)
            · rename_i rm
              have hname := World.Extends.condNameError w2 (rm.Rcode = RcodeNameError)
              have he2 := he1.trans hname
              simp only [List.append_nil] at he2
              have hok : new1.any Call.isNoError = (rm.Rcode == RcodeSuccess) := by
                rw [hno1]
                rfl
              split at h
              · rename_i h0
                have hok1 : new1.any Call.isNoError = true := by
                  rw [hok, h0]
                  rfl
                split at h
                · -- NODATA: captured, the loop goes on
                  obtain ⟨new2, he3, hex⟩ := ih _ _ (b || true)
                    (by
                      refine ⟨by simp, fun _ => by simp, ?_, fun hd => absurd hd (by simp)⟩
                      intro nd hnd
                      simp only [Option.some.injEq, Msg.Copy] at hnd
                      rw [← hnd]
                      exact h0) h
                  refine ⟨new1 ++ new2, he2.trans he3, ?_⟩
                  simpa [List.any_append, hok1] using hex
                · -- NOERROR with an answer: the loop is left
                  simp only [Option.some.injEq, Prod.mk.injEq] at h
                  obtain ⟨h1, h2⟩ := h
                  subst h1 h2
                  refine ⟨new1, he2, ?_, i3, fun hd => absurd hd (by simp)⟩
                  simp [hok1, h0, Result.okNoError]
              · rename_i h0
                have hok0 : new1.any Call.isNoError = false := by
                  rw [hok]
                  exact beq_eq_false_iff_ne.2 h0
                have hsame : SearchState.HeadInv
                    { st with r := some rm, err := none,
                              searchName := env.ToLower (env.appendDomain name domain),
                              didSearch := true,
                              reqCopy := { st.reqCopy with
                                Question := { Name := env.ToLower (env.appendDomain name domain),
                                              Qtype := q0.Qtype, Qclass := q0.Qclass } :: qs } }
                    (b || false) := by
                  refine ⟨by simpa using i1, ?_, i3, fun hd => absurd hd (by simp)⟩
                  intro hok2
                  simp [Result.okNoError, h0] at hok2
                split at h
                · -- NXDOMAIN or SERVFAIL: the loop goes on
                  obtain ⟨new2, he3, hex⟩ := ih _ _ (b || false) hsame h
                  refine ⟨new1 ++ new2, he2.trans he3, ?_⟩
                  simpa [List.any_append, hok0] using hex
                · -- any other code: the loop is left
                  simp only [Option.some.injEq, Prod.mk.injEq] at h
                  obtain ⟨h1, h2⟩ := h
                  subst h1 h2
                  refine ⟨new1, he2, ?_⟩
                  simpa [hok0] using hsame.exit

/-- The result of the statements after the loop is a NOERROR response without
error exactly when a NODATA reply was captured or the loop was left with a
NOERROR response. -/
theorem searchFinish_spec (q0 : Question) (st : SearchState) (b : Bool) (res : Result)
    (hinv : st.ExitInv b) (h : searchFinish q0 st = some res) : res.okNoError = b := by
  obtain ⟨i1, i2, _⟩ := hinv
  rw [i1]
  simp only [searchFinish] at h
  cases herr : st.err with
  | none =>
    rw [herr] at h
    cases hr : st.r with
    | none =>
      rw [hr] at h
      simp at h
    | some rm =>
      rw [hr] at h
      simp only at h
      split at h
      · exact absurd h (by simp)
      · rename_i r1 hstep
        simp only [Option.some.injEq] at h
        subst h
        simp only [Option.map_eq_some'] at hstep
        obtain ⟨r2, hset, hr2⟩ := hstep
        subst hr2
        have hcode := setQuestion0_Rcode _ _ _ hset
        by_cases h0 : rm.Rcode = RcodeSuccess
        · have : r2.Rcode = RcodeSuccess := by
            rw [hcode]
            by_cases hans : rm.Answer.length > 0
            · simp only [h0, hans, if_true]
            · simp only [h0, hans, if_true, if_false]
          simp [Result.okNoError, this, h0]
        · simp only [h0, if_false] at hcode
          cases hnd : st.nodata with
          | none =>
            rw [hnd] at hcode
            simp only at hcode
            simp [Result.okNoError, hcode, h0]
          | some nd =>
            rw [hnd] at hcode
            simp only at hcode
            simp [Result.okNoError, hcode, i2 nd hnd]
  | some e =>
    rw [herr] at h
    simp only at h
    cases hnd : st.nodata with
    | none =>
      rw [hnd] at h
      simp only [Option.some.injEq] at h
      subst h
      simp [Result.okNoError]
    | some nd =>
      rw [hnd] at h
      simp only [Option.map_eq_some'] at h
      obtain ⟨r2, hset, hr2⟩ := h
      subst hr2
      have hcode := setQuestion0_Rcode _ _ _ hset
      simp [Result.okNoError, hcode, i2 nd hnd]

/-- What `forwardSearch` leaves behind: it returns a NOERROR response without
error exactly when some exchange it made answered NOERROR. -/
theorem forwardSearch_spec (env : Env) (cfg : Config) (req : Msg) (tcp : Bool) (w : World)
    (res : Result) (w1 : World) (h : forwardSearch env cfg req tcp w = some (res, w1)) :
    ∃ new, w.Extends w1 new ∧ new.any Call.isNoError = res.okNoError := by
  simp only [forwardSearch] at h
  split at h
  · exact absurd h (by simp)
  · rename_i q0 qs hq0
    split at h
    · exact absurd h (by simp)
    · rename_i st w2 hloop
      obtain ⟨new, he, hex⟩ := searchLoop_spec env cfg q0.Name tcp cfg.SearchDomains _ w false
        st w2 ⟨by simp, by simp [Result.okNoError], by simp, by simp⟩ hloop
      simp only [Bool.false_or] at hex
      split at h
      · rename_i hd
        simp only [Option.some.injEq, Prod.mk.injEq] at h
        obtain ⟨h1, h2⟩ := h
        subst h1 h2
        refine ⟨new, he, ?_⟩
        obtain ⟨i1, _, i3⟩ := hex
        have hd2 : st.didSearch = false := by simpa using hd
        obtain ⟨n1, n2⟩ := i3 hd2
        rw [i1, n1, n2]
        simp [Result.okNoError, Msg.SetRcode, RcodeNameError, RcodeSuccess]
      · simp only [Option.map_eq_some'] at h
        obtain ⟨res1, hfin, hres⟩ := h
        simp only [Prod.mk.injEq] at hres
        obtain ⟨h1, h2⟩ := hres
        subst h1 h2
        exact ⟨new, he, (searchFinish_spec q0 st _ _ hex hfin).symm⟩

/-! ## The forwarder: the blocks of `ServeDNSForward` -/

theorem Result.okNoError_some_none (r : Msg) :
    Result.okNoError (some r, none) = (r.Rcode == RcodeSuccess) := rfl

theorem Result.okNoError_err (r : Option Msg) (e : Error) :
    Result.okNoError (r, some e) = false := by
  cases r <;> rfl

theorem absoluteLookup_spec (env : Env) (cfg : Config) (tcp : Bool) (req : Msg)
    (st : LookupState) (w : World) (f : Flow)
    (h : absoluteLookup env cfg tcp req st w = some f) : Flow.Spec w f := by
  simp only [absoluteLookup] at h
  split at h
  · exact absurd h (by simp)
  · rename_i r err w1 hfq
    obtain ⟨new, he, _, hno⟩ := forwardQuery_spec _ _ _ _ _ _ _ hfq
    split at h
    · exact absurd h (by simp)
    · rename_i res
      rw [Result.okNoError_some_none] at hno
      split at h
      · rename_i h0
        simp only [Option.some.injEq] at h
        subst h
        refine ⟨rfl, new, ?_, ?_⟩
        · simp only [writeMsg]
          exact he.1
        · rw [hno, h0]
          rfl
      · rename_i h0
        simp only [Option.some.injEq] at h
        subst h
        exact ⟨new, he, by rw [hno]; exact beq_eq_false_iff_ne.2 h0⟩
    · rename_i e r1
      simp only [Option.some.injEq] at h
      subst h
      exact ⟨new, he, by rw [hno, Result.okNoError_err]⟩

theorem Flow.Spec.next_refl (w : World) (st : LookupState) : Flow.Spec w (Flow.next st w) :=
  ⟨[], World.Extends.refl w, rfl⟩

theorem initialAbsolute_spec (env : Env) (cfg : Config) (tcp : Bool) (req : Msg)
    (nameDots : Int) (st : LookupState) (w : World) (f : Flow)
    (h : initialAbsolute env cfg tcp req nameDots st w = some f) : Flow.Spec w f := by
  simp only [initialAbsolute] at h
  split at h
  · split at h
    · exact absoluteLookup_spec env cfg tcp req st w f h
    · simp only [Option.some.injEq] at h
      subst h
      exact Flow.Spec.next_refl w st
  · simp only [Option.some.injEq] at h
    subst h
    exact Flow.Spec.next_refl w st

theorem lateAbsolute_spec (env : Env) (cfg : Config) (tcp : Bool) (req : Msg)
    (nameDots : Int) (st : LookupState) (w : World) (f : Flow)
    (h : lateAbsolute env cfg tcp req nameDots st w = some f) : Flow.Spec w f := by
  simp only [lateAbsolute] at h
  split at h
  · split at h
    · exact absoluteLookup_spec env cfg tcp req st w f h
    · simp only [Option.some.injEq] at h
      subst h
      exact Flow.Spec.next_refl w st
  · simp only [Option.some.injEq] at h
    subst h
    exact Flow.Spec.next_refl w st

theorem searchLookup_spec (env : Env) (cfg : Config) (tcp : Bool) (req : Msg)
    (searchEnabled : Bool) (st : LookupState) (w : World) (f : Flow)
    (h : searchLookup env cfg tcp req searchEnabled st w = some f) : Flow.Spec w f := by
  simp only [searchLookup] at h
  split at h
  · split at h
    · exact absurd h (by simp)
    · rename_i r err w1 hfs
      obtain ⟨new, he, hno⟩ := forwardSearch_spec _ _ _ _ _ _ _ hfs
      split at h
      · exact absurd h (by simp)
      · rename_i res
        rw [Result.okNoError_some_none] at hno
        split at h
        · rename_i h0
          simp only [Option.some.injEq] at h
          subst h
          refine ⟨rfl, new, ?_, ?_⟩
          · simp only [writeMsg]
            exact he.1
          · rw [hno, h0]
            rfl
        · rename_i h0
          simp only [Option.some.injEq] at h
          subst h
          exact ⟨new, he, by rw [hno]; exact beq_eq_false_iff_ne.2 h0⟩
      · rename_i e r1
        simp only [Option.some.injEq] at h
        subst h
        exact ⟨new, he, by rw [hno, Result.okNoError_err]⟩
  · simp only [Option.some.injEq] at h
    subst h
    exact Flow.Spec.next_refl w st

/-- The failure branches: the flag tells whether a stale candidate was
supplied; no upstream is contacted; when the flag is set the candidate is
returned as it is, `StaleCacheHit` is incremented once and `RequestFail` is
not touched. -/
theorem failureResponse_spec (req : Msg) (staleRes : Option Msg) (st : LookupState) (w : World)
    (m : Msg) (b : Bool) (w1 : World) (h : failureResponse req staleRes st w = some (m, b, w1)) :
    b = staleRes.isSome ∧ w1.calls = w.calls ∧
    (b = true → staleRes = some m ∧ w1.stats.StaleCacheHit = w.stats.StaleCacheHit + 1 ∧
      w1.stats.RequestFail = w.stats.RequestFail) := by
  have key : ∀ (m0 : Msg) (wf : World → World),
      (∀ w2, (wf w2).calls = w2.calls ∧ (wf w2).stats.StaleCacheHit = w2.stats.StaleCacheHit ∧
        (wf w2).stats.RequestFail = w2.stats.RequestFail) →
      (m, b, w1) = ((staleOr staleRes m0 w).1, (staleOr staleRes m0 w).2.1,
        writeMsg (wf (staleOr staleRes m0 w).2.2) (staleOr staleRes m0 w).1) →
      b = staleRes.isSome ∧ w1.calls = w.calls ∧
      (b = true → staleRes = some m ∧ w1.stats.StaleCacheHit = w.stats.StaleCacheHit + 1 ∧
        w1.stats.RequestFail = w.stats.RequestFail) := by
    intro m0 wf hwf heq
    cases staleRes with
    | none =>
      simp only [staleOr, Prod.mk.injEq] at heq
      obtain ⟨_, h2, h3⟩ := heq
      subst h2 h3
      refine ⟨rfl, ?_, fun hb => absurd hb (by simp)⟩
      simp only [writeMsg]
      rw [(hwf _).1]
      rfl
    | some stale =>
      simp only [staleOr, Prod.mk.injEq] at heq
      obtain ⟨h1, h2, h3⟩ := heq
      subst h1 h2 h3
      refine ⟨rfl, ?_, fun _ => ⟨rfl, ?_, ?_⟩⟩
      · simp only [writeMsg]
        rw [(hwf _).1]
        rfl
      · simp only [writeMsg]
        rw [(hwf _).2.1]
        rfl
      · simp only [writeMsg]
        rw [(hwf _).2.2]
        rfl
  simp only [failureResponse] at h
  split at h
  · split at h
    · exact absurd h (by simp)
    · rename_i res hres
      simp only [Option.some.injEq] at h
      exact key _ id (fun _ => ⟨rfl, rfl, rfl⟩) h.symm
  · split at h
    · split at h
      · exact absurd h (by simp)
      · rename_i res hres
        simp only [Option.some.injEq] at h
        exact key _ World.incNoDataCount (fun _ => ⟨rfl, rfl, rfl⟩) h.symm
    · simp only [Option.some.injEq] at h
      exact key _ id (fun _ => ⟨rfl, rfl, rfl⟩) h.symm

/-! ## The forwarder returns -/

theorem stubLoop_returns (req : Msg) (stubs : List (Bytes × List Server))
    (nservers : List Server) (w : World) (hq : req.Question ≠ []) :
    ∃ ns w0, stubLoop req stubs nservers w = some (ns, w0) ∧
      (ns = nservers ∨ ∃ p ∈ stubs, p.2 = ns) := by
  obtain ⟨q0, qs, hq0⟩ := List.exists_cons_of_ne_nil hq
  induction stubs with
  | nil => exact ⟨nservers, w, rfl, Or.inl rfl⟩
  | cons p rest ih =>
    obtain ⟨zone, srv⟩ := p
    simp only [stubLoop, hq0]
    split
    · exact ⟨srv, _, rfl, Or.inr ⟨(zone, srv), List.mem_cons_self _ _, rfl⟩⟩
    · obtain ⟨ns, w0, h1, h2⟩ := ih
      refine ⟨ns, w0, h1, ?_⟩
      rcases h2 with h2 | ⟨p, hp, hp2⟩
      · exact Or.inl h2
      · exact Or.inr ⟨p, List.mem_cons_of_mem _ hp, hp2⟩

theorem queryLoop_returns (env : Env) (req : Msg) (tcp : Bool) (ns : List Server)
    (acc : Result) (w : World) (hq : req.Question ≠ []) (hans : env.AnswersCarryQuestion)
    (h : ns ≠ [] ∨ acc.Good) :
    ∃ res w1, queryLoop env req tcp ns acc w = some (res, w1) ∧ res.Good := by
  obtain ⟨q0, qs, hq0⟩ := List.exists_cons_of_ne_nil hq
  induction ns generalizing acc w with
  | nil =>
    rcases h with h | h
    · exact absurd rfl h
    · exact ⟨acc, w, rfl, h⟩
  | cons srv rest ih =>
    simp only [queryLoop, hq0]
    cases hex : (env.call w tcp req srv).out with
    | answer r =>
      have hrq : r.Question ≠ [] := hans _ _ _ _ _ hq hex
      have hgood : Result.Good (some r, none) := fun _ => ⟨r, rfl, hrq⟩
      simp only
      split
      · exact ⟨_, _, rfl, hgood⟩
      · exact ih _ _ (Or.inr hgood)
    | failure r0 err =>
      simp only
      exact ih _ _ (Or.inr (fun he => absurd he (by simp)))

theorem forwardQuery_returns (env : Env) (cfg : Config) (req : Msg) (tcp : Bool) (w : World)
    (hq : req.Question ≠ []) (hns : cfg.Nameservers ≠ []) (hstub : env.StubsNonempty cfg)
    (hans : env.AnswersCarryQuestion) :
    ∃ res w1, forwardQuery env cfg req tcp w = some (res, w1) ∧ res.Good := by
  obtain ⟨ns, w0, h1, h2⟩ :=
    stubLoop_returns req (env.stubRange w.calls.length cfg.Stub) cfg.Nameservers w hq
  have hne : ns ≠ [] := by
    rcases h2 with h2 | ⟨p, hp, hp2⟩
    · rw [h2]
      exact hns
    · rw [← hp2]
      exact hstub _ p hp
  simp only [forwardQuery, h1]
  exact queryLoop_returns env req tcp ns (none, none) w0 hq hans (Or.inl hne)

theorem setQuestion0_returns (r : Msg) (q : Question) (h : r.Question ≠ []) :
    ∃ r1, setQuestion0 r q = some r1 ∧ r1.Question ≠ [] := by
  obtain ⟨q0, qs, hq0⟩ := List.exists_cons_of_ne_nil h
  refine ⟨{ r with Question := q :: qs }, ?_, by simp⟩
  simp only [setQuestion0, hq0]

theorem searchLoop_returns (env : Env) (cfg : Config) (name : Bytes) (tcp : Bool)
    (domains : List Bytes) (st : SearchState) (w : World) (hns : cfg.Nameservers ≠ [])
    (hstub : env.StubsNonempty cfg) (hans : env.AnswersCarryQuestion) (hg : st.Good) :
    ∃ st1 w1, searchLoop env cfg name tcp domains st w = some (st1, w1) ∧ st1.Good ∧
      (st.didSearch = true → st1.didSearch = true) := by
  induction domains generalizing st w with
  | nil => exact ⟨st, w, rfl, hg, id⟩
  | cons domain rest ih =>
    simp only [searchLoop]
    split
    · exact ih st w hg
    · obtain ⟨g1, g2, g3⟩ := hg
      obtain ⟨q0, qs, hq0⟩ := List.exists_cons_of_ne_nil g1
      simp only [hq0]
      obtain ⟨res, w2, hfq, hres⟩ := forwardQuery_returns env cfg
        { st.reqCopy with
          Question := { Name := env.ToLower (env.appendDomain name domain),
                        Qtype := q0.Qtype, Qclass := q0.Qclass } :: qs }
        tcp w (by simp) hns hstub hans
      obtain ⟨r, err⟩ := res
      simp only [hfq]
      cases err with
      | some e =>
        exact ⟨_, _, rfl, ⟨by simp, fun _ he => absurd he (by simp), g3⟩, fun _ => rfl⟩
      | none =>
        obtain ⟨rm, hrm, hrq⟩ := hres rfl
        simp only at hrm
        subst hrm
        simp only
        have hgood : Result.Good (some rm, none) := fun _ => ⟨rm, rfl, hrq⟩
        split
        · split
          · obtain ⟨st1, w1, h1, h2, h3⟩ := ih
              { st with r := some rm, nodata := some rm.Copy, err := none,
                        searchName := env.ToLower (env.appendDomain name domain),
                        didSearch := true,
                        reqCopy := { st.reqCopy with
                          Question := { Name := env.ToLower (env.appendDomain name domain),
                                        Qtype := q0.Qtype, Qclass := q0.Qclass } :: qs } }
              (if rm.Rcode = RcodeNameError then w2.incNameErrorCount else w2)
              ⟨by simp, fun _ => hgood, by
                intro nd hnd
                simp only [Option.some.injEq, Msg.Copy] at hnd
                rw [← hnd]
                exact hrq⟩
            exact ⟨st1, w1, h1, h2, fun _ => h3 rfl⟩
          · exact ⟨_, _, rfl, ⟨by simp, fun _ => hgood, g3⟩, fun _ => rfl⟩
        · split
          · obtain ⟨st1, w1, h1, h2, h3⟩ := ih
              { st with r := some rm, err := none,
                        searchName := env.ToLower (env.appendDomain name domain),
                        didSearch := true,
                        reqCopy := { st.reqCopy with
                          Question := { Name := env.ToLower (env.appendDomain name domain),
                                        Qtype := q0.Qtype, Qclass := q0.Qclass } :: qs } }
              (if rm.Rcode = RcodeNameError then w2.incNameErrorCount else w2)
              ⟨by simp, fun _ => hgood, g3⟩
            exact ⟨st1, w1, h1, h2, fun _ => h3 rfl⟩
          · exact ⟨_, _, rfl, ⟨by simp, fun _ => hgood, g3⟩, fun _ => rfl⟩

theorem searchFinish_returns (q0 : Question) (st : SearchState) (hg : st.Good)
    (hd : st.didSearch = true) : ∃ res, searchFinish q0 st = some res ∧ res.Good := by
  obtain ⟨_, g2, g3⟩ := hg
  have g2 := g2 hd
  simp only [searchFinish]
  cases herr : st.err with
  | none =>
    rw [herr] at g2
    obtain ⟨rm, hrm, hrq⟩ := g2 rfl
    simp only at hrm
    rw [hrm]
    simp only
    have hne : (if rm.Rcode = RcodeSuccess then
          if rm.Answer.length > 0 then
            { rm with Answer := searchCname q0.Name st.searchName :: rm.Answer }
          else rm
        else
          match st.nodata with
          | some nodata => nodata
          | none => rm).Question ≠ [] := by
      split
      · split
        · exact hrq
        · exact hrq
      · split
        · rename_i nd hnd
          exact g3 nd hnd
        · exact hrq
    obtain ⟨r1, h1, h2⟩ := setQuestion0_returns _ q0 hne
    rw [h1]
    exact ⟨(some r1, none), rfl, fun _ => ⟨r1, rfl, h2⟩⟩
  | some e =>
    simp only
    cases hnd : st.nodata with
    | none => exact ⟨(st.r, some e), rfl, fun he => absurd he (by simp)⟩
    | some nd =>
      obtain ⟨r1, h1, h2⟩ := setQuestion0_returns nd q0 (g3 nd hnd)
      simp only [h1, Option.map_some']
      exact ⟨(some r1, none), rfl, fun _ => ⟨r1, rfl, h2⟩⟩

theorem forwardSearch_returns (env : Env) (cfg : Config) (req : Msg) (tcp : Bool) (w : World)
    (hq : req.Question ≠ []) (hns : cfg.Nameservers ≠ []) (hstub : env.StubsNonempty cfg)
    (hans : env.AnswersCarryQuestion) :
    ∃ res w1, forwardSearch env cfg req tcp w = some (res, w1) ∧ res.Good := by
  obtain ⟨q0, qs, hq0⟩ := List.exists_cons_of_ne_nil hq
  obtain ⟨st1, w1, h1, h2, _⟩ := searchLoop_returns env cfg q0.Name tcp cfg.SearchDomains
    { r := none, nodata := none, searchName := [], err := none, didSearch := false,
      reqCopy := req.Copy } w hns hstub hans
    ⟨by simpa [Msg.Copy] using hq, fun hd => absurd hd (by simp), fun nd hnd => by simp at hnd⟩
  simp only [forwardSearch, hq0, h1]
  cases hd : st1.didSearch with
  | false =>
    refine ⟨_, _, rfl, fun _ => ⟨_, rfl, ?_⟩⟩
    simp [Msg.SetRcode, Msg.SetReply, hq0]
  | true =>
    obtain ⟨res, h3, h4⟩ := searchFinish_returns q0 st1 h2 hd
    simp only [Bool.not_true, Bool.false_eq_true, if_false, h3, Option.map_some']
    exact ⟨res, w1, rfl, h4⟩

theorem absoluteLookup_returns (env : Env) (cfg : Config) (tcp : Bool) (req : Msg)
    (st : LookupState) (w : World) (hq : req.Question ≠ []) (hns : cfg.Nameservers ≠ [])
    (hstub : env.StubsNonempty cfg) (hans : env.AnswersCarryQuestion) (hg : st.Good) :
    ∃ f, absoluteLookup env cfg tcp req st w = some f ∧ f.GoodNext := by
  obtain ⟨res, w1, h1, h2⟩ := forwardQuery_returns env cfg req tcp w hq hns hstub hans
  obtain ⟨r, err⟩ := res
  simp only [absoluteLookup, h1]
  cases err with
  | some e => exact ⟨_, rfl, ⟨fun _ he => absurd he (by simp), hg.2⟩⟩
  | none =>
    obtain ⟨rm, hrm, _⟩ := h2 rfl
    simp only at hrm
    subst hrm
    simp only
    split
    · exact ⟨_, rfl, trivial⟩
    · exact ⟨_, rfl, ⟨fun _ _ => rfl, hg.2⟩⟩

theorem searchLookup_returns (env : Env) (cfg : Config) (tcp : Bool) (req : Msg)
    (searchEnabled : Bool) (st : LookupState) (w : World) (hq : req.Question ≠ [])
    (hns : cfg.Nameservers ≠ []) (hstub : env.StubsNonempty cfg)
    (hans : env.AnswersCarryQuestion) (hg : st.Good) :
    ∃ f, searchLookup env cfg tcp req searchEnabled st w = some f ∧ f.GoodNext := by
  simp only [searchLookup]
  split
  · obtain ⟨res, w1, h1, h2⟩ := forwardSearch_returns env cfg req tcp w hq hns hstub hans
    obtain ⟨r, err⟩ := res
    simp only [h1]
    cases err with
    | some e => exact ⟨_, rfl, ⟨hg.1, fun _ he => absurd he (by simp)⟩⟩
    | none =>
      obtain ⟨rm, hrm, _⟩ := h2 rfl
      simp only at hrm
      subst hrm
      simp only
      split
      · exact ⟨_, rfl, trivial⟩
      · exact ⟨_, rfl, ⟨hg.1, fun _ _ => rfl⟩⟩
  · exact ⟨_, rfl, hg⟩

theorem failureResponse_returns (req : Msg) (staleRes : Option Msg) (st : LookupState)
    (w : World) (hg : st.Good) : (failureResponse req staleRes st w).isSome = true := by
  simp only [failureResponse]
  split
  · rename_i h
    have := hg.1 h.1 h.2
    obtain ⟨res, hres⟩ := Option.isSome_iff_exists.1 this
    rw [hres]
    rfl
  · split
    · rename_i h
      have := hg.2 h.1 h.2
      obtain ⟨res, hres⟩ := Option.isSome_iff_exists.1 this
      rw [hres]
      rfl
    · rfl

/-- `ServeDNSForward` returns (it does not panic) for every request with a
question, whenever every stub zone has an upstream and the upstream responses
carry a question section. -/
theorem ServeDNSForward_returns (env : Env) (cfg : Config) (tcp : Bool) (req : Msg)
    (staleRes : Option Msg) (w : World) (hq : req.Question ≠ [])
    (hstub : env.StubsNonempty cfg) (hans : env.AnswersCarryQuestion) :
    (ServeDNSForward env cfg tcp req staleRes w).isSome = true := by
  obtain ⟨q0, qs, hq0⟩ := List.exists_cons_of_ne_nil hq
  simp only [ServeDNSForward, hq0]
  split
  · rfl
  · rename_i hr
    have hns : cfg.Nameservers ≠ [] := by
      intro h0
      apply hr
      simp [refuse, h0]
    have hg0 : LookupState.Good
        { didAbsolute := false, didSearch := false, absoluteRes := none, searchRes := none,
          absoluteErr := none, searchErr := none } :=
      ⟨fun h => absurd h (by simp), fun h => absurd h (by simp)⟩
    have h1 : ∃ f, initialAbsolute env cfg tcp req (env.CountLabel q0.Name - 1)
        { didAbsolute := false, didSearch := false, absoluteRes := none, searchRes := none,
          absoluteErr := none, searchErr := none } w.incForwardCount = some f ∧ f.GoodNext := by
      simp only [initialAbsolute]
      split
      · split
        · exact absoluteLookup_returns env cfg tcp req _ _ hq hns hstub hans hg0
        · exact ⟨_, rfl, hg0⟩
      · exact ⟨_, rfl, hg0⟩
    obtain ⟨f1, e1, g1⟩ := h1
    rw [e1]
    cases f1 with
    | ret m b w1 => rfl
    | next st1 w1 =>
      obtain ⟨f2, e2, g2⟩ := searchLookup_returns env cfg tcp req
        (cfg.EnableSearch && decide (cfg.SearchDomains.length > 0)) st1 w1 hq hns hstub hans g1
      simp only [e2]
      cases f2 with
      | ret m b w2 => rfl
      | next st2 w2 =>
        have h3 : ∃ f, lateAbsolute env cfg tcp req (env.CountLabel q0.Name - 1) st2 w2 = some f ∧
            f.GoodNext := by
          simp only [lateAbsolute]
          split
          · split
            · exact absoluteLookup_returns env cfg tcp req _ _ hq hns hstub hans g2
            · exact ⟨_, rfl, g2⟩
          · exact ⟨_, rfl, g2⟩
        obtain ⟨f3, e3, g3⟩ := h3
        simp only [e3]
        cases f3 with
        | ret m b w3 => rfl
        | next st3 w3 => exact failureResponse_returns req staleRes st3 w3 g3

/-! ## The round trip away from the capacity boundary -/

theorem insertStore_absent (c : Cache) (s : Bytes) (msg : Msg) (clk : InsertClock)
    (h : c.m.get s = none) :
    insertStore c s msg clk = { c with m := c.m.set s (insertedElem c msg clk) } := by
  simp only [insertStore, insertedElem, Msg.Copy, h]
  rfl

theorem evictRandomInternal_room (c : Cache) (onlyStale : Bool) (now : Time)
    (order : List Bytes) (h : (c.m.length : Int) < c.capacity) :
    evictRandomInternal c onlyStale now order = c := by
  simp only [evictRandomInternal, h, if_true]

/-- Where the insert leaves the cache below its capacity (at least two free
places before it), the round trip holds: the message inserted under
`Key(q, dnssec, tcp)` is what `Hit` returns before the fresh expiration, with
its question section untouched and `Id` set to the caller's id. -/
theorem InsertMessage_Hit_round_trip (c : Cache) (q : Question) (dnssec tcp : Bool) (msg : Msg)
    (msgid : Nat) (keepStale returnStale : Bool) (iclk : InsertClock) (hclk : HitClock)
    (order1 order2 : List Bytes) (hroom : (c.m.length : Int) + 1 < c.capacity)
    (habs : c.m.get (Key q dnssec tcp) = none)
    (hfresh : hclk.valid < (insertedElem c msg iclk).expiration) :
    (Hit (InsertMessage c (Key q dnssec tcp) msg iclk order1 order2) q dnssec tcp msgid
      keepStale returnStale hclk).1 =
      some { msg with Id := msgid, Compress := true, Truncated := false } := by
  have hcap : 0 < c.capacity := by
    have : (0 : Int) ≤ (c.m.length : Int) := Int.ofNat_nonneg _
    omega
  have hnot : ¬ c.capacity ≤ 0 := by omega
  have hstore := insertStore_absent c (Key q dnssec tcp) msg iclk habs
  have hlen : ((insertStore c (Key q dnssec tcp) msg iclk).m.length : Int) <
      (insertStore c (Key q dnssec tcp) msg iclk).capacity := by
    have := insertStore_length_le c (Key q dnssec tcp) msg iclk
    rw [insertStore_capacity]
    omega
  have hins : InsertMessage c (Key q dnssec tcp) msg iclk order1 order2 =
      { c with m := c.m.set (Key q dnssec tcp) (insertedElem c msg iclk) } := by
    simp only [InsertMessage, hnot, if_false, EvictRandom]
    rw [evictRandomInternal_room _ _ _ _ hlen, evictRandomInternal_room _ _ _ _ hlen, hstore]
  have key : ∀ c1 : Cache, c1.capacity = c.capacity →
      c1.m.get (Key q dnssec tcp) = some (insertedElem c msg iclk) →
      (Hit c1 q dnssec tcp msgid keepStale returnStale hclk).1 =
        some { msg with Id := msgid, Compress := true, Truncated := false } := by
    intro c1 hc hg
    rw [Hit_found c1 q dnssec tcp msgid keepStale returnStale hclk _ (by omega) hg]
    have hv : Since hclk.valid (insertedElem c msg iclk).expiration < 0 :=
      (Since_neg_iff _ _).2 hfresh
    simp only [hv, decide_True, Bool.true_or, if_true, servedMsg]
    rfl
  rw [hins]
  exact key _ rfl (by simp only [Entries.get_set, if_true])

/-! ## The example environment -/

theorem exEnv_AnswersCarryQuestion : exEnv.AnswersCarryQuestion := by
  intro n tcp req srv r hq h
  obtain ⟨q0, qs, hq0⟩ := List.exists_cons_of_ne_nil hq
  simp only [exEnv] at h
  split at h
  · simp only [Exchange.answer.injEq] at h
    rw [← h]
    simp [Msg.SetReply, hq0]
  · exact absurd h (by simp)

theorem exEnv_StubsNonempty (cfg : Config) (h : cfg.Stub = []) : exEnv.StubsNonempty cfg := by
  intro n p hp
  simp only [exEnv, h] at hp
  exact absurd hp (List.not_mem_nil _)

/-! ## Claims -/

/-- C1. A cache created by `New` with a positive capacity holds at most
`capacity` entries immediately after each `InsertMessage` of any sequence of
`InsertMessage`, `Hit` and `Remove` calls, for all clock readings and all
orders in which the map yields its keys. -/
theorem C1_size_le_capacity_after_insert (capacity ttl staleTtl : Int) (ttlFromResp : Bool)
    (ttlMax : Int) (ops : List Op) (s : Bytes) (msg : Msg) (clk : InsertClock)
    (order1 order2 : List Bytes) (hcap : 0 < capacity)
    (hv : ValidRun (New capacity ttl staleTtl ttlFromResp ttlMax)
      (ops ++ [Op.insert s msg clk order1 order2])) :
    (run (New capacity ttl staleTtl ttlFromResp ttlMax)
      (ops ++ [Op.insert s msg clk order1 order2])).CacheSize ≤ capacity := by
  have h := run_length_lt (New capacity ttl staleTtl ttlFromResp ttlMax)
    (ops ++ [Op.insert s msg clk order1 order2]) hcap
    (by simpa [New] using hcap) hv
  have h2 := h.2
  simp only [Cache.CacheSize]
  simp only [New] at h2 ⊢
  omega


theorem C1_size_le_capacity_after_insert_witness :
    (0 : Int) < 2 ∧
    ValidRun (New 2 60 120 false 3600)
      ([Op.insert exKeyA exMsgA (InsertClock.const 0) [exKeyA] [exKeyA]] ++
        [Op.insert exKeyB exMsgB (InsertClock.const 5) [exKeyB, exKeyA] [exKeyB, exKeyA]]) ∧
    (run (New 2 60 120 false 3600)
      ([Op.insert exKeyA exMsgA (InsertClock.const 0) [exKeyA] [exKeyA]] ++
        [Op.insert exKeyB exMsgB (InsertClock.const 5) [exKeyB, exKeyA]
          [exKeyB, exKeyA]])).CacheSize ≤ 2 :=
  ⟨by decide, by decide,
    C1_size_le_capacity_after_insert 2 60 120 false 3600 _ _ _ _ _ _ (by decide) (by decide)⟩

/-- C2. At the failing input of the round trip: a cache of capacity 1 with a
60 s fresh TTL is empty (fewer entries than its capacity, none for the key),
the message's first question is the question looked up and the lookup happens
one nanosecond after the insert, long before the fresh expiration; the only
possible iteration order is used.  `InsertMessage` stores the entry and its own
eviction removes it again, so the cache is empty afterwards and `Hit` returns
no message. -/
theorem C2_round_trip_fails_at_capacity_one :
    (0 : Int) < (New 1 60 120 false 0).capacity ∧
    0 < (New 1 60 120 false 0).ttl ∧
    (New 1 60 120 false 0).CacheSize < (New 1 60 120 false 0).capacity ∧
    (New 1 60 120 false 0).m.get (Key exQuestionA false false) = none ∧
    exMsgA.Question.head? = some exQuestionA ∧
    (Op.insert (Key exQuestionA false false) exMsgA (InsertClock.const 0)
      [Key exQuestionA false false] [Key exQuestionA false false]).ValidOrders
        (New 1 60 120 false 0) ∧
    (InsertMessage (New 1 60 120 false 0) (Key exQuestionA false false) exMsgA
      (InsertClock.const 0) [Key exQuestionA false false] [Key exQuestionA false false]).m = [] ∧
    (Hit (InsertMessage (New 1 60 120 false 0) (Key exQuestionA false false) exMsgA
      (InsertClock.const 0) [Key exQuestionA false false] [Key exQuestionA false false])
      exQuestionA false false 0x1234 false false (HitClock.const 1)).1 = none := by
  refine ⟨by decide, by decide, by decide, by decide, by decide, by decide, by decide, by decide⟩

/-- C3 (as stated, refuted). With the default settings of the program (fresh
TTL 60 s, stale TTL 0 s) the entry stored by the first `InsertMessage` has its
fresh expiration after its stale expiration. -/
theorem C3_fresh_after_stale_with_defaults :
    ¬ Entries.All elem.Ordered
      (run (New 10 60 0 false 3600)
        [Op.insert exKeyA exMsgA (InsertClock.const 0) [exKeyA] [exKeyA]]).m := by
  decide

/-- C3 (amended). For a cache created by `New` with
`0 ≤ default_ttl ≤ stale_ttl` (and, when `ttl_from_response` is set, also
`0 ≤ ttl_max ≤ stale_ttl`), the stale TTL small enough for its conversion to
nanoseconds not to overflow, and for every sequence of operations in which the
wall clock does not step backwards inside an `InsertMessage` call, every entry
present in the cache satisfies fresh expiration ≤ stale expiration. -/
theorem C3_fresh_le_stale_amended (capacity ttl staleTtl : Int) (ttlFromResp : Bool)
    (ttlMax : Int) (ops : List Op) (httl : 0 ≤ ttl) (hle : ttl ≤ staleTtl)
    (hbound : staleTtl * Second < 2 ^ 63)
    (hmax : ttlFromResp = true → 0 ≤ ttlMax ∧ ttlMax ≤ staleTtl)
    (hclk : MonotoneClocks ops) :
    Entries.All elem.Ordered (run (New capacity ttl staleTtl ttlFromResp ttlMax) ops).m :=
  run_Ordered _ ops (New_TtlOrdered capacity ttl staleTtl ttlFromResp ttlMax httl hle hbound hmax)
    (fun _ hp => absurd hp (List.not_mem_nil _)) hclk

theorem C3_fresh_le_stale_amended_witness :
    (0 : Int) ≤ 60 ∧ (60 : Int) ≤ 120 ∧ (120 : Int) * Second < 2 ^ 63 ∧
    MonotoneClocks [Op.insert exKeyA exMsgA (InsertClock.const 0) [exKeyA] [exKeyA]] ∧
    Entries.All elem.Ordered
      (run (New 10 60 120 false 3600)
        [Op.insert exKeyA exMsgA (InsertClock.const 0) [exKeyA] [exKeyA]]).m :=
  ⟨by decide, by decide, by decide, ⟨⟨by decide, by decide⟩, trivial⟩,
    C3_fresh_le_stale_amended 10 60 120 false 3600 _ (by decide) (by decide) (by decide)
      (by intro h; exact absurd h (by decide)) ⟨⟨by decide, by decide⟩, trivial⟩⟩

/-- C4. For every call of `ServeDNSForward` on a request with a question, with
any stale candidate and any behaviour of the upstreams.  The call returns
(the Go code does not panic) whenever every stub zone has an upstream and the
upstream responses carry a question section.  And for every call that
returns: the returned `served_stale` flag is true if and only if a stale
candidate was supplied, the query was not refused, and none of the upstream
exchanges made during the call (in absolute and search attempts alike)
answered NOERROR, which is the case exactly when no attempt produced a NOERROR
response; and whenever the flag is true, the returned message is exactly the
stale candidate, `stale_cache_hit` was incremented exactly once and
`request_fail` was not incremented. -/
theorem C4_served_stale (env : Env) (cfg : Config) (tcp : Bool) (req : Msg)
    (staleRes : Option Msg) (w : World) (q : Question) (qs : List Question)
    (hq : req.Question = q :: qs) :
    ((env.StubsNonempty cfg ∧ env.AnswersCarryQuestion) →
      (ServeDNSForward env cfg tcp req staleRes w).isSome = true) ∧
    ∀ m b w1, ServeDNSForward env cfg tcp req staleRes w = some (m, b, w1) →
      ∃ new, w1.calls = w.calls ++ new ∧
        (b = true ↔ (staleRes.isSome = true ∧ refuse cfg (env.CountLabel q.Name - 1) = false ∧
          new.any Call.isNoError = false)) ∧
        (b = true → staleRes = some m ∧
          w1.stats.StaleCacheHit = w.stats.StaleCacheHit + 1 ∧
          w1.stats.RequestFail = w.stats.RequestFail) := by
  refine ⟨fun hwf => ServeDNSForward_returns env cfg tcp req staleRes w
    (by rw [hq]; simp) hwf.1 hwf.2, ?_⟩
  intro m b w1 h
  simp only [ServeDNSForward, hq] at h
  split at h
  · -- refused
    rename_i hr
    simp only [Option.some.injEq, Prod.mk.injEq] at h
    obtain ⟨_, h2, h3⟩ := h
    subst h2 h3
    refine ⟨[], by simp [writeMsg], ?_, fun hb => absurd hb (by simp)⟩
    simp [hr]
  · rename_i hr
    have hr0 : refuse cfg (env.CountLabel q.Name - 1) = false := by simpa using hr
    -- a block that returned: the flag is false and a NOERROR answer was seen
    have hret : ∀ (pre : List Call) (w2 : World) (f : Flow), w2.calls = w.calls ++ pre →
        Flow.Spec w2 f → ∀ m2 b2 w3, f = Flow.ret m2 b2 w3 →
        (m2, b2, w3) = (m, b, w1) →
        ∃ new, w1.calls = w.calls ++ new ∧
          (b = true ↔ (staleRes.isSome = true ∧ refuse cfg (env.CountLabel q.Name - 1) = false ∧
            new.any Call.isNoError = false)) ∧
          (b = true → staleRes = some m ∧
            w1.stats.StaleCacheHit = w.stats.StaleCacheHit + 1 ∧
            w1.stats.RequestFail = w.stats.RequestFail) := by
      intro pre w2 f hpre hspec m2 b2 w3 hf heq
      subst hf
      obtain ⟨hb, new, hc, hany⟩ := hspec
      simp only [Prod.mk.injEq] at heq
      obtain ⟨_, e2, e3⟩ := heq
      subst e2 e3 hb
      refine ⟨pre ++ new, by rw [hc, hpre, List.append_assoc], ?_, fun hb => absurd hb (by simp)⟩
      simp [List.any_append, hany]
    split at h
    · exact absurd h (by simp)
    · rename_i m2 b2 w2 hs1
      have hsp := initialAbsolute_spec _ _ _ _ _ _ _ _ hs1
      exact hret [] _ _ (by simp [World.incForwardCount]) hsp _ _ _ rfl
        (by simpa using h)
    · rename_i st1 w2 hs1
      obtain ⟨new1, he1, hany1⟩ := initialAbsolute_spec _ _ _ _ _ _ _ _ hs1
      have hc1 : w2.calls = w.calls ++ new1 := by
        rw [he1.1]
        rfl
      split at h
      · exact absurd h (by simp)
      · rename_i m3 b3 w3 hs2
        have hsp := searchLookup_spec _ _ _ _ _ _ _ _ hs2
        exact hret new1 _ _ hc1 hsp _ _ _ rfl (by simpa using h)
      · rename_i st2 w3 hs2
        obtain ⟨new2, he2, hany2⟩ := searchLookup_spec _ _ _ _ _ _ _ _ hs2
        have hc2 : w3.calls = w.calls ++ (new1 ++ new2) := by
          rw [he2.1, hc1, List.append_assoc]
        split at h
        · exact absurd h (by simp)
        · rename_i m4 b4 w4 hs3
          have hsp := lateAbsolute_spec _ _ _ _ _ _ _ _ hs3
          exact hret (new1 ++ new2) _ _ hc2 hsp _ _ _ rfl (by simpa using h)
        · rename_i st3 w4 hs3
          obtain ⟨new3, he3, hany3⟩ := lateAbsolute_spec _ _ _ _ _ _ _ _ hs3
          obtain ⟨f1, f2, f3⟩ := failureResponse_spec _ _ _ _ _ _ _ h
          have hall := (he1.trans he2).trans he3
          refine ⟨new1 ++ new2 ++ new3, ?_, ?_, ?_⟩
          · rw [f2, hall.1]
            rfl
          · rw [f1]
            simp [List.any_append, hany1, hany2, hany3, hr0]
          · intro hb
            obtain ⟨g1, g2, g3⟩ := f3 hb
            refine ⟨g1, ?_, ?_⟩
            · rw [g2, hall.2.2.1]
              rfl
            · rw [g3, hall.2.2.2.1]
              rfl

theorem C4_served_stale_witness :
    exMsgAB.Question = exQuestionAB :: [] ∧
    (ServeDNSForward exEnv exConfigBad false exMsgAB (some exMsgB) exWorld).isSome = true ∧
    ServeDNSForward exEnv exConfigBad false exMsgAB (some exMsgB) exWorld =
      some (exMsgB, true, exWorldStale) ∧
    ∃ new, exWorldStale.calls = exWorld.calls ++ new ∧
      (true = true ↔ ((some exMsgB).isSome = true ∧
        refuse exConfigBad (exEnv.CountLabel exQuestionAB.Name - 1) = false ∧
        new.any Call.isNoError = false)) ∧
      (true = true → some exMsgB = some exMsgB ∧
        exWorldStale.stats.StaleCacheHit = exWorld.stats.StaleCacheHit + 1 ∧
        exWorldStale.stats.RequestFail = exWorld.stats.RequestFail) :=
  ⟨rfl,
    (C4_served_stale exEnv exConfigBad false exMsgAB (some exMsgB) exWorld exQuestionAB []
      rfl).1 ⟨exEnv_StubsNonempty exConfigBad rfl, exEnv_AnswersCarryQuestion⟩,
    by decide,
    (C4_served_stale exEnv exConfigBad false exMsgAB (some exMsgB) exWorld exQuestionAB []
      rfl).2 exMsgB true exWorldStale (by decide)⟩

/-- C5. Upstream iteration of `forwardQuery`.  Let `ns` be the upstream list
the call uses (the default list, or the list of the stub zone that matched).
If the `j`-th upstream of `ns` answers without transport error with a code in
{NOERROR, NXDOMAIN, FORMERR, REFUSED, NOTIMP} and every upstream before it
either failed with a transport error or answered with a code outside that set,
then `forwardQuery` returns that response without error, and the upstreams it
contacted are exactly the first `j + 1` entries of `ns`, in list order: no
upstream after the `j`-th is contacted. -/
theorem C5_forwardQuery_first_settling_upstream (env : Env) (cfg : Config) (req : Msg)
    (tcp : Bool) (w w0 : World) (ns : List Server) (j : Nat) (sj : Server) (r : Msg)
    (hq : req.Question ≠ [])
    (hns : stubLoop req (env.stubRange w.calls.length cfg.Stub) cfg.Nameservers w = some (ns, w0))
    (hbefore : ∀ i, i < j → ∀ s, ns[i]? = some s →
      (env.exchange (w.calls.length + i) tcp req s).returnsAtOnce = false)
    (hj : ns[j]? = some sj)
    (hout : env.exchange (w.calls.length + j) tcp req sj = Exchange.answer r)
    (hret : returnsAtOnce r.Rcode = true) :
    ∃ w1, forwardQuery env cfg req tcp w = some ((some r, none), w1) ∧
      w1.calls.map Call.server = w.calls.map Call.server ++ ns.take (j + 1) ∧
      w1.calls.length = w.calls.length + (j + 1) := by
  have hcalls : w0.calls = w.calls := by
    have := (stubLoop_Extends _ _ _ _ _ _ hns).1
    simpa using this
  rw [← hcalls] at hbefore hout
  obtain ⟨w1, h1, h2, h3⟩ :=
    queryLoop_first env req tcp ns (none, none) w0 j sj r hq hbefore hj hout hret
  refine ⟨w1, ?_, ?_, ?_⟩
  · simp only [forwardQuery, hns]
    exact h1
  · rw [h2, hcalls]
  · rw [h3, hcalls]

theorem C5_forwardQuery_first_settling_upstream_witness :
    exMsgA.Question ≠ [] ∧
    stubLoop exMsgA (exEnv.stubRange exWorld.calls.length exConfig.Stub) exConfig.Nameservers
      exWorld = some (["bad", "good"], exWorld) ∧
    (["bad", "good"] : List Server)[1]? = some "good" ∧
    ∃ w1, forwardQuery exEnv exConfig exMsgA false exWorld =
        some ((some (Msg.new.SetReply exMsgA), none), w1) ∧
      w1.calls.map Call.server =
        exWorld.calls.map Call.server ++ (["bad", "good"] : List Server).take (1 + 1) ∧
      w1.calls.length = exWorld.calls.length + (1 + 1) :=
  ⟨by decide, by decide, by decide,
    C5_forwardQuery_first_settling_upstream exEnv exConfig exMsgA false exWorld exWorld
      ["bad", "good"] 1 "good" (Msg.new.SetReply exMsgA) (by decide) (by decide)
      (by
        intro i hi s hs
        have hi0 : i = 0 := by omega
        subst hi0
        simp only [List.getElem?_cons_zero, Option.some.injEq] at hs
        subst hs
        decide)
      (by decide) (by decide) (by decide)⟩

/-- C6. Refusal gate.  For a request with a question, if `no_recursion` is
set, or the nameserver list is empty, or the name has fewer than `fwd_ndots`
label-dots (`CountLabel(name) - 1`) while search is not enabled, then
`ServeDNSForward` returns the reply to the request with RCODE REFUSED and
`served_stale = false`; the only effect is that this reply is written to the
client: no upstream is contacted, no counter changes and the stale candidate is
ignored. -/
theorem C6_refusal_gate (env : Env) (cfg : Config) (tcp : Bool) (req : Msg)
    (staleRes : Option Msg) (w : World) (q : Question) (qs : List Question)
    (hq : req.Question = q :: qs)
    (h : cfg.NoRec = true ∨ cfg.Nameservers = [] ∨
      (env.CountLabel q.Name - 1 < cfg.FwdNdots ∧ cfg.EnableSearch = false)) :
    ServeDNSForward env cfg tcp req staleRes w =
      some (Msg.new.SetRcode req RcodeRefused, false,
        { w with written := w.written ++ [Msg.new.SetRcode req RcodeRefused] }) ∧
    (Msg.new.SetRcode req RcodeRefused).Rcode = RcodeRefused ∧
    (Msg.new.SetRcode req RcodeRefused).Id = req.Id ∧
    (Msg.new.SetRcode req RcodeRefused).Response = true ∧
    (Msg.new.SetRcode req RcodeRefused).Question = [q] := by
  have hr : refuse cfg (env.CountLabel q.Name - 1) = true := by
    simp only [refuse]
    rcases h with h | h | h
    · simp [h]
    · simp [h]
    · simp [h]
  refine ⟨?_, ?_, ?_, ?_, ?_⟩
  · simp only [ServeDNSForward, hq, hr, if_true, writeMsg]
  · simp [Msg.SetRcode]
  · simp only [Msg.SetRcode, Msg.SetReply, hq]
    split <;> rfl
  · simp only [Msg.SetRcode, Msg.SetReply, hq]
    split <;> rfl
  · simp only [Msg.SetRcode, Msg.SetReply, hq]

theorem C6_refusal_gate_witness :
    exMsgA.Question = exQuestionA :: [] ∧
    (exConfigNoRec.NoRec = true ∨ exConfigNoRec.Nameservers = [] ∨
      (exEnv.CountLabel exQuestionA.Name - 1 < exConfigNoRec.FwdNdots ∧
        exConfigNoRec.EnableSearch = false)) ∧
    ServeDNSForward exEnv exConfigNoRec false exMsgA (some exMsgB) exWorld =
      some (Msg.new.SetRcode exMsgA RcodeRefused, false,
        { exWorld with written := exWorld.written ++ [Msg.new.SetRcode exMsgA RcodeRefused] }) :=
  ⟨rfl, Or.inl rfl,
    (C6_refusal_gate exEnv exConfigNoRec false exMsgA (some exMsgB) exWorld exQuestionA [] rfl
      (Or.inl rfl)).1⟩

/-- C7. Absolute-first success.  For a request that is not refused and whose
name has at least `ndots` and at least `fwd_ndots` label-dots, if the upstream
iteration for the request as given (`forwardQuery`, called after
`forward_count` was incremented) returns a NOERROR response `R` without error,
then `ServeDNSForward` returns `R` with `Id` set to the request's id and
`Compress` set, with `served_stale = false`, whatever stale candidate was
supplied; that message is what is written to the client; every exchange made
during the call carries the request as given (no search-domain candidate is
queried); and neither `stale_cache_hit` nor `request_fail` is incremented. -/
theorem C7_absolute_first_success (env : Env) (cfg : Config) (tcp : Bool) (req : Msg)
    (staleRes : Option Msg) (w w1 : World) (q : Question) (qs : List Question) (R : Msg)
    (hq : req.Question = q :: qs)
    (hrefuse : refuse cfg (env.CountLabel q.Name - 1) = false)
    (hndots : env.CountLabel q.Name - 1 ≥ cfg.Ndots)
    (hfwd : env.CountLabel q.Name - 1 ≥ cfg.FwdNdots)
    (hquery : forwardQuery env cfg req tcp w.incForwardCount = some ((some R, none), w1))
    (hR : R.Rcode = RcodeSuccess) :
    ServeDNSForward env cfg tcp req staleRes w =
      some ({ R with Compress := true, Id := req.Id }, false,
        { w1 with written := w1.written ++ [{ R with Compress := true, Id := req.Id }] }) ∧
    (∃ new, w1.calls = w.calls ++ new ∧ ∀ c ∈ new, c.req = req) ∧
    w1.written = w.written ∧
    w1.stats.StaleCacheHit = w.stats.StaleCacheHit ∧
    w1.stats.RequestFail = w.stats.RequestFail := by
  obtain ⟨new, ⟨a1, a2, a3, a4, _, _⟩, hreq, _⟩ := forwardQuery_spec _ _ _ _ _ _ _ hquery
  refine ⟨?_, ⟨new, a1, fun c hc => (hreq c hc).1⟩, a2, a3, a4⟩
  simp only [ServeDNSForward, hq, hrefuse, Bool.false_eq_true, if_false, initialAbsolute,
    hndots, hfwd, if_true, absoluteLookup, hquery, hR, writeMsg]

theorem C7_absolute_first_success_witness :
    exMsgAB.Question = exQuestionAB :: [] ∧
    refuse exConfig (exEnv.CountLabel exQuestionAB.Name - 1) = false ∧
    exEnv.CountLabel exQuestionAB.Name - 1 ≥ exConfig.Ndots ∧
    exEnv.CountLabel exQuestionAB.Name - 1 ≥ exConfig.FwdNdots ∧
    forwardQuery exEnv exConfig exMsgAB false exWorld.incForwardCount =
      some ((some (Msg.new.SetReply exMsgAB), none), exWorldQueried) ∧
    (Msg.new.SetReply exMsgAB).Rcode = RcodeSuccess ∧
    ServeDNSForward exEnv exConfig false exMsgAB (some exMsgB) exWorld =
      some ({ Msg.new.SetReply exMsgAB with Compress := true, Id := exMsgAB.Id }, false,
        { exWorldQueried with
          written := exWorldQueried.written ++
            [{ Msg.new.SetReply exMsgAB with Compress := true, Id := exMsgAB.Id }] }) :=
  ⟨rfl, by decide, by decide, by decide, by decide, by decide,
    (C7_absolute_first_success exEnv exConfig false exMsgAB (some exMsgB) exWorld exWorldQueried
      exQuestionAB [] (Msg.new.SetReply exMsgAB) rfl (by decide) (by decide) (by decide)
      (by decide) (by decide)).1⟩

/-- C8. When the entry under `Key(q, dnssec, tcp)` is no longer fresh (the
clock reads at least its fresh expiration), `Hit` with `returnStale = false`
returns no message; with `keepStale = false` the cache afterwards is the cache
with that entry removed (the key has no entry any more), and with
`keepStale = true` the whole cache is unchanged. -/
theorem C8_expired_hit_without_return_stale (c : Cache) (q : Question) (dnssec tcp : Bool)
    (msgid : Nat) (keepStale : Bool) (clk : HitClock) (e : elem) (hwf : c.WF)
    (hget : c.m.get (Key q dnssec tcp) = some e) (hexp : e.expiration ≤ clk.valid) :
    (Hit c q dnssec tcp msgid keepStale false clk).1 = none ∧
    (keepStale = false →
      (Hit c q dnssec tcp msgid keepStale false clk).2 = Remove c (Key q dnssec tcp) ∧
      (Hit c q dnssec tcp msgid keepStale false clk).2.m.get (Key q dnssec tcp) = none ∧
      ∀ k, k ≠ Key q dnssec tcp →
        (Hit c q dnssec tcp msgid keepStale false clk).2.m.get k = c.m.get k) ∧
    (keepStale = true → (Hit c q dnssec tcp msgid keepStale false clk).2 = c) := by
  have hcap := hwf.capacity_pos hget
  have hv : ¬ Since clk.valid e.expiration < 0 := by
    rw [Since_neg_iff]
    exact not_lt.2 hexp
  rw [Hit_found c q dnssec tcp msgid keepStale false clk e hcap hget]
  simp only [hv, decide_False, Bool.or_false, Bool.false_eq_true, if_false]
  refine ⟨trivial, ?_, ?_⟩
  · intro hk
    subst hk
    refine ⟨rfl, ?_, ?_⟩
    · simp [Remove, Entries.get_delete]
    · intro k hk
      have : ¬ Key q dnssec tcp = k := fun h => hk h.symm
      simp [Remove, Entries.get_delete, this]
  · intro hk
    subst hk
    rfl

theorem C8_expired_hit_without_return_stale_witness :
    exCacheA.WF ∧ exCacheA.m.get (Key exQuestionA false false) = some exElemA ∧
    exElemA.expiration ≤ (HitClock.const (20 * Second)).valid ∧
    (Hit exCacheA exQuestionA false false 7 false false (HitClock.const (20 * Second))).1 = none :=
  ⟨by intro h; exact absurd h (by decide), by decide, by decide,
    (C8_expired_hit_without_return_stale exCacheA exQuestionA false false 7 false
      (HitClock.const (20 * Second)) exElemA (by intro h; exact absurd h (by decide))
      (by decide) (by decide)).1⟩

/-- C9. When the entry under `Key(q, dnssec, tcp)` is past its fresh expiration
and not past its stale expiration, `Hit` with `returnStale = true` returns, for
either value of `keepStale`, the stored message (with `Id` set to the caller's
id, `Compress` set and `Truncated` cleared), and afterwards the key still has
its entry, with `staleHits` increased by exactly 1 and its message,
expirations, `hits` and `ttlSeconds` unchanged.  The counter is a 64-bit
`uint`; the statement is for a counter below its largest value. -/
theorem C9_stale_serve (c : Cache) (q : Question) (dnssec tcp : Bool)
    (msgid : Nat) (keepStale : Bool) (clk : HitClock) (e : elem) (hwf : c.WF)
    (hget : c.m.get (Key q dnssec tcp) = some e) (hexp : e.expiration ≤ clk.valid)
    (hstale : clk.stale ≤ e.staleExpiration) (hctr : e.staleHits + 1 < 2 ^ 64) :
    (Hit c q dnssec tcp msgid keepStale true clk).1 =
      some { e.msg with Id := msgid, Compress := true, Truncated := false } ∧
    (Hit c q dnssec tcp msgid keepStale true clk).2.m.get (Key q dnssec tcp) =
      some { e with staleHits := e.staleHits + 1 } := by
  have hcap := hwf.capacity_pos hget
  have hv : ¬ Since clk.valid e.expiration < 0 := by
    rw [Since_neg_iff]
    exact not_lt.2 hexp
  have hs : ¬ Since clk.stale e.staleExpiration > 0 := by
    rw [Since_pos_iff]
    exact not_lt.2 hstale
  rw [Hit_found c q dnssec tcp msgid keepStale true clk e hcap hget]
  simp only [hv, decide_False, Bool.or_true, if_true, servedMsg, servedCache, hs, if_false,
    Bool.false_eq_true]
  refine ⟨trivial, ?_⟩
  rw [Entries.get_modify, if_pos rfl, hget]
  simp only [Option.map_some', uintMod]
  rw [Nat.mod_eq_of_lt hctr]

theorem C9_stale_serve_witness :
    exCacheA.WF ∧ exCacheA.m.get (Key exQuestionA false false) = some exElemA ∧
    exElemA.expiration ≤ (HitClock.const (20 * Second)).valid ∧
    (HitClock.const (20 * Second)).stale ≤ exElemA.staleExpiration ∧
    exElemA.staleHits + 1 < 2 ^ 64 ∧
    (Hit exCacheA exQuestionA false false 7 true true (HitClock.const (20 * Second))).1 =
      some { exElemA.msg with Id := 7, Compress := true, Truncated := false } :=
  ⟨by intro h; exact absurd h (by decide), by decide, by decide, by decide, by decide,
    (C9_stale_serve exCacheA exQuestionA false false 7 true
      (HitClock.const (20 * Second)) exElemA (by intro h; exact absurd h (by decide))
      (by decide) (by decide) (by decide) (by decide)).1⟩

/-- C10. When the entry under `Key(q, dnssec, tcp)` is past its stale
expiration, the first of two consecutive calls
`Hit(q, dnssec, tcp, id, keepStale = false, returnStale = true)` returns the
stored message (with `Id` set to the caller's id, `Compress` set and
`Truncated` cleared) and removes the entry, and the second call, whatever the
clock reads by then, returns no message. -/
theorem C10_stale_one_shot (c : Cache) (q : Question) (dnssec tcp : Bool)
    (msgid msgid2 : Nat) (clk clk2 : HitClock) (e : elem) (hwf : c.WF)
    (hget : c.m.get (Key q dnssec tcp) = some e)
    (hstale : e.staleExpiration < clk.stale) :
    (Hit c q dnssec tcp msgid false true clk).1 =
      some { e.msg with Id := msgid, Compress := true, Truncated := false } ∧
    (Hit c q dnssec tcp msgid false true clk).2.m.get (Key q dnssec tcp) = none ∧
    (Hit (Hit c q dnssec tcp msgid false true clk).2 q dnssec tcp msgid2 false true clk2).1 =
      none := by
  have hcap := hwf.capacity_pos hget
  have hs : Since clk.stale e.staleExpiration > 0 := by
    rw [Since_pos_iff]
    exact hstale
  have hfirst : (Hit c q dnssec tcp msgid false true clk).2.m.get (Key q dnssec tcp) = none := by
    rw [Hit_found c q dnssec tcp msgid false true clk e hcap hget]
    simp only [Bool.or_true, if_true, servedCache, hs]
    split <;> simp [Remove, Entries.get_delete]
  refine ⟨?_, hfirst, ?_⟩
  · rw [Hit_found c q dnssec tcp msgid false true clk e hcap hget]
    simp only [Bool.or_true, if_true, servedMsg]
  · rw [Hit_absent _ _ _ _ _ _ _ _ (Or.inr hfirst)]

theorem C10_stale_one_shot_witness :
    exCacheA.WF ∧ exCacheA.m.get (Key exQuestionA false false) = some exElemA ∧
    exElemA.staleExpiration < (HitClock.const (40 * Second)).stale ∧
    (Hit (Hit exCacheA exQuestionA false false 7 false true (HitClock.const (40 * Second))).2
      exQuestionA false false 8 false true (HitClock.const (41 * Second))).1 = none :=
  ⟨by intro h; exact absurd h (by decide), by decide, by decide,
    (C10_stale_one_shot exCacheA exQuestionA false false 7 8
      (HitClock.const (40 * Second)) (HitClock.const (41 * Second)) exElemA
      (by intro h; exact absurd h (by decide)) (by decide) (by decide)).2.2⟩

/-! ## Claims on `Hit` (continued) -/

/-- The cache after `Hit` served an entry stores, under every key that is still
present, the message it stored before. -/
theorem servedCache_msg (c : Cache) (key : Bytes) (valid : Bool) (clk : HitClock)
    (staleExp : Time) (k : Bytes) (e1 : elem)
    (h : (servedCache c key valid clk staleExp).m.get k = some e1) :
    ∃ e0, c.m.get k = some e0 ∧ e1.msg = e0.msg := by
  have hmod : ∀ (f : elem → elem), (∀ e, (f e).msg = e.msg) →
      ∀ e2, (c.m.modify key f).get k = some e2 → ∃ e0, c.m.get k = some e0 ∧ e2.msg = e0.msg := by
    intro f hf e2 h2
    rw [Entries.get_modify] at h2
    by_cases hk : key = k
    · subst hk
      rw [if_pos rfl] at h2
      cases hg : c.m.get key with
      | none =>
        rw [hg] at h2
        exact absurd h2 (by simp)
      | some e0 =>
        rw [hg] at h2
        simp only [Option.map_some', Option.some.injEq] at h2
        exact ⟨e0, rfl, by rw [← h2, hf]⟩
    · rw [if_neg hk] at h2
      exact ⟨e2, h2, rfl⟩
  have hdel : ∀ (m : Entries) e2, (m.delete key).get k = some e2 → m.get k = some e2 := by
    intro m e2 h2
    rw [Entries.get_delete] at h2
    by_cases hk : key = k
    · rw [if_pos hk] at h2
      exact absurd h2 (by simp)
    · rw [if_neg hk] at h2
      exact h2
  simp only [servedCache] at h
  split at h <;> split at h
  · refine hmod _ ?_ _ (hdel _ _ h)
    intro e
    rfl
  · refine hmod _ ?_ _ (hdel _ _ h)
    intro e
    rfl
  · refine hmod _ ?_ _ h
    intro e
    rfl
  · refine hmod _ ?_ _ h
    intro e
    rfl

/-- C11 (as stated, refuted). The entry of `exCacheA` has its stale expiration
at 30 s; the call `Hit(q, dnssec, tcp, id, keepStale = true, returnStale = true)`
at 40 s serves it and removes it although `keepStale` is set. -/
theorem C11_keep_stale_hit_evicts_past_stale :
    exCacheA.m.get (Key exQuestionA false false) = some exElemA ∧
    (Hit exCacheA exQuestionA false false 7 true true (HitClock.const (40 * Second))).1 =
      some { exMsgA with Id := 7, Compress := true, Truncated := false } ∧
    (Hit exCacheA exQuestionA false false 7 true true (HitClock.const (40 * Second))).2.m.get
      (Key exQuestionA false false) = none := by
  decide

/-- C11 (amended). For every cache state, every key `K = Key(q, dnssec, tcp)`
present in it and every clock reading that is not past the entry's stale
expiration, the call `Hit(q, dnssec, tcp, id, keepStale = true,
returnStale = true)` does not evict: the entry for `K` is still present after
the call, with the same message and the same expirations. -/
theorem C11_keep_stale_hit_keeps_entry (c : Cache) (q : Question) (dnssec tcp : Bool)
    (msgid : Nat) (clk : HitClock) (e : elem) (hwf : c.WF)
    (hget : c.m.get (Key q dnssec tcp) = some e)
    (hstale : clk.stale ≤ e.staleExpiration) :
    ∃ e1, (Hit c q dnssec tcp msgid true true clk).2.m.get (Key q dnssec tcp) = some e1 ∧
      e1.msg = e.msg ∧ e1.expiration = e.expiration ∧
      e1.staleExpiration = e.staleExpiration := by
  have hcap := hwf.capacity_pos hget
  have hs : ¬ Since clk.stale e.staleExpiration > 0 := by
    rw [Since_pos_iff]
    exact not_lt.2 hstale
  rw [Hit_found c q dnssec tcp msgid true true clk e hcap hget]
  simp only [Bool.or_true, if_true, servedCache, hs, if_false]
  split
  · refine ⟨{ e with hits := (e.hits + 1) % uintMod }, ?_, rfl, rfl, rfl⟩
    rw [Entries.get_modify, if_pos rfl, hget]
    rfl
  · refine ⟨{ e with staleHits := (e.staleHits + 1) % uintMod }, ?_, rfl, rfl, rfl⟩
    rw [Entries.get_modify, if_pos rfl, hget]
    rfl

theorem C11_keep_stale_hit_keeps_entry_witness :
    exCacheA.WF ∧ exCacheA.m.get (Key exQuestionA false false) = some exElemA ∧
    (HitClock.const (20 * Second)).stale ≤ exElemA.staleExpiration ∧
    ∃ e1, (Hit exCacheA exQuestionA false false 7 true true
        (HitClock.const (20 * Second))).2.m.get (Key exQuestionA false false) = some e1 ∧
      e1.msg = exElemA.msg ∧ e1.expiration = exElemA.expiration ∧
      e1.staleExpiration = exElemA.staleExpiration :=
  ⟨by intro h; exact absurd h (by decide), by decide, by decide,
    C11_keep_stale_hit_keeps_entry exCacheA exQuestionA false false 7
      (HitClock.const (20 * Second)) exElemA (by intro h; exact absurd h (by decide))
      (by decide) (by decide)⟩

/-- C12. For every `Hit` call that returns a message, the key has an entry and
the returned message equals the message stored in that entry in every field
(the four sections, `Rcode` and all other header flags) except three: `Id` is
the caller's `msgid`, `Compress` is true and `Truncated` is false; and the
call modifies no stored message: every entry present after the call stores the
message it stored before. -/
theorem C12_hit_returns_stored_message (c : Cache) (q : Question) (dnssec tcp : Bool)
    (msgid : Nat) (keepStale returnStale : Bool) (clk : HitClock) (m : Msg)
    (h : (Hit c q dnssec tcp msgid keepStale returnStale clk).1 = some m) :
    (∃ e, c.m.get (Key q dnssec tcp) = some e ∧
      m = { e.msg with Id := msgid, Compress := true, Truncated := false } ∧
      m.Id = msgid ∧ m.Compress = true ∧ m.Truncated = false ∧
      m.Question = e.msg.Question ∧ m.Answer = e.msg.Answer ∧ m.Ns = e.msg.Ns ∧
      m.Extra = e.msg.Extra ∧ m.Rcode = e.msg.Rcode ∧ m.Response = e.msg.Response ∧
      m.Opcode = e.msg.Opcode ∧ m.Authoritative = e.msg.Authoritative ∧
      m.RecursionDesired = e.msg.RecursionDesired ∧
      m.RecursionAvailable = e.msg.RecursionAvailable ∧ m.Zero = e.msg.Zero ∧
      m.AuthenticatedData = e.msg.AuthenticatedData ∧
      m.CheckingDisabled = e.msg.CheckingDisabled) ∧
    ∀ k e1, (Hit c q dnssec tcp msgid keepStale returnStale clk).2.m.get k = some e1 →
      ∃ e0, c.m.get k = some e0 ∧ e1.msg = e0.msg := by
  by_cases hcap : c.capacity ≤ 0
  · rw [Hit_absent _ _ _ _ _ _ _ _ (Or.inl hcap)] at h
    exact absurd h (by simp)
  · cases hg : c.m.get (Key q dnssec tcp) with
    | none =>
      rw [Hit_absent _ _ _ _ _ _ _ _ (Or.inr hg)] at h
      exact absurd h (by simp)
    | some e =>
      rw [Hit_found _ _ _ _ _ _ _ _ e (by omega) hg] at h ⊢
      split at h
      · rename_i hserve
        simp only [Option.some.injEq] at h
        subst h
        rw [if_pos hserve]
        refine ⟨⟨e, rfl, rfl, rfl, rfl, rfl, rfl, rfl, rfl, rfl, rfl, rfl, rfl, rfl, rfl, rfl, rfl,
          rfl, rfl⟩, ?_⟩
        intro k e1 h1
        exact servedCache_msg _ _ _ _ _ _ _ h1
      · exact absurd h (by simp)

theorem C12_hit_returns_stored_message_witness :
    (Hit exCacheA exQuestionA false false 7 true true (HitClock.const (20 * Second))).1 =
      some { exMsgA with Id := 7, Compress := true, Truncated := false } ∧
    ∃ e, exCacheA.m.get (Key exQuestionA false false) = some e ∧
      ({ exMsgA with Id := 7, Compress := true, Truncated := false } : Msg) =
        { e.msg with Id := 7, Compress := true, Truncated := false } :=
  ⟨by decide,
    (C12_hit_returns_stored_message exCacheA exQuestionA false false 7 true true
      (HitClock.const (20 * Second)) { exMsgA with Id := 7, Compress := true, Truncated := false }
      (by decide)).1.elim (fun e he => ⟨e, he.1, he.2.1⟩)⟩

/-! ## Claims on `Key` -/

theorem Key_eq (q : Question) (dnssec tcp : Bool) :
    Key q dnssec tcp = q.Name ++ (packUint16 q.Qtype ++ (flagBytes dnssec tcp ++ sha1Empty)) := by
  cases dnssec <;> cases tcp <;> simp [Key, flagBytes]

theorem flagBytes_inj (d1 c1 d2 c2 : Bool) (h : flagBytes d1 c1 = flagBytes d2 c2) :
    d1 = d2 ∧ c1 = c2 := by
  revert h
  cases d1 <;> cases c1 <;> cases d2 <;> cases c2 <;> decide

theorem packUint16_inj (t1 t2 : Nat) (h1 : t1 < 65536) (h2 : t2 < 65536)
    (h : packUint16 t1 = packUint16 t2) : t1 = t2 := by
  simp only [packUint16, List.cons.injEq, and_true] at h
  obtain ⟨ha, hb⟩ := h
  have ha1 := congrArg Fin.val ha
  have hb1 := congrArg Fin.val hb
  have ha2 : (t1 / 256) % 256 = (t2 / 256) % 256 := ha1
  have hb2 : t1 % 256 = t2 % 256 := hb1
  omega

/-- Eviction brings no key into the map. -/
theorem evictLoop_get_none (onlyStale : Bool) (now : Time) (order : List Bytes) (i : Int)
    (m : Entries) (k : Bytes) (h : m.get k = none) :
    (evictLoop onlyStale now order i m).get k = none := by
  have hdel : ∀ (m1 : Entries) (k1 : Bytes), m1.get k = none → (m1.delete k1).get k = none := by
    intro m1 k1 h1
    rw [Entries.get_delete]
    split
    · rfl
    · exact h1
  induction order generalizing i m with
  | nil => exact h
  | cons k0 order ih =>
    simp only [evictLoop]
    apply ih
    split
    · split
      · split
        · split
          · exact hdel _ _ h
          · exact h
        · exact h
      · exact hdel _ _ h
    · exact h

theorem evictRandomInternal_get_none (c : Cache) (onlyStale : Bool) (now : Time)
    (order : List Bytes) (k : Bytes) (h : c.m.get k = none) :
    (evictRandomInternal c onlyStale now order).m.get k = none := by
  simp only [evictRandomInternal]
  split
  · exact h
  · exact evictLoop_get_none _ _ _ _ _ _ h

/-- After an `InsertMessage` under the key `s`, a key other than `s` that had
no entry has none. -/
theorem InsertMessage_get_none (c : Cache) (s : Bytes) (msg : Msg) (clk : InsertClock)
    (order1 order2 : List Bytes) (k : Bytes) (hk : s ≠ k) (h : c.m.get k = none) :
    (InsertMessage c s msg clk order1 order2).m.get k = none := by
  simp only [InsertMessage]
  split
  · exact h
  · simp only [EvictRandom]
    apply evictRandomInternal_get_none
    apply evictRandomInternal_get_none
    rcases insertStore_cases c s msg clk with h1 | h1 <;> rw [h1]
    · simp only [Entries.get_set, if_neg hk]
      exact h
    · exact h

/-- C13. DNSSEC/TCP key separation.  For every question the keys of two
different combinations of the flags `(dnssec, tcp)` differ, so the four keys
are pairwise distinct; and after inserting a message under `Key(q, d, t)` into
the empty cache made by `New` (any capacity, any clock, any iteration order),
`Hit` with `q` and any other combination of the flags returns no message. -/
theorem C13_key_separation (q : Question) (d t d1 t1 : Bool) (capacity ttl staleTtl : Int)
    (ttlFromResp : Bool) (ttlMax : Int) (msg : Msg) (iclk : InsertClock)
    (order1 order2 : List Bytes) (msgid : Nat) (keepStale returnStale : Bool) (hclk : HitClock)
    (hne : (d, t) ≠ (d1, t1)) :
    Key q d t ≠ Key q d1 t1 ∧
    (Hit (InsertMessage (New capacity ttl staleTtl ttlFromResp ttlMax) (Key q d t) msg iclk
      order1 order2) q d1 t1 msgid keepStale returnStale hclk).1 = none := by
  have hkey : Key q d t ≠ Key q d1 t1 := by
    intro h
    rw [Key_eq, Key_eq] at h
    have h1 := List.append_cancel_left (List.append_cancel_left h)
    have h2 := flagBytes_inj _ _ _ _ (List.append_cancel_right h1)
    apply hne
    rw [h2.1, h2.2]
  refine ⟨hkey, ?_⟩
  rw [Hit_absent _ _ _ _ _ _ _ _ (Or.inr ?_)]
  exact InsertMessage_get_none _ _ _ _ _ _ _ hkey rfl

theorem C13_key_separation_witness :
    ((false, false) : Bool × Bool) ≠ (true, false) ∧
    Key exQuestionA false false ≠ Key exQuestionA true false ∧
    (Hit (InsertMessage (New 10 60 120 false 0) (Key exQuestionA false false) exMsgA
      (InsertClock.const 0) [exKeyA] [exKeyA]) exQuestionA true false 7 false false
      (HitClock.const 1)).1 = none :=
  ⟨by decide,
    C13_key_separation exQuestionA false false true false 10 60 120 false 0 exMsgA
      (InsertClock.const 0) [exKeyA] [exKeyA] 7 false false (HitClock.const 1) (by decide)⟩

/-- C14 (as stated, refuted). `Key` concatenates the name, the type and the
flag bytes without a separator.  The name `a.` with type `0x2E01` and DNSSEC
has the key of the name `a..` with type `0x01FF` and no flag; and the name
`a.` with type A and DNSSEC has the key of the three-byte name made of `a.` and
a NUL byte with type `0x01FF` and no flag. -/
theorem C14_distinct_inputs_share_a_key :
    Key exQuestionA1 true false = Key exQuestionA2 false false ∧
    ¬ (exQuestionA1.Name = exQuestionA2.Name ∧ exQuestionA1.Qtype = exQuestionA2.Qtype ∧
      true = false ∧ false = false) ∧
    Key exQuestionA true false = Key exQuestionA3 false false ∧
    ¬ (exQuestionA.Name = exQuestionA3.Name ∧ exQuestionA.Qtype = exQuestionA3.Qtype ∧
      true = false ∧ false = false) := by
  decide

/-- C14 (amended). For question names `n1`, `n2` of the same length in bytes,
16-bit query types `t1`, `t2` and flags `d1`, `d2`, `c1`, `c2`,
`Key((n1, t1), d1, c1) = Key((n2, t2), d2, c2)` if and only if `n1 = n2`,
`t1 = t2`, `d1 = d2` and `c1 = c2`. -/
theorem C14_key_injective_on_equal_length (n1 n2 : Bytes) (t1 t2 cl1 cl2 : Nat)
    (d1 d2 c1 c2 : Bool) (hlen : n1.length = n2.length) (ht1 : t1 < 65536)
    (ht2 : t2 < 65536) :
    Key { Name := n1, Qtype := t1, Qclass := cl1 } d1 c1 =
        Key { Name := n2, Qtype := t2, Qclass := cl2 } d2 c2 ↔
      n1 = n2 ∧ t1 = t2 ∧ d1 = d2 ∧ c1 = c2 := by
  constructor
  · intro h
    rw [Key_eq, Key_eq] at h
    obtain ⟨hn, hrest⟩ := List.append_inj h hlen
    obtain ⟨hp, hf⟩ := List.append_inj hrest (by simp [packUint16])
    have hflags := flagBytes_inj _ _ _ _ (List.append_cancel_right hf)
    exact ⟨hn, packUint16_inj t1 t2 ht1 ht2 hp, hflags.1, hflags.2⟩
  · rintro ⟨rfl, rfl, rfl, rfl⟩
    rw [Key_eq, Key_eq]

theorem C14_key_injective_on_equal_length_witness :
    exQuestionA.Name.length = exQuestionB.Name.length ∧ (1 : Nat) < 65536 ∧
    (Key { Name := exQuestionA.Name, Qtype := 1, Qclass := 1 } false false =
        Key { Name := exQuestionB.Name, Qtype := 1, Qclass := 1 } false false ↔
      exQuestionA.Name = exQuestionB.Name ∧ (1 : Nat) = 1 ∧ false = false ∧ false = false) :=
  ⟨by decide, by decide,
    C14_key_injective_on_equal_length exQuestionA.Name exQuestionB.Name 1 1 1 1
      false false false false (by decide) (by decide) (by decide)⟩

/-! ## Claims on eviction -/

/-- C15. At the failing input: the cache of capacity 2 holds `a. IN A`, whose
stale expiration (3 s) has passed at time 10 s.  `InsertMessage` of `b. IN A`
at 10 s stores it, which brings the size to 2, and runs `EvictRandom` with the
map yielding `b.` before `a.` in both passes (a valid iteration order).  The
stale-only pass looks at the first key only, `b.`, which is not stale, and
deletes nothing; the unconditional pass then deletes `b.`.  So the entry
removed is the fresh one, and the entry past its stale expiration remains. -/
theorem C15_eviction_removes_fresh_keeps_stale :
    exCacheTwo.m.get exKeyA = some
      { expiration := 1 * Second, msg := exMsgA, staleExpiration := 3 * Second,
        hits := 0, staleHits := 0, ttlSeconds := 0 } ∧
    (Op.insert exKeyB exMsgB (InsertClock.const (10 * Second)) [exKeyB, exKeyA]
      [exKeyB, exKeyA]).ValidOrders exCacheTwo ∧
    (insertStore exCacheTwo exKeyB exMsgB (InsertClock.const (10 * Second))).m.get exKeyB = some
      { expiration := 11 * Second, msg := exMsgB, staleExpiration := 13 * Second,
        hits := 0, staleHits := 0, ttlSeconds := 0 } ∧
    Since (10 * Second) (3 * Second) > 0 ∧ ¬ Since (10 * Second) (13 * Second) > 0 ∧
    (InsertMessage exCacheTwo exKeyB exMsgB (InsertClock.const (10 * Second)) [exKeyB, exKeyA]
      [exKeyB, exKeyA]).m.get exKeyB = none ∧
    (InsertMessage exCacheTwo exKeyB exMsgB (InsertClock.const (10 * Second)) [exKeyB, exKeyA]
      [exKeyB, exKeyA]).m.get exKeyA = exCacheTwo.m.get exKeyA := by
  refine ⟨by decide, by decide, by decide, by decide, by decide, by decide, by decide⟩

/-- C16. At the failing input: `EvictRandom` is called by `InsertMessage` on the
cache of capacity 1 that holds the one entry just stored, so the size equals
the capacity; it does not leave the cache unchanged but deletes the entry.
(And on a cache of capacity 1 with two entries, a state the operations never
produce, it deletes nothing: the position counter starts at -1 and only moves
away from 0.) -/
theorem C16_eviction_at_capacity_and_above :
    exCacheFull.CacheSize ≤ exCacheFull.capacity ∧
    exCacheFull.m.keys = [exKeyA] ∧
    (EvictRandom exCacheFull 0 [exKeyA] [exKeyA]).m = [] ∧
    EvictRandom exCacheFull 0 [exKeyA] [exKeyA] ≠ exCacheFull ∧
    exCacheOver.CacheSize > exCacheOver.capacity ∧
    EvictRandom exCacheOver 0 [exKeyA, exKeyB] [exKeyA, exKeyB] = exCacheOver := by
  refine ⟨by decide, by decide, by decide, by decide, by decide, by decide⟩

/-! ## Claims on `InsertMessage` -/

set_option maxRecDepth 16384

theorem Cache.Reachable.below_capacity {c : Cache} (h : c.Reachable) :
    0 < c.capacity ∧ (c.m.length : Int) < c.capacity := by
  obtain ⟨capacity, ttl, staleTtl, ttlFromResp, ttlMax, ops, hcap, hv, rfl⟩ := h
  have := run_length_lt (New capacity ttl staleTtl ttlFromResp ttlMax) ops hcap
    (by simpa [New] using hcap) hv
  obtain ⟨h1, h2⟩ := this
  rw [h1]
  exact ⟨hcap, h2⟩

theorem Entries.length_set_present (m : Entries) (k : Bytes) (e e0 : elem)
    (h : m.get k = some e0) : (m.set k e).length = m.length := by
  induction m with
  | nil => simp [Entries.get] at h
  | cons p rest ih =>
    obtain ⟨k1, e1⟩ := p
    by_cases hk : k1 = k
    · simp [Entries.set, hk]
    · simp only [Entries.get, hk, if_false] at h
      simp only [Entries.set, hk, if_false, List.length_cons, ih h]

/-- The store of `InsertMessage` on an entry that is past its fresh expiration
and before its stale expiration writes the new element. -/
theorem insertStore_renew (c : Cache) (s : Bytes) (msg : Msg) (clk : InsertClock) (e : elem)
    (h : c.m.get s = some e) (hexp : e.expiration < clk.sinceExpiration)
    (hstale : clk.sinceStale < e.staleExpiration) :
    insertStore c s msg clk = { c with m := c.m.set s (insertedElem c msg clk) } := by
  have h1 : Since clk.sinceExpiration e.expiration > 0 := (Since_pos_iff _ _).2 hexp
  have h2 : Since clk.sinceStale e.staleExpiration < 0 := (Since_neg_iff _ _).2 hstale
  simp only [insertStore, insertedElem, Msg.Copy, h, h1, h2]
  rfl

/-- The store of `InsertMessage` on an entry that is not past its fresh
expiration writes nothing. -/
theorem insertStore_fresh (c : Cache) (s : Bytes) (msg : Msg) (clk : InsertClock) (e : elem)
    (h : c.m.get s = some e) (hexp : clk.sinceExpiration ≤ e.expiration) :
    insertStore c s msg clk = c := by
  have h1 : ¬ Since clk.sinceExpiration e.expiration > 0 := by
    rw [Since_pos_iff]
    exact not_lt.2 hexp
  simp only [insertStore, h, h1]
  rfl

/-- C17 (as stated, refuted). In the cache after the run `exOpsHits` the entry
of `a. IN A` (fresh until 10 s, stale until 30 s) has `hits = 1` and
`staleHits = 1`; `InsertMessage` for the same key at 25 s renews it, and the
renewed entry has both counters at 0. -/
theorem C17_renewal_zeroes_counters_example :
    exCacheHits.m.get exKeyA = some
      { expiration := 10 * Second, msg := exMsgA, staleExpiration := 30 * Second,
        hits := 1, staleHits := 1, ttlSeconds := 0 } ∧
    (InsertMessage exCacheHits exKeyA exMsgA (InsertClock.const (25 * Second)) [exKeyA]
      [exKeyA]).m.get exKeyA = some
      { expiration := 35 * Second, msg := exMsgA, staleExpiration := 55 * Second,
        hits := 0, staleHits := 0, ttlSeconds := 0 } := by
  refine ⟨by decide, by decide⟩

/-- C17 (amended). For every cache built by `New` with a positive capacity and
a sequence of calls, and every key whose entry is past its fresh expiration
but before its stale expiration, `InsertMessage(key, M)` replaces the stored
message by `M`, sets the fresh expiration from the current time and the TTL in
force (the default TTL, or with `ttlFromResp` the clamped lowest TTL of `M`),
sets the stale expiration to the current time plus the stale TTL, and resets
the entry's `hits` and `staleHits` counters to 0; the entries of all other
keys are unchanged. -/
theorem C17_renewal_resets_counters (c : Cache) (s : Bytes) (msg : Msg) (clk : InsertClock)
    (order1 order2 : List Bytes) (e : elem) (hr : c.Reachable)
    (hget : c.m.get s = some e) (hexp : e.expiration < clk.sinceExpiration)
    (hstale : clk.sinceStale < e.staleExpiration) :
    (∃ e1, (InsertMessage c s msg clk order1 order2).m.get s = some e1 ∧
      e1.msg = msg ∧
      e1.expiration =
        (if c.ttlFromResp then
          clk.nowResp + (getLowestTtl msg c.ttlMinSeconds c.ttlMaxSeconds : Int) * Second
        else clk.nowTtl + c.ttl) ∧
      e1.staleExpiration = clk.nowStale + c.staleTtl ∧
      e1.hits = 0 ∧ e1.staleHits = 0) ∧
    ∀ k, k ≠ s → (InsertMessage c s msg clk order1 order2).m.get k = c.m.get k := by
  obtain ⟨hcap, hlen⟩ := hr.below_capacity
  have hnot : ¬ c.capacity ≤ 0 := by omega
  have hstore := insertStore_renew c s msg clk e hget hexp hstale
  have hlen1 : ((insertStore c s msg clk).m.length : Int) < (insertStore c s msg clk).capacity := by
    rw [insertStore_capacity, hstore]
    simp only
    rw [Entries.length_set_present _ _ _ _ hget]
    exact hlen
  have hins : InsertMessage c s msg clk order1 order2 =
      { c with m := c.m.set s (insertedElem c msg clk) } := by
    simp only [InsertMessage, hnot, if_false, EvictRandom]
    rw [evictRandomInternal_room _ _ _ _ hlen1, evictRandomInternal_room _ _ _ _ hlen1, hstore]
  rw [hins]
  refine ⟨⟨insertedElem c msg clk, ?_, rfl, rfl, rfl, rfl, rfl⟩, ?_⟩
  · simp only [Entries.get_set, if_true]
  · intro k hk
    have : ¬ s = k := fun h => hk h.symm
    simp only [Entries.get_set, if_neg this]

theorem C17_renewal_resets_counters_witness :
    exCacheHits.Reachable ∧
    exCacheHits.m.get exKeyA = some
      { expiration := 10 * Second, msg := exMsgA, staleExpiration := 30 * Second,
        hits := 1, staleHits := 1, ttlSeconds := 0 } ∧
    (10 * Second : Int) < (InsertClock.const (25 * Second)).sinceExpiration ∧
    (InsertClock.const (25 * Second)).sinceStale < (30 * Second : Int) ∧
    ∃ e1, (InsertMessage exCacheHits exKeyA exMsgB (InsertClock.const (25 * Second)) [exKeyA]
        [exKeyA]).m.get exKeyA = some e1 ∧
      e1.msg = exMsgB ∧
      e1.expiration =
        (if exCacheHits.ttlFromResp then
          (InsertClock.const (25 * Second)).nowResp +
            (getLowestTtl exMsgB exCacheHits.ttlMinSeconds exCacheHits.ttlMaxSeconds : Int) * Second
        else (InsertClock.const (25 * Second)).nowTtl + exCacheHits.ttl) ∧
      e1.staleExpiration = (InsertClock.const (25 * Second)).nowStale + exCacheHits.staleTtl ∧
      e1.hits = 0 ∧ e1.staleHits = 0 :=
  ⟨⟨10, 10, 30, false, 0, exOpsHits, by decide, by decide, rfl⟩, by decide, by decide, by decide,
    (C17_renewal_resets_counters exCacheHits exKeyA exMsgB (InsertClock.const (25 * Second))
      [exKeyA] [exKeyA]
      { expiration := 10 * Second, msg := exMsgA, staleExpiration := 30 * Second,
        hits := 1, staleHits := 1, ttlSeconds := 0 }
      ⟨10, 10, 30, false, 0, exOpsHits, by decide, by decide, rfl⟩
      (by decide) (by decide) (by decide)).1⟩

/-- C18. For every cache built by `New` with a positive capacity and a
sequence of `InsertMessage`, `Hit` and `Remove` calls, and every key whose
entry is still fresh (the clock does not read past its fresh expiration),
`InsertMessage(key, M)` is a no-op: the cache afterwards equals the cache
before, so the stored message, both expirations and both counters of that
entry and every other entry are unchanged, and the eviction at the end of the
call removes nothing, whatever the iteration orders. -/
theorem C18_fresh_entry_not_overwritten (c : Cache) (s : Bytes) (msg : Msg)
    (clk : InsertClock) (order1 order2 : List Bytes) (e : elem) (hr : c.Reachable)
    (hget : c.m.get s = some e) (hfresh : clk.sinceExpiration ≤ e.expiration) :
    InsertMessage c s msg clk order1 order2 = c := by
  obtain ⟨hcap, hlen⟩ := hr.below_capacity
  have hnot : ¬ c.capacity ≤ 0 := by omega
  simp only [InsertMessage, hnot, if_false, EvictRandom]
  rw [insertStore_fresh c s msg clk e hget hfresh, evictRandomInternal_room _ _ _ _ hlen,
    evictRandomInternal_room _ _ _ _ hlen]

theorem C18_fresh_entry_not_overwritten_witness :
    exCacheHits.Reachable ∧
    exCacheHits.m.get exKeyA = some
      { expiration := 10 * Second, msg := exMsgA, staleExpiration := 30 * Second,
        hits := 1, staleHits := 1, ttlSeconds := 0 } ∧
    (InsertClock.const (7 * Second)).sinceExpiration ≤ (10 * Second : Int) ∧
    InsertMessage exCacheHits exKeyA exMsgB (InsertClock.const (7 * Second)) [exKeyA] [exKeyA] =
      exCacheHits :=
  ⟨⟨10, 10, 30, false, 0, exOpsHits, by decide, by decide, rfl⟩, by decide, by decide,
    C18_fresh_entry_not_overwritten exCacheHits exKeyA exMsgB (InsertClock.const (7 * Second))
      [exKeyA] [exKeyA]
      { expiration := 10 * Second, msg := exMsgA, staleExpiration := 30 * Second,
        hits := 1, staleHits := 1, ttlSeconds := 0 }
      ⟨10, 10, 30, false, 0, exOpsHits, by decide, by decide, rfl⟩ (by decide) (by decide)⟩

/-! ## Claims on the TTL computation and on the disabled cache -/

theorem foldl_min_assoc (ts : List Nat) (a b : Nat) :
    min a (ts.foldl min b) = ts.foldl min (min a b) := by
  induction ts generalizing b with
  | nil => rfl
  | cons t ts ih =>
    simp only [List.foldl_cons]
    rw [ih, Nat.min_assoc]

theorem slicesMin_cons (x : Nat) (ts : List Nat) : slicesMin (x :: ts) = ts.foldl min x := by
  induction ts generalizing x with
  | nil => rfl
  | cons y rest ih =>
    simp only [slicesMin, List.foldl_cons]
    rw [ih, foldl_min_assoc]

theorem foldl_min_le_init (ts : List Nat) (a : Nat) : ts.foldl min a ≤ a := by
  induction ts generalizing a with
  | nil => exact le_refl _
  | cons t ts ih =>
    simp only [List.foldl_cons]
    exact le_trans (ih _) (Nat.min_le_left _ _)

theorem foldl_min_le_mem (ts : List Nat) (a t : Nat) (h : t ∈ ts) : ts.foldl min a ≤ t := by
  induction ts generalizing a with
  | nil => exact absurd h (List.not_mem_nil _)
  | cons t0 ts ih =>
    simp only [List.foldl_cons]
    rcases List.mem_cons.1 h with h | h
    · subst h
      exact le_trans (foldl_min_le_init _ _) (Nat.min_le_right _ _)
    · exact ih _ h

theorem foldl_min_mem (ts : List Nat) (a : Nat) : ts.foldl min a = a ∨ ts.foldl min a ∈ ts := by
  induction ts generalizing a with
  | nil => exact Or.inl rfl
  | cons t0 ts ih =>
    simp only [List.foldl_cons]
    rcases ih (min a t0) with h | h
    · rw [h]
      rcases Nat.le_total a t0 with h1 | h1
      · exact Or.inl (Nat.min_eq_left h1)
      · rw [Nat.min_eq_right h1]
        exact Or.inr (List.mem_cons_self _ _)
    · exact Or.inr (List.mem_cons_of_mem _ h)

/-- The value `specMinTtl` is the least TTL of the answer section, and 0 when
the answer section is empty. -/
theorem specMinTtl_least (r : Msg) :
    (r.Answer = [] → specMinTtl r = 0) ∧
    (∀ rr ∈ r.Answer, specMinTtl r ≤ rr.Ttl) ∧
    (r.Answer ≠ [] → ∃ rr ∈ r.Answer, rr.Ttl = specMinTtl r) := by
  cases hA : r.Answer with
  | nil =>
    refine ⟨fun _ => ?_, fun rr hrr => absurd hrr (List.not_mem_nil _), fun h => absurd rfl h⟩
    simp [specMinTtl, hA]
  | cons a rest =>
    have hs : specMinTtl r = (rest.map (fun rr => rr.Ttl)).foldl min a.Ttl := by
      simp [specMinTtl, hA]
    refine ⟨fun h => absurd h (by simp), ?_, fun _ => ?_⟩
    · intro rr hrr
      rw [hs]
      rcases List.mem_cons.1 hrr with h | h
      · subst h
        exact foldl_min_le_init _ _
      · exact foldl_min_le_mem _ _ _ (List.mem_map_of_mem _ h)
    · rw [hs]
      rcases foldl_min_mem (rest.map (fun rr => rr.Ttl)) a.Ttl with h | h
      · exact ⟨a, List.mem_cons_self _ _, h.symm⟩
      · obtain ⟨rr, hrr, hval⟩ := List.mem_map.1 h
        exact ⟨rr, List.mem_cons_of_mem _ hrr, hval⟩

/-- The function `getLowestTtl` computes the clamped minimum of the specification. -/
theorem getLowestTtl_eq_spec (r : Msg) (lo hi : Nat) (h : lo ≤ hi) :
    getLowestTtl r lo hi = specClamp lo hi (specMinTtl r) := by
  have hv : slicesMin (if (r.Answer.map (fun rr => rr.Ttl)).length = 0 then
      r.Answer.map (fun rr => rr.Ttl) ++ [0] else r.Answer.map (fun rr => rr.Ttl)) =
      specMinTtl r := by
    cases hA : r.Answer with
    | nil => simp [specMinTtl, slicesMin, hA]
    | cons a rest => simp [specMinTtl, slicesMin_cons, hA]
  simp only [getLowestTtl, hv, specClamp]
  by_cases h1 : specMinTtl r < lo
  · rw [if_pos h1, Nat.min_eq_left (by omega), Nat.max_eq_left (by omega)]
  · rw [if_neg h1]
    by_cases h2 : specMinTtl r > hi
    · rw [if_pos h2, Nat.min_eq_right (by omega), Nat.max_eq_right h]
    · rw [if_neg h2, Nat.min_eq_left (by omega), Nat.max_eq_right (by omega)]

theorem toUint32_natCast (n : Nat) (h : n < 2 ^ 32) : toUint32 (n : Int) = n := by
  unfold toUint32
  norm_num at h ⊢
  omega

theorem wrapInt64_seconds (n : Nat) (h : n < 2 ^ 32) :
    wrapInt64 ((n : Int) * Second) = (n : Int) * Second := by
  apply wrapInt64_of_range
  · unfold Second
    norm_num at h ⊢
    omega
  · unfold Second
    norm_num at h ⊢
    omega

/-- Eviction changes no entry that it leaves in the map. -/
theorem evictLoop_get_some (onlyStale : Bool) (now : Time) (order : List Bytes) (i : Int)
    (m : Entries) (k : Bytes) (e : elem)
    (h : (evictLoop onlyStale now order i m).get k = some e) : m.get k = some e := by
  have hdel : ∀ (m1 : Entries) (k1 : Bytes), (m1.delete k1).get k = some e → m1.get k = some e := by
    intro m1 k1 h1
    rw [Entries.get_delete] at h1
    split at h1
    · exact absurd h1 (by simp)
    · exact h1
  induction order generalizing i m with
  | nil => exact h
  | cons k0 order ih =>
    simp only [evictLoop] at h
    have h1 := ih _ _ h
    split at h1
    · split at h1
      · split at h1
        · split at h1
          · exact hdel _ _ h1
          · exact h1
        · exact h1
      · exact hdel _ _ h1
    · exact h1

theorem evictRandomInternal_get_some (c : Cache) (onlyStale : Bool) (now : Time)
    (order : List Bytes) (k : Bytes) (e : elem)
    (h : (evictRandomInternal c onlyStale now order).m.get k = some e) : c.m.get k = some e := by
  simp only [evictRandomInternal] at h
  split at h
  · exact h
  · exact evictLoop_get_some _ _ _ _ _ _ _ h

/-- An entry found after `InsertMessage` is the entry its store left. -/
theorem InsertMessage_get_some (c : Cache) (s : Bytes) (msg : Msg) (clk : InsertClock)
    (order1 order2 : List Bytes) (k : Bytes) (e : elem)
    (h : (InsertMessage c s msg clk order1 order2).m.get k = some e) :
    c.capacity ≤ 0 ∧ c.m.get k = some e ∨
    0 < c.capacity ∧ (insertStore c s msg clk).m.get k = some e := by
  simp only [InsertMessage] at h
  split at h
  · rename_i hc
    exact Or.inl ⟨hc, h⟩
  · rename_i hc
    simp only [EvictRandom] at h
    exact Or.inr ⟨by omega, evictRandomInternal_get_some _ _ _ _ _ _
      (evictRandomInternal_get_some _ _ _ _ _ _ h)⟩

/-- C19. TTL computation.  For every message and bounds `ttl ≤ ttlMax`,
`getLowestTtl` equals the minimum TTL over the records of the answer section
(0 when the answer section is empty; `specMinTtl` is that minimum) clamped
into `[ttl, ttlMax]`, so the result lies in `[ttl, ttlMax]`.  And in every
cache with the configuration of `New(capacity, ttl, staleTtl, ttlFromResp,
ttlMax)`, the bounds being 32-bit values, the entry that `InsertMessage`
stores under a key that had none, the clock reading `now`, has: with
`ttlFromResp`, fresh expiration `now` plus that many seconds and `ttlSeconds`
equal to that value; without it, fresh expiration `now` plus `ttl` seconds and
`ttlSeconds = 0`.  That entry is what the store of `InsertMessage` writes; any
entry found under the key after the call is that entry, and it is found
whenever the insert leaves the cache below its capacity. -/
theorem C19_ttl_computation (msg : Msg) (ttl ttlMax : Nat) (capacity staleTtl : Int)
    (ttlFromResp : Bool) (m : Entries) (s : Bytes) (now : Time) (order1 order2 : List Bytes)
    (hle : ttl ≤ ttlMax) (hmax : ttlMax < 2 ^ 32) (habs : m.get s = none) :
    (getLowestTtl msg ttl ttlMax = specClamp ttl ttlMax (specMinTtl msg) ∧
      (msg.Answer = [] → specMinTtl msg = 0) ∧
      (∀ rr ∈ msg.Answer, specMinTtl msg ≤ rr.Ttl) ∧
      (msg.Answer ≠ [] → ∃ rr ∈ msg.Answer, rr.Ttl = specMinTtl msg) ∧
      ttl ≤ getLowestTtl msg ttl ttlMax ∧ getLowestTtl msg ttl ttlMax ≤ ttlMax) ∧
    ∃ e,
      (insertStore ((New capacity ttl staleTtl ttlFromResp ttlMax).withEntries m) s msg
        (InsertClock.const now)).m.get s = some e ∧
      (∀ e1, (InsertMessage ((New capacity ttl staleTtl ttlFromResp ttlMax).withEntries m) s msg
        (InsertClock.const now) order1 order2).m.get s = some e1 → e1 = e) ∧
      ((m.length : Int) + 1 < capacity →
        (InsertMessage ((New capacity ttl staleTtl ttlFromResp ttlMax).withEntries m) s msg
          (InsertClock.const now) order1 order2).m.get s = some e) ∧
      (ttlFromResp = true →
        e.expiration = now + (getLowestTtl msg ttl ttlMax : Int) * Second ∧
        e.ttlSeconds = getLowestTtl msg ttl ttlMax) ∧
      (ttlFromResp = false → e.expiration = now + (ttl : Int) * Second ∧ e.ttlSeconds = 0) := by
  have hspec := getLowestTtl_eq_spec msg ttl ttlMax hle
  obtain ⟨l1, l2, l3⟩ := specMinTtl_least msg
  have hrange : ttl ≤ getLowestTtl msg ttl ttlMax ∧ getLowestTtl msg ttl ttlMax ≤ ttlMax := by
    rw [hspec]
    simp only [specClamp]
    constructor
    · exact Nat.le_max_left _ _
    · exact Nat.max_le.2 ⟨hle, Nat.min_le_right _ _⟩
  refine ⟨⟨hspec, l1, l2, l3, hrange.1, hrange.2⟩, ?_⟩
  have httl : ttl < 2 ^ 32 := lt_of_le_of_lt hle hmax
  have hstore := insertStore_absent ((New capacity ttl staleTtl ttlFromResp ttlMax).withEntries m)
    s msg (InsertClock.const now) habs
  have hgetS : (insertStore ((New capacity ttl staleTtl ttlFromResp ttlMax).withEntries m) s msg
      (InsertClock.const now)).m.get s =
      some (insertedElem ((New capacity ttl staleTtl ttlFromResp ttlMax).withEntries m) msg
        (InsertClock.const now)) := by
    rw [hstore]
    simp only [Entries.get_set, if_true]
  refine ⟨_, hgetS, ?_, ?_, ?_, ?_⟩
  · intro e1 h1
    rcases InsertMessage_get_some _ _ _ _ _ _ _ _ h1 with ⟨_, h2⟩ | ⟨_, h2⟩
    · have : m.get s = some e1 := h2
      rw [habs] at this
      exact absurd this (by simp)
    · rw [hgetS] at h2
      exact (Option.some.inj h2).symm
  · intro hroom
    have hcap : ¬ ((New capacity ttl staleTtl ttlFromResp ttlMax).withEntries m).capacity ≤ 0 := by
      have : (0 : Int) ≤ (m.length : Int) := Int.ofNat_nonneg _
      show ¬ capacity ≤ 0
      omega
    have hlen : ((insertStore ((New capacity ttl staleTtl ttlFromResp ttlMax).withEntries m) s msg
        (InsertClock.const now)).m.length : Int) <
        (insertStore ((New capacity ttl staleTtl ttlFromResp ttlMax).withEntries m) s msg
          (InsertClock.const now)).capacity := by
      have h1 := insertStore_length_le
        ((New capacity ttl staleTtl ttlFromResp ttlMax).withEntries m) s msg (InsertClock.const now)
      rw [insertStore_capacity]
      have h2 : ((New capacity ttl staleTtl ttlFromResp ttlMax).withEntries m).m.length =
          m.length := rfl
      have h3 : ((New capacity ttl staleTtl ttlFromResp ttlMax).withEntries m).capacity =
          capacity := rfl
      rw [h3]
      rw [h2] at h1
      omega
    simp only [InsertMessage, hcap, if_false, EvictRandom]
    rw [evictRandomInternal_room _ _ _ _ hlen, evictRandomInternal_room _ _ _ _ hlen]
    exact hgetS
  · intro hf
    subst hf
    refine ⟨?_, ?_⟩ <;>
      simp only [insertedElem, Cache.withEntries, New, InsertClock.const, if_true,
        toUint32_natCast ttl httl, toUint32_natCast ttlMax hmax]
  · intro hf
    subst hf
    refine ⟨?_, ?_⟩ <;>
      simp only [insertedElem, Cache.withEntries, New, InsertClock.const, Bool.false_eq_true,
        if_false, wrapInt64_seconds ttl httl]

theorem C19_ttl_computation_witness :
    (60 : Nat) ≤ 3600 ∧ (3600 : Nat) < 2 ^ 32 ∧ Entries.get [] exKeyA = none ∧
    getLowestTtl exMsgTtl 60 3600 = 60 ∧ specMinTtl exMsgTtl = 20 ∧
    getLowestTtl exMsgTtl 60 3600 = specClamp 60 3600 (specMinTtl exMsgTtl) :=
  ⟨by decide, by decide, by decide, by decide, by decide,
    (C19_ttl_computation exMsgTtl 60 3600 10 120 true [] exKeyA 0 [exKeyA] [exKeyA]
      (by decide) (by decide) (by decide)).1.1⟩

theorem run_SameConfig (c : Cache) (ops : List Op) : c.SameConfig (run c ops) := by
  induction ops generalizing c with
  | nil => rfl
  | cons op ops ih => exact (Op.apply_SameConfig c op).andThen (ih _)

/-- C20. Cache disabled.  A cache created by `New` with a capacity of zero or
less stays empty through every sequence of calls; on it `InsertMessage` stores
nothing (the cache is unchanged), `Search` reports every key as not present,
and `Hit` returns no message for every question and flag combination and
leaves the cache unchanged.  All three are total functions of the model: none
of the calls can panic. -/
theorem C20_cache_disabled (capacity ttl staleTtl : Int) (ttlFromResp : Bool) (ttlMax : Int)
    (ops : List Op) (s : Bytes) (msg : Msg) (iclk : InsertClock) (order1 order2 : List Bytes)
    (q : Question) (dnssec tcp : Bool) (msgid : Nat) (keepStale returnStale : Bool)
    (hclk : HitClock) (hcap : capacity ≤ 0) :
    (run (New capacity ttl staleTtl ttlFromResp ttlMax) ops).m = [] ∧
    InsertMessage (run (New capacity ttl staleTtl ttlFromResp ttlMax) ops) s msg iclk
      order1 order2 = run (New capacity ttl staleTtl ttlFromResp ttlMax) ops ∧
    Search (run (New capacity ttl staleTtl ttlFromResp ttlMax) ops) s =
      (none, zeroTime, zeroTime, false) ∧
    Hit (run (New capacity ttl staleTtl ttlFromResp ttlMax) ops) q dnssec tcp msgid keepStale
      returnStale hclk = (none, run (New capacity ttl staleTtl ttlFromResp ttlMax) ops) := by
  have hsame := run_SameConfig (New capacity ttl staleTtl ttlFromResp ttlMax) ops
  have hc : (run (New capacity ttl staleTtl ttlFromResp ttlMax) ops).capacity ≤ 0 := by
    unfold Cache.SameConfig at hsame
    rw [hsame]
    exact hcap
  have hwf := WF_run _ ops (WF_New capacity ttl staleTtl ttlFromResp ttlMax)
  refine ⟨hwf hc, ?_, Search_disabled _ _ hc, Hit_absent _ _ _ _ _ _ _ _ (Or.inl hc)⟩
  simp only [InsertMessage, hc, if_true]

theorem C20_cache_disabled_witness :
    (0 : Int) ≤ 0 ∧
    (run (New 0 60 120 false 0)
      [Op.insert exKeyA exMsgA (InsertClock.const 0) [exKeyA] [exKeyA]]).m = [] ∧
    Hit (run (New 0 60 120 false 0)
      [Op.insert exKeyA exMsgA (InsertClock.const 0) [exKeyA] [exKeyA]]) exQuestionA false false 7
      false false (HitClock.const 1) =
      (none, run (New 0 60 120 false 0)
        [Op.insert exKeyA exMsgA (InsertClock.const 0) [exKeyA] [exKeyA]]) :=
  ⟨by decide,
    (C20_cache_disabled 0 60 120 false 0
      [Op.insert exKeyA exMsgA (InsertClock.const 0) [exKeyA] [exKeyA]] exKeyA exMsgA
      (InsertClock.const 0) [exKeyA] [exKeyA] exQuestionA false false 7 false false
      (HitClock.const 1) (by decide)).1,
    (C20_cache_disabled 0 60 120 false 0
      [Op.insert exKeyA exMsgA (InsertClock.const 0) [exKeyA] [exKeyA]] exKeyA exMsgA
      (InsertClock.const 0) [exKeyA] [exKeyA] exQuestionA false false 7 false false
      (HitClock.const 1) (by decide)).2.2.2⟩

/-! ## The forwarder: the search loop pass by pass -/

theorem searchLoop_cons (env : Env) (cfg : Config) (name : Bytes) (tcp : Bool) (domain : Bytes)
    (rest : List Bytes) (st : SearchState) (w : World) :
    searchLoop env cfg name tcp (domain :: rest) st w =
      match searchStep env cfg name tcp domain st w with
      | none => none
      | some (true, st1, w1) => searchLoop env cfg name tcp rest st1 w1
      | some (false, st1, w1) => some (st1, w1) := by
  cases hs : HasSuffix name domain with
  | true => simp only [searchLoop, searchStep, hs, if_true]
  | false =>
    cases hq : st.reqCopy.Question with
    | nil => simp only [searchLoop, searchStep, searchRequest, hs, hq, Bool.false_eq_true, if_false]
    | cons q0 qs =>
      simp only [searchLoop, searchStep, searchRequest, hs, hq, Bool.false_eq_true, if_false]
      rcases forwardQuery env cfg _ tcp w with _ | ⟨⟨r, err⟩, w1⟩
      · rfl
      · rcases err with _ | e
        · rcases r with _ | rm
          · rfl
          · simp only []
            split
            · split <;> rfl
            · split <;> rfl
        · rfl


theorem searchPasses_loop (env : Env) (cfg : Config) (name : Bytes) (tcp : Bool)
    (pre rest : List Bytes) (st : SearchState) (w : World) (st1 : SearchState) (w1 : World)
    (h : searchPasses env cfg name tcp pre st w = some (st1, w1)) :
    searchLoop env cfg name tcp (pre ++ rest) st w = searchLoop env cfg name tcp rest st1 w1 := by
  induction pre generalizing st w with
  | nil =>
    simp only [searchPasses, Option.some.injEq, Prod.mk.injEq] at h
    obtain ⟨rfl, rfl⟩ := h
    rfl
  | cons d pre ih =>
    rw [List.cons_append, searchLoop_cons]
    simp only [searchPasses] at h
    rcases hstep : searchStep env cfg name tcp d st w with _ | ⟨b, st2, w2⟩
    · rw [hstep] at h; simp at h
    · cases b with
      | false => rw [hstep] at h; simp at h
      | true =>
        rw [hstep] at h
        exact ih st2 w2 h

theorem searchPasses_induction (env : Env) (cfg : Config) (name : Bytes) (tcp : Bool)
    (P : SearchState → Prop)
    (hstep : ∀ d st w st1 w1, P st → searchStep env cfg name tcp d st w = some (true, st1, w1) →
      P st1)
    (pre : List Bytes) (st : SearchState) (w : World) (st1 : SearchState) (w1 : World)
    (h : searchPasses env cfg name tcp pre st w = some (st1, w1)) (h0 : P st) : P st1 := by
  induction pre generalizing st w with
  | nil =>
    simp only [searchPasses, Option.some.injEq, Prod.mk.injEq] at h
    obtain ⟨rfl, rfl⟩ := h
    exact h0
  | cons d pre ih =>
    simp only [searchPasses] at h
    rcases hs : searchStep env cfg name tcp d st w with _ | ⟨b, st2, w2⟩
    · rw [hs] at h; simp at h
    · cases b with
      | false => rw [hs] at h; simp at h
      | true =>
        rw [hs] at h
        exact ih st2 w2 h (hstep d st w st2 w2 h0 hs)

/-- What a pass of the search loop that queries the upstreams does, given the
outcome of `forwardQuery` for the candidate. -/
theorem searchStep_query (env : Env) (cfg : Config) (name : Bytes) (tcp : Bool) (domain : Bytes)
    (st : SearchState) (w : World) (rq : Msg) (r : Option Msg) (err : Option Error) (w1 : World)
    (hs : HasSuffix name domain = false)
    (hrq : searchRequest st.reqCopy (env.ToLower (env.appendDomain name domain)) = some rq)
    (hf : forwardQuery env cfg rq tcp w = some ((r, err), w1)) :
    searchStep env cfg name tcp domain st w =
      match err with
      | some _ =>
        some (false, { st with r := r, err := err, didSearch := true, reqCopy := rq,
                               searchName := env.ToLower (env.appendDomain name domain) }, w1)
      | none =>
        match r with
        | none => none
        | some rm =>
          if rm.Rcode = RcodeSuccess then
            if rm.Answer = [] ∧ rm.Truncated = false then
              some (true, { st with r := r, err := err, didSearch := true, reqCopy := rq,
                                    searchName := env.ToLower (env.appendDomain name domain),
                                    nodata := some rm }, w1)
            else
              some (false, { st with r := r, err := err, didSearch := true, reqCopy := rq,
                                     searchName := env.ToLower (env.appendDomain name domain) }, w1)
          else if rm.Rcode = RcodeNameError then
            some (true, { st with r := r, err := err, didSearch := true, reqCopy := rq,
                                  searchName := env.ToLower (env.appendDomain name domain) },
                  w1.incNameErrorCount)
          else if rm.Rcode = RcodeServerFailure then
            some (true, { st with r := r, err := err, didSearch := true, reqCopy := rq,
                                  searchName := env.ToLower (env.appendDomain name domain) }, w1)
          else
            some (false, { st with r := r, err := err, didSearch := true, reqCopy := rq,
                                   searchName := env.ToLower (env.appendDomain name domain) }, w1) := by
  simp only [searchStep, hs, Bool.false_eq_true, if_false, hrq, hf]
  rcases err with _ | e
  · rcases r with _ | rm
    · rfl
    · simp only [List.length_eq_zero, Msg.Copy]
      by_cases h0 : rm.Rcode = RcodeSuccess
      · have hne : ¬ rm.Rcode = RcodeNameError := by rw [h0]; decide
        simp only [h0, hne, if_true, if_false]
        rw [h0] at hne
        simp only [hne, if_false]
      · simp only [h0, if_false]
        by_cases h3 : rm.Rcode = RcodeNameError
        · simp only [h3, if_true, true_or]
        · simp only [h3, if_false, false_or]
  · rfl

theorem searchRequest_again (m rq : Msg) (a n : Bytes) (h : searchRequest m a = some rq) :
    searchRequest rq n = searchRequest m n := by
  unfold searchRequest at h ⊢
  cases hq : m.Question with
  | nil => rw [hq] at h; simp at h
  | cons q0 qs =>
    rw [hq] at h
    simp only [Option.some.injEq] at h
    subst h
    rfl

theorem searchInit_CopyOf (req : Msg) : (searchInit req).CopyOf req := fun _ => rfl

theorem searchStep_CopyOf (env : Env) (cfg : Config) (name : Bytes) (tcp : Bool) (req : Msg)
    (d : Bytes) (st : SearchState) (w : World) (b : Bool) (st1 : SearchState) (w1 : World)
    (h0 : st.CopyOf req) (h : searchStep env cfg name tcp d st w = some (b, st1, w1)) :
    st1.CopyOf req := by
  cases hs : HasSuffix name d with
  | true =>
    simp only [searchStep, hs, if_true, Option.some.injEq, Prod.mk.injEq] at h
    obtain ⟨_, rfl, _⟩ := h
    exact h0
  | false =>
    rcases hrq : searchRequest st.reqCopy (env.ToLower (env.appendDomain name d)) with _ | rq
    · simp [searchStep, hs, hrq] at h
    · rcases hf : forwardQuery env cfg rq tcp w with _ | ⟨⟨r, err⟩, w2⟩
      · simp [searchStep, hs, hrq, hf] at h
      · have hrq1 : ∀ n, searchRequest rq n = searchRequest req n := fun n =>
          (searchRequest_again _ _ _ n hrq).trans (h0 n)
        rw [searchStep_query env cfg name tcp d st w rq r err w2 hs hrq hf] at h
        rcases err with _ | e
        · rcases r with _ | rm
          · simp at h
          · simp only [] at h
            split at h
            · split at h <;>
              · simp only [Option.some.injEq, Prod.mk.injEq] at h
                obtain ⟨_, rfl, _⟩ := h
                exact hrq1
            · split at h
              · simp only [Option.some.injEq, Prod.mk.injEq] at h
                obtain ⟨_, rfl, _⟩ := h
                exact hrq1
              · split at h <;>
                · simp only [Option.some.injEq, Prod.mk.injEq] at h
                  obtain ⟨_, rfl, _⟩ := h
                  exact hrq1
        · simp only [Option.some.injEq, Prod.mk.injEq] at h
          obtain ⟨_, rfl, _⟩ := h
          exact hrq1

theorem searchPasses_CopyOf (env : Env) (cfg : Config) (name : Bytes) (tcp : Bool) (req : Msg)
    (pre : List Bytes) (w : World) (st1 : SearchState) (w1 : World)
    (h : searchPasses env cfg name tcp pre (searchInit req) w = some (st1, w1)) :
    st1.CopyOf req :=
  searchPasses_induction env cfg name tcp (fun st => st.CopyOf req)
    (fun d st w st1 w1 h0 hs => searchStep_CopyOf env cfg name tcp req d st w true st1 w1 h0 hs)
    pre _ w st1 w1 h (searchInit_CopyOf req)

theorem forwardSearch_of_loop (env : Env) (cfg : Config) (req : Msg) (tcp : Bool) (w : World)
    (q0 : Question) (qs : List Question) (st1 : SearchState) (w2 : World)
    (hq : req.Question = q0 :: qs)
    (hloop : searchLoop env cfg q0.Name tcp cfg.SearchDomains (searchInit req) w = some (st1, w2))
    (hd : st1.didSearch = true) :
    forwardSearch env cfg req tcp w = (searchFinish q0 st1).map (fun res => (res, w2)) := by
  unfold searchInit at hloop
  simp only [forwardSearch, hq, hloop, hd, Bool.not_true, Bool.false_eq_true, if_false]

/-- The search loop left at a queried candidate: what `forwardSearch` returns. -/
theorem forwardSearch_at (env : Env) (cfg : Config) (req : Msg) (tcp : Bool) (w : World)
    (q0 : Question) (qs : List Question) (pre : List Bytes) (domain : Bytes) (rest : List Bytes)
    (st : SearchState) (w1 : World) (st1 : SearchState) (w2 : World)
    (hq : req.Question = q0 :: qs) (hdom : cfg.SearchDomains = pre ++ domain :: rest)
    (hpre : searchPasses env cfg q0.Name tcp pre (searchInit req) w = some (st, w1))
    (hstep : searchStep env cfg q0.Name tcp domain st w1 = some (false, st1, w2))
    (hd : st1.didSearch = true) :
    forwardSearch env cfg req tcp w = (searchFinish q0 st1).map (fun res => (res, w2)) := by
  apply forwardSearch_of_loop env cfg req tcp w q0 qs st1 w2 hq _ hd
  rw [hdom, searchPasses_loop env cfg q0.Name tcp pre (domain :: rest) _ w st w1 hpre,
    searchLoop_cons, hstep]

theorem searchLoop_skipAll (env : Env) (cfg : Config) (name : Bytes) (tcp : Bool)
    (rest : List Bytes) (st : SearchState) (w : World)
    (h : ∀ d ∈ rest, HasSuffix name d = true) :
    searchLoop env cfg name tcp rest st w = some (st, w) := by
  induction rest with
  | nil => rfl
  | cons d rest ih =>
    have hd : HasSuffix name d = true := h d (List.mem_cons_self _ _)
    simp only [searchLoop, hd, if_true]
    exact ih (fun e he => h e (List.mem_cons_of_mem _ he))

/-- The search loop run to its end after a last queried candidate: what
`forwardSearch` returns. -/
theorem forwardSearch_last (env : Env) (cfg : Config) (req : Msg) (tcp : Bool) (w : World)
    (q0 : Question) (qs : List Question) (pre : List Bytes) (domain : Bytes) (rest : List Bytes)
    (st : SearchState) (w1 : World) (st1 : SearchState) (w2 : World)
    (hq : req.Question = q0 :: qs) (hdom : cfg.SearchDomains = pre ++ domain :: rest)
    (hpre : searchPasses env cfg q0.Name tcp pre (searchInit req) w = some (st, w1))
    (hstep : searchStep env cfg q0.Name tcp domain st w1 = some (true, st1, w2))
    (hrest : ∀ d ∈ rest, HasSuffix q0.Name d = true)
    (hd : st1.didSearch = true) :
    forwardSearch env cfg req tcp w = (searchFinish q0 st1).map (fun res => (res, w2)) := by
  apply forwardSearch_of_loop env cfg req tcp w q0 qs st1 w2 hq _ hd
  rw [hdom, searchPasses_loop env cfg q0.Name tcp pre (domain :: rest) _ w st w1 hpre,
    searchLoop_cons, hstep]
  exact searchLoop_skipAll env cfg q0.Name tcp rest st1 w2 hrest

theorem searchRequest_cons (req : Msg) (q0 : Question) (qs : List Question) (n : Bytes)
    (hq : req.Question = q0 :: qs) :
    searchRequest req n =
      some { req with Question := { Name := n, Qtype := q0.Qtype, Qclass := q0.Qclass } :: qs } := by
  simp only [searchRequest, hq]

theorem setQuestion0_eq (r : Msg) (q : Question) (h : r.Question ≠ []) :
    setQuestion0 r q = some (r.withQuestion0 q) := by
  unfold setQuestion0 Msg.withQuestion0
  cases hq : r.Question with
  | nil => exact absurd hq h
  | cons a rest => rfl

theorem searchFinish_success (q0 : Question) (st : SearchState) (rm : Msg)
    (herr : st.err = none) (hr : st.r = some rm) (h0 : rm.Rcode = RcodeSuccess)
    (hans : rm.Answer ≠ []) (hrq : rm.Question ≠ []) :
    searchFinish q0 st =
      some (some { rm with Answer := searchCname q0.Name st.searchName :: rm.Answer,
                           Question := q0 :: rm.Question.tail }, none) := by
  have hlen : rm.Answer.length > 0 := List.length_pos.2 hans
  cases hq : rm.Question with
  | nil => exact absurd hq hrq
  | cons a rest =>
    simp only [searchFinish, herr, hr, h0, if_true, hlen, setQuestion0, hq, Option.map_some',
      List.tail_cons]

theorem searchFinish_other (q0 : Question) (st : SearchState) (rm : Msg)
    (herr : st.err = none) (hr : st.r = some rm) (h0 : rm.Rcode ≠ RcodeSuccess)
    (hnd : st.nodata = none) (hrq : rm.Question ≠ []) :
    searchFinish q0 st = some (some (rm.withQuestion0 q0), none) := by
  cases hq : rm.Question with
  | nil => exact absurd hq hrq
  | cons a rest =>
    simp only [searchFinish, herr, hr, h0, if_false, hnd, setQuestion0, hq, Option.map_some',
      Msg.withQuestion0, List.tail_cons]

theorem searchFinish_nodata (q0 : Question) (st : SearchState) (rm nd : Msg)
    (herr : st.err = none) (hr : st.r = some rm) (h0 : rm.Rcode ≠ RcodeSuccess)
    (hnd : st.nodata = some nd) (hndq : nd.Question ≠ []) :
    searchFinish q0 st = some (some (nd.withQuestion0 q0), none) := by
  cases hq : nd.Question with
  | nil => exact absurd hq hndq
  | cons a rest =>
    simp only [searchFinish, herr, hr, h0, if_false, hnd, setQuestion0, hq, Option.map_some',
      Msg.withQuestion0, List.tail_cons]

theorem searchFinish_err_nodata (q0 : Question) (st : SearchState) (e : Error) (nd : Msg)
    (herr : st.err = some e) (hnd : st.nodata = some nd) (hndq : nd.Question ≠ []) :
    searchFinish q0 st = some (some (nd.withQuestion0 q0), none) := by
  cases hq : nd.Question with
  | nil => exact absurd hq hndq
  | cons a rest =>
    simp only [searchFinish, herr, hnd, setQuestion0, hq, Option.map_some', Msg.withQuestion0,
      List.tail_cons]

theorem searchFinish_err (q0 : Question) (st : SearchState) (e : Error)
    (herr : st.err = some e) (hnd : st.nodata = none) :
    searchFinish q0 st = some (st.r, some e) := by
  simp only [searchFinish, herr, hnd]

theorem searchRequest_Question (m rq : Msg) (n : Bytes) (h : searchRequest m n = some rq) :
    rq.Question ≠ [] := by
  unfold searchRequest at h
  cases hq : m.Question with
  | nil => rw [hq] at h; simp at h
  | cons q0 qs =>
    rw [hq] at h
    simp only [Option.some.injEq] at h
    subst h
    simp

/-- A response `forwardQuery` returns without error came from an upstream,
so it carries a question section when the upstreams' responses do. -/
theorem forwardQuery_answer_Question (env : Env) (cfg : Config) (req : Msg) (tcp : Bool)
    (w : World) (rm : Msg) (w1 : World) (hcarry : env.AnswersCarryQuestion)
    (hq : req.Question ≠ [])
    (h : forwardQuery env cfg req tcp w = some ((some rm, none), w1)) : rm.Question ≠ [] := by
  unfold forwardQuery at h
  rcases hs : stubLoop req (env.stubRange w.calls.length cfg.Stub) cfg.Nameservers w with
    _ | ⟨ns, w0⟩
  · rw [hs] at h; simp at h
  · rw [hs] at h
    simp only [] at h
    cases ns with
    | nil => simp [queryLoop] at h
    | cons s ns =>
      obtain ⟨res, w2, he, hg⟩ := queryLoop_returns env req tcp (s :: ns) (none, none) w0 hq
        hcarry (Or.inl (by simp))
      rw [he] at h
      simp only [Option.some.injEq, Prod.mk.injEq] at h
      obtain ⟨rfl, _⟩ := h
      obtain ⟨r, hr, hrq⟩ := hg rfl
      simp only [Option.some.injEq] at hr
      subst hr
      exact hrq

/-- The variable `nodata` after a pass of the search loop: unchanged, or the
NODATA reply the upstream iteration for the candidate just returned. -/
theorem searchStep_nodata (env : Env) (cfg : Config) (name : Bytes) (tcp : Bool) (d : Bytes)
    (st : SearchState) (w : World) (b : Bool) (st1 : SearchState) (w1 : World)
    (h : searchStep env cfg name tcp d st w = some (b, st1, w1)) :
    st1.nodata = st.nodata ∨
    ∃ rq rm w2, searchRequest st.reqCopy (env.ToLower (env.appendDomain name d)) = some rq ∧
      forwardQuery env cfg rq tcp w = some ((some rm, none), w2) ∧ st1.nodata = some rm ∧
      rm.Rcode = RcodeSuccess ∧ rm.Answer = [] ∧ rm.Truncated = false := by
  cases hs : HasSuffix name d with
  | true =>
    simp only [searchStep, hs, if_true, Option.some.injEq, Prod.mk.injEq] at h
    obtain ⟨_, rfl, _⟩ := h
    exact Or.inl rfl
  | false =>
    rcases hrq : searchRequest st.reqCopy (env.ToLower (env.appendDomain name d)) with _ | rq
    · simp [searchStep, hs, hrq] at h
    · rcases hf : forwardQuery env cfg rq tcp w with _ | ⟨⟨r, err⟩, w2⟩
      · simp [searchStep, hs, hrq, hf] at h
      · rw [searchStep_query env cfg name tcp d st w rq r err w2 hs hrq hf] at h
        rcases err with _ | e
        · rcases r with _ | rm
          · simp at h
          · simp only [] at h
            split at h
            · rename_i h0
              split at h
              · rename_i hnd
                simp only [Option.some.injEq, Prod.mk.injEq] at h
                obtain ⟨_, rfl, _⟩ := h
                exact Or.inr ⟨rq, rm, w2, rfl, hf, rfl, h0, hnd.1, hnd.2⟩
              · simp only [Option.some.injEq, Prod.mk.injEq] at h
                obtain ⟨_, rfl, _⟩ := h
                exact Or.inl rfl
            · split at h
              · simp only [Option.some.injEq, Prod.mk.injEq] at h
                obtain ⟨_, rfl, _⟩ := h
                exact Or.inl rfl
              · split at h <;>
                · simp only [Option.some.injEq, Prod.mk.injEq] at h
                  obtain ⟨_, rfl, _⟩ := h
                  exact Or.inl rfl
        · simp only [Option.some.injEq, Prod.mk.injEq] at h
          obtain ⟨_, rfl, _⟩ := h
          exact Or.inl rfl

theorem searchPasses_NodataInv (env : Env) (cfg : Config) (name : Bytes) (tcp : Bool)
    (req : Msg) (pre : List Bytes) (w : World) (st1 : SearchState) (w1 : World)
    (h : searchPasses env cfg name tcp pre (searchInit req) w = some (st1, w1)) :
    st1.NodataInv := by
  refine searchPasses_induction env cfg name tcp (fun st => st.NodataInv) ?_ pre _ w st1 w1 h ?_
  · intro d st w st1 w1 h0 hs nd hnd
    rcases searchStep_nodata env cfg name tcp d st w true st1 w1 hs with he |
      ⟨rq, rm, w2, _, _, he, h1, h2, h3⟩
    · exact h0 nd (he ▸ hnd)
    · rw [he] at hnd
      simp only [Option.some.injEq] at hnd
      subst hnd
      exact ⟨h1, h2, h3⟩
  · intro nd hnd
    simp [searchInit] at hnd

theorem searchPasses_NodataQuestion (env : Env) (cfg : Config) (name : Bytes) (tcp : Bool)
    (req : Msg) (pre : List Bytes) (w : World) (st1 : SearchState) (w1 : World)
    (hcarry : env.AnswersCarryQuestion)
    (h : searchPasses env cfg name tcp pre (searchInit req) w = some (st1, w1)) :
    st1.NodataQuestion := by
  refine searchPasses_induction env cfg name tcp (fun st => st.NodataQuestion) ?_ pre _ w st1 w1
    h ?_
  · intro d st w st1 w1 h0 hs nd hnd
    rcases searchStep_nodata env cfg name tcp d st w true st1 w1 hs with he |
      ⟨rq, rm, w2, hrq, hf, he, _, _, _⟩
    · exact h0 nd (he ▸ hnd)
    · rw [he] at hnd
      simp only [Option.some.injEq] at hnd
      subst hnd
      exact forwardQuery_answer_Question env cfg rq tcp w _ w2 hcarry
        (searchRequest_Question _ _ _ hrq) hf
  · intro nd hnd
    simp [searchInit] at hnd

theorem SetReply_Question (m req : Msg) (h : req.Question ≠ []) :
    (m.SetReply req).Question ≠ [] := by
  unfold Msg.SetReply
  cases hq : req.Question with
  | nil => exact absurd hq h
  | cons q qs => simp

theorem exEnvZones_AnswersCarryQuestion : exEnvZones.AnswersCarryQuestion := by
  intro n tcp req srv r hq h
  cases hq1 : req.Question with
  | nil => exact absurd hq1 hq
  | cons q qs =>
    simp only [exEnvZones, hq1] at h
    split at h
    · simp at h
    · simp only [Exchange.answer.injEq] at h
      subst h
      have hs := SetReply_Question Msg.new req hq
      unfold exZoneReply
      split
      · exact hs
      · split
        · exact hs
        · split
          · exact hs
          · split <;> exact hs

/-! ## Claims on `forwardSearch` -/

/-- Search CNAME synthesis for a reply with a question section.  Let the search loop of `forwardSearch` reach
the search domain `domain` (every pass for the domains before it ended in
`continue`), let `domain` not be a suffix of the question name, and let the
upstream iteration for the candidate (the request with the name
`ToLower(appendDomain(name, domain))` in its first question) return without
error a NOERROR response `rm` with a non-empty answer section (truncated or
not) and a question section.  Then `forwardSearch` returns without error the
response `rm` whose answer section is one CNAME record (owner the original
name, target the candidate, TTL 360, class IN) followed by the records of
`rm` in their order, and whose first question is the original question; its
code is NOERROR, and no further search domain is queried (the world is the one
the candidate's lookup left). -/
theorem forwardSearch_cname_synthesis (env : Env) (cfg : Config) (req : Msg) (tcp : Bool)
    (w : World) (q0 : Question) (qs : List Question) (pre : List Bytes) (domain : Bytes)
    (rest : List Bytes) (st : SearchState) (w1 : World) (rm : Msg) (w2 : World)
    (hq : req.Question = q0 :: qs) (hdom : cfg.SearchDomains = pre ++ domain :: rest)
    (hpre : searchPasses env cfg q0.Name tcp pre (searchInit req) w = some (st, w1))
    (hsuf : HasSuffix q0.Name domain = false)
    (hquery : forwardQuery env cfg
      { req with
        Question := { Name := env.ToLower (env.appendDomain q0.Name domain), Qtype := q0.Qtype,
                      Qclass := q0.Qclass } :: qs } tcp w1 = some ((some rm, none), w2))
    (hrcode : rm.Rcode = RcodeSuccess) (hans : rm.Answer ≠ []) (hrq : rm.Question ≠ []) :
    ∃ r, forwardSearch env cfg req tcp w = some ((some r, none), w2) ∧
      r.Rcode = RcodeSuccess ∧
      r.Answer =
        { Name := q0.Name, Rrtype := TypeCNAME, Class := ClassINET, Ttl := 360,
          rdata := RData.cname (env.ToLower (env.appendDomain q0.Name domain)) } :: rm.Answer ∧
      r.Question = q0 :: rm.Question.tail ∧
      r = { rm with Answer := r.Answer, Question := r.Question } := by
  have hcopy := searchPasses_CopyOf env cfg q0.Name tcp req pre w st w1 hpre
  have hreq := (hcopy (env.ToLower (env.appendDomain q0.Name domain))).trans
    (searchRequest_cons req q0 qs _ hq)
  have hstep := searchStep_query env cfg q0.Name tcp domain st w1 _ _ _ w2 hsuf hreq hquery
  simp only [hrcode, if_true, hans, false_and, if_false] at hstep
  have hfs := forwardSearch_at env cfg req tcp w q0 qs pre domain rest st w1 _ w2 hq hdom hpre
    hstep rfl
  refine ⟨{ rm with
            Answer := searchCname q0.Name (env.ToLower (env.appendDomain q0.Name domain)) ::
              rm.Answer,
            Question := q0 :: rm.Question.tail }, ?_, hrcode, rfl, rfl, rfl⟩
  rw [hfs, searchFinish_success q0 _ rm rfl rfl hrcode hans hrq]
  rfl

theorem forwardSearch_cname_synthesis_example :
    exMsgA.Question = exQuestionA :: [] ∧
    (exConfigSearch [exDomN, exDomO, exDomR]).SearchDomains = [exDomN] ++ exDomO :: [exDomR] ∧
    searchPasses exEnvZones (exConfigSearch [exDomN, exDomO, exDomR]) exQuestionA.Name false
      [exDomN] (searchInit exMsgA) exWorld = some (exStateN, exWorldCalls [exCallZone exDomN]) ∧
    HasSuffix exQuestionA.Name exDomO = false ∧
    forwardQuery exEnvZones (exConfigSearch [exDomN, exDomO, exDomR]) (exCandidate exDomO) false
      (exWorldCalls [exCallZone exDomN]) =
      some ((some (exZoneReply (exCandidate exDomO) [97, 46, 111, 46]), none),
        exWorldCalls [exCallZone exDomN, exCallZone exDomO]) ∧
    ∃ r, forwardSearch exEnvZones (exConfigSearch [exDomN, exDomO, exDomR]) exMsgA false exWorld =
        some ((some r, none), exWorldCalls [exCallZone exDomN, exCallZone exDomO]) ∧
      r.Rcode = RcodeSuccess ∧
      r.Answer =
        [{ Name := [97, 46], Rrtype := TypeCNAME, Class := ClassINET, Ttl := 360,
           rdata := RData.cname [97, 46, 111, 46] }, exRRA] ∧
      r.Question = [exQuestionA] :=
  ⟨rfl, rfl, rfl, by decide, by decide,
    (forwardSearch_cname_synthesis exEnvZones (exConfigSearch [exDomN, exDomO, exDomR]) exMsgA false
      exWorld exQuestionA [] [exDomN] exDomO [exDomR] exStateN (exWorldCalls [exCallZone exDomN])
      (exZoneReply (exCandidate exDomO) [97, 46, 111, 46])
      (exWorldCalls [exCallZone exDomN, exCallZone exDomO]) rfl rfl rfl (by decide) (by decide)
      (by decide) (by decide) (by decide)).imp
      (fun _ h => ⟨h.1, h.2.1, h.2.2.1, h.2.2.2.1⟩)⟩

/-- C26 (counterexample).  With the search domains `n.`, `r.`, `o.` and the
upstream of `exEnvZones`, the candidate `a.n.` is answered NODATA and the
candidate `a.r.` is answered REFUSED; `forwardSearch` queries no further
domain, but what it returns is not the REFUSED response: it is the NODATA reply
captured before, with code NOERROR. -/
theorem C26_nodata_replaces_refused :
    ∃ r w1, forwardSearch exEnvZones (exConfigSearch [exDomN, exDomR, exDomO]) exMsgA false
        exWorld = some ((some r, none), w1) ∧
      w1.calls.map Call.qname = [some [97, 46, 110, 46], some [97, 46, 114, 46]] ∧
      w1.calls.map Call.rcode = [some RcodeSuccess, some RcodeRefused] ∧
      r.Rcode = RcodeSuccess ∧ r.Rcode ≠ RcodeRefused ∧ r.Answer = [] :=
  ⟨(exZoneReply (exCandidate exDomN) [97, 46, 110, 46]).withQuestion0 exQuestionA,
    exWorldCalls [exCallZone exDomN, exCallZone exDomR], by rfl, by decide, by decide, by decide,
    by decide, by decide⟩

/-- A captured NODATA reply and a later failure, the upstreams' responses
carrying a question section.  Let the search loop of
`forwardSearch` reach the search domain `domain`, which is not a suffix of the
question name, and let the search end there: either the upstream iteration for
the candidate returns a transport error, or it returns NXDOMAIN or SERVFAIL
without error and no search domain after `domain` yields a further candidate.
If a NODATA reply was captured from an earlier candidate, `forwardSearch`
returns no error and the reply captured last, which has code NOERROR and an
empty answer section, with the original first question, and it makes no
further exchange.  If no NODATA reply was captured and the iteration returned
the transport error `e`, `forwardSearch` returns that error.  The upstreams'
responses are taken to carry a question section. -/
theorem forwardSearch_nodata_wins (env : Env) (cfg : Config) (req : Msg) (tcp : Bool)
    (w : World) (q0 : Question) (qs : List Question) (pre : List Bytes) (domain : Bytes)
    (rest : List Bytes) (st : SearchState) (w1 : World) (r : Option Msg) (err : Option Error)
    (w2 : World)
    (hq : req.Question = q0 :: qs) (hdom : cfg.SearchDomains = pre ++ domain :: rest)
    (hpre : searchPasses env cfg q0.Name tcp pre (searchInit req) w = some (st, w1))
    (hsuf : HasSuffix q0.Name domain = false) (hcarry : env.AnswersCarryQuestion)
    (hquery : forwardQuery env cfg
      { req with
        Question := { Name := env.ToLower (env.appendDomain q0.Name domain), Qtype := q0.Qtype,
                      Qclass := q0.Qclass } :: qs } tcp w1 = some ((r, err), w2))
    (hend : (∃ e, err = some e) ∨
      (err = none ∧ (∃ rm, r = some rm ∧
          (rm.Rcode = RcodeNameError ∨ rm.Rcode = RcodeServerFailure)) ∧
        ∀ d ∈ rest, HasSuffix q0.Name d = true)) :
    (∀ nd, st.nodata = some nd →
      (∃ w3, forwardSearch env cfg req tcp w = some ((some (nd.withQuestion0 q0), none), w3) ∧
        w3.calls = w2.calls) ∧
      (nd.withQuestion0 q0).Rcode = RcodeSuccess ∧ (nd.withQuestion0 q0).Answer = [] ∧
      (nd.withQuestion0 q0).Question.head? = some q0) ∧
    (∀ e, st.nodata = none → err = some e →
      forwardSearch env cfg req tcp w = some ((r, some e), w2)) := by
  have hcopy := searchPasses_CopyOf env cfg q0.Name tcp req pre w st w1 hpre
  have hndq := searchPasses_NodataQuestion env cfg q0.Name tcp req pre w st w1 hcarry hpre
  have hndi := searchPasses_NodataInv env cfg q0.Name tcp req pre w st w1 hpre
  have hreq := (hcopy (env.ToLower (env.appendDomain q0.Name domain))).trans
    (searchRequest_cons req q0 qs _ hq)
  have hstep := searchStep_query env cfg q0.Name tcp domain st w1 _ _ _ w2 hsuf hreq hquery
  rcases hend with ⟨e, rfl⟩ | ⟨rfl, ⟨rm, rfl, hrc⟩, hrest⟩
  · obtain ⟨st1, hstep1, hr1, he1, hn1, hd1⟩ : ∃ st1,
        searchStep env cfg q0.Name tcp domain st w1 = some (false, st1, w2) ∧ st1.r = r ∧
        st1.err = some e ∧ st1.nodata = st.nodata ∧ st1.didSearch = true :=
      ⟨_, hstep, rfl, rfl, rfl, rfl⟩
    have hfs := forwardSearch_at env cfg req tcp w q0 qs pre domain rest st w1 st1 w2 hq hdom
      hpre hstep1 hd1
    constructor
    · intro nd hnd
      refine ⟨⟨w2, ?_, rfl⟩, (hndi nd hnd).1, (hndi nd hnd).2.1, rfl⟩
      rw [hfs, searchFinish_err_nodata q0 st1 e nd he1 (hn1.trans hnd) (hndq nd hnd)]
      rfl
    · intro e1 hnd he
      simp only [Option.some.injEq] at he
      subst he
      rw [hfs, searchFinish_err q0 st1 e he1 (hn1.trans hnd), hr1]
      rfl
  · have h0 : rm.Rcode ≠ RcodeSuccess := by
      rcases hrc with h | h <;> rw [h] <;> decide
    constructor
    · intro nd hnd
      refine ⟨?_, (hndi nd hnd).1, (hndi nd hnd).2.1, rfl⟩
      by_cases h3 : rm.Rcode = RcodeNameError
      · simp only [h0, h3, if_true, if_false] at hstep
        obtain ⟨st1, hstep1, hr1, he1, hn1, hd1⟩ : ∃ st1,
            searchStep env cfg q0.Name tcp domain st w1 =
              some (true, st1, w2.incNameErrorCount) ∧ st1.r = some rm ∧
            st1.err = none ∧ st1.nodata = st.nodata ∧ st1.didSearch = true :=
          ⟨_, hstep, rfl, rfl, rfl, rfl⟩
        have hfs := forwardSearch_last env cfg req tcp w q0 qs pre domain rest st w1 st1 _ hq
          hdom hpre hstep1 hrest hd1
        refine ⟨w2.incNameErrorCount, ?_, rfl⟩
        rw [hfs, searchFinish_nodata q0 st1 rm nd he1 hr1 h0 (hn1.trans hnd) (hndq nd hnd)]
        rfl
      · have h2 : rm.Rcode = RcodeServerFailure := hrc.resolve_left h3
        simp only [h0, h3, h2, if_true, if_false] at hstep
        obtain ⟨st1, hstep1, hr1, he1, hn1, hd1⟩ : ∃ st1,
            searchStep env cfg q0.Name tcp domain st w1 = some (true, st1, w2) ∧
            st1.r = some rm ∧ st1.err = none ∧ st1.nodata = st.nodata ∧
            st1.didSearch = true :=
          ⟨_, hstep, rfl, rfl, rfl, rfl⟩
        have hfs := forwardSearch_last env cfg req tcp w q0 qs pre domain rest st w1 st1 _ hq
          hdom hpre hstep1 hrest hd1
        refine ⟨w2, ?_, rfl⟩
        rw [hfs, searchFinish_nodata q0 st1 rm nd he1 hr1 h0 (hn1.trans hnd) (hndq nd hnd)]
        rfl
    · intro e _ he
      simp at he

theorem forwardSearch_nodata_wins_example :
    (∃ w3, forwardSearch exEnvZones (exConfigSearch [exDomN, exDomT, exDomO]) exMsgA false
        exWorld =
      some ((some ((exZoneReply (exCandidate exDomN) [97, 46, 110, 46]).withQuestion0
        exQuestionA), none), w3) ∧
      w3.calls = (exWorldCalls [exCallZone exDomN, exCallTimeout]).calls) ∧
    (∃ w3, forwardSearch exEnvZones (exConfigSearch [exDomN, exDomX]) exMsgA false exWorld =
      some ((some ((exZoneReply (exCandidate exDomN) [97, 46, 110, 46]).withQuestion0
        exQuestionA), none), w3) ∧
      w3.calls = (exWorldCalls [exCallZone exDomN, exCallZone exDomX]).calls) ∧
    forwardSearch exEnvZones (exConfigSearch [exDomT, exDomO]) exMsgA false exWorld =
      some ((none, some "i/o timeout"), exWorldCalls [exCallTimeout]) :=
  ⟨((forwardSearch_nodata_wins exEnvZones (exConfigSearch [exDomN, exDomT, exDomO]) exMsgA false
      exWorld exQuestionA [] [exDomN] exDomT [exDomO] exStateN
      (exWorldCalls [exCallZone exDomN]) none (some "i/o timeout")
      (exWorldCalls [exCallZone exDomN, exCallTimeout]) rfl rfl rfl (by decide)
      exEnvZones_AnswersCarryQuestion (by decide) (Or.inl ⟨_, rfl⟩)).1 _ rfl).1,
   ((forwardSearch_nodata_wins exEnvZones (exConfigSearch [exDomN, exDomX]) exMsgA false
      exWorld exQuestionA [] [exDomN] exDomX [] exStateN
      (exWorldCalls [exCallZone exDomN])
      (some (exZoneReply (exCandidate exDomX) [97, 46, 120, 46])) none
      { exWorldCalls [exCallZone exDomN, exCallZone exDomX] with
        stats := (exWorld.incNameErrorCount).stats } rfl rfl rfl (by decide)
      exEnvZones_AnswersCarryQuestion (by decide)
      (Or.inr ⟨rfl, ⟨_, rfl, Or.inl (by decide)⟩, by simp⟩)).1 _ rfl).1,
   (forwardSearch_nodata_wins exEnvZones (exConfigSearch [exDomT, exDomO]) exMsgA false
      exWorld exQuestionA [] [] exDomT [exDomO] (searchInit exMsgA) exWorld none
      (some "i/o timeout") (exWorldCalls [exCallTimeout]) rfl rfl rfl (by decide)
      exEnvZones_AnswersCarryQuestion (by decide) (Or.inl ⟨_, rfl⟩)).2 _ rfl rfl⟩

/-! ## The forwarder: the exchanges of an absolute lookup -/

theorem queryLoop_calls_pos (env : Env) (req : Msg) (tcp : Bool) (s : Server)
    (ns : List Server) (acc : Result) (w : World) (res : Result) (w1 : World)
    (h : queryLoop env req tcp (s :: ns) acc w = some (res, w1)) :
    ∃ new, w1.calls = w.calls ++ new ∧ new ≠ [] := by
  unfold queryLoop at h
  cases hq : req.Question with
  | nil => rw [hq] at h; simp at h
  | cons q qs =>
    rw [hq] at h
    simp only [] at h
    rcases hout : (env.call w tcp req s).out with r | ⟨r, e⟩
    · rw [hout] at h
      simp only [] at h
      split at h
      · simp only [Option.some.injEq, Prod.mk.injEq] at h
        obtain ⟨_, rfl⟩ := h
        exact ⟨[env.call w tcp req s], by rw [condNameError_calls], by simp⟩
      · obtain ⟨new, hx, _⟩ := queryLoop_spec _ _ _ _ _ _ _ _ h
        refine ⟨env.call w tcp req s :: new, ?_, by simp⟩
        rw [hx.1, condNameError_calls]
        simp
    · rw [hout] at h
      simp only [] at h
      obtain ⟨new, hx, _⟩ := queryLoop_spec _ _ _ _ _ _ _ _ h
      refine ⟨env.call w tcp req s :: new, ?_, by simp⟩
      rw [hx.1]
      simp

/-- The exchanges of `forwardQuery`: at least one when the upstream list in
use is not empty, each carrying the request and the transport given. -/
theorem forwardQuery_calls (env : Env) (cfg : Config) (req : Msg) (tcp : Bool) (w : World)
    (res : Result) (w1 : World) (hq : req.Question ≠ []) (hns : cfg.Nameservers ≠ [])
    (hstub : env.StubsNonempty cfg) (h : forwardQuery env cfg req tcp w = some (res, w1)) :
    ∃ new, w1.calls = w.calls ++ new ∧ new ≠ [] ∧ ∀ c ∈ new, c.req = req ∧ c.tcp = tcp := by
  obtain ⟨new, hx, hreq, _⟩ := forwardQuery_spec env cfg req tcp w res w1 h
  refine ⟨new, hx.1, ?_, hreq⟩
  unfold forwardQuery at h
  obtain ⟨ns, w0, hs, hor⟩ := stubLoop_returns req (env.stubRange w.calls.length cfg.Stub)
    cfg.Nameservers w hq
  rw [hs] at h
  simp only [] at h
  have hne : ns ≠ [] := by
    rcases hor with rfl | ⟨p, hp, rfl⟩
    · exact hns
    · exact hstub _ p hp
  obtain ⟨s, rest, rfl⟩ := List.exists_cons_of_ne_nil hne
  obtain ⟨new1, h1, h2⟩ := queryLoop_calls_pos env req tcp s rest _ w0 res w1 h
  have h0 := (stubLoop_Extends req _ _ _ w w0 hs).1
  rw [h0, List.append_nil] at h1
  have : new = new1 := List.append_cancel_left (hx.1.symm.trans h1)
  rw [this]
  exact h2

theorem failureResponse_calls (req : Msg) (staleRes : Option Msg) (st : LookupState)
    (w : World) (hg : st.Good) :
    ∃ m b w1, failureResponse req staleRes st w = some (m, b, w1) ∧ w1.calls = w.calls := by
  have h := failureResponse_returns req staleRes st w hg
  obtain ⟨⟨m, b, w1⟩, hres⟩ := Option.isSome_iff_exists.1 h
  exact ⟨m, b, w1, hres, (failureResponse_spec req staleRes st w m b w1 hres).2.1⟩

/-- After an absolute lookup, `ServeDNSForward` makes no further exchange. -/
theorem absoluteLookup_then (env : Env) (cfg : Config) (tcp : Bool) (req : Msg)
    (staleRes : Option Msg) (st : LookupState) (w : World) (res : Result) (w2 : World)
    (hfq : forwardQuery env cfg req tcp w = some (res, w2)) (hres : res.Good) (hg : st.Good) :
    ∃ m b w3,
      (match absoluteLookup env cfg tcp req st w with
        | none => none
        | some (Flow.ret m stale w) => some (m, stale, w)
        | some (Flow.next st w) => failureResponse req staleRes st w) = some (m, b, w3) ∧
      w3.calls = w2.calls := by
  obtain ⟨r, err⟩ := res
  simp only [absoluteLookup, hfq]
  cases err with
  | some e =>
    simp only []
    exact failureResponse_calls req staleRes _ w2 ⟨fun _ he => absurd he (by simp), hg.2⟩
  | none =>
    obtain ⟨rm, hrm, _⟩ := hres rfl
    simp only at hrm
    subst hrm
    by_cases h0 : rm.Rcode = RcodeSuccess
    · simp only [h0, if_true]
      exact ⟨_, _, _, rfl, rfl⟩
    · simp only [h0, if_false]
      exact failureResponse_calls req staleRes _ w2 ⟨fun _ _ => rfl, hg.2⟩

/-! ## Claims on `ServeDNSForward` (continued) -/

/-- C22 (counterexample).  Two requests that are not refused and for which the
initial absolute attempt is skipped (the name `a.` has no label-dot, `ndots`
is 1), and for which no absolute lookup is made.  First, the only search
candidate `a.t.` ends with a transport error: the one exchange of the call is
that of the candidate, none carries the request as given.  Second, with
`fwd-ndots 1` the search candidate `a.x.` is answered NXDOMAIN: again the one
exchange is that of the candidate. -/
theorem C22_absolute_lookup_not_made :
    (refuse (exConfigSearch [exDomT]) (exEnvZones.CountLabel exQuestionA.Name - 1) = false ∧
     exEnvZones.CountLabel exQuestionA.Name - 1 < (exConfigSearch [exDomT]).Ndots ∧
     forwardSearch exEnvZones (exConfigSearch [exDomT]) exMsgA false exWorld.incForwardCount =
       some ((none, some "i/o timeout"), exWorldForward 0 [exCallTimeout]) ∧
     observe (ServeDNSForward exEnvZones (exConfigSearch [exDomT]) false exMsgA none exWorld) =
       some (RcodeServerFailure, false, [exCallTimeout],
         { (exWorldForward 0 []).stats with RequestFail := 1 }) ∧
     exCallTimeout.req ≠ exMsgA) ∧
    (refuse (exConfigFwd [exDomX]) (exEnvZones.CountLabel exQuestionA.Name - 1) = false ∧
     exEnvZones.CountLabel exQuestionA.Name - 1 < (exConfigFwd [exDomX]).Ndots ∧
     observe (ServeDNSForward exEnvZones (exConfigFwd [exDomX]) false exMsgA none exWorld) =
       some (RcodeNameError, false, [exCallZone exDomX],
         { (exWorldForward 2 []).stats with RequestFail := 1, NoDataCount := 1 }) ∧
     (exCallZone exDomX).req ≠ exMsgA) :=
  ⟨⟨by decide, by decide, by decide, by decide, by decide⟩,
   ⟨by decide, by decide, by decide, by decide⟩⟩

/-- C22 (amended).  Deferred absolute attempt.  Take a request that is not
refused, whose name has fewer label-dots than `ndots` (the initial absolute
attempt is skipped) and at least `fwd_ndots` of them.  If the search attempt is
not made (search is off or there is no search domain), or if it ends without
transport error in a response whose code is not NOERROR, then
`ServeDNSForward` makes the upstream iteration `forwardQuery` for the request
as given in the world `w1` the search left: it returns, its exchanges are new,
there is at least one, each carries the request as given, and they are the last
exchanges of the call.  Every stub zone is taken to have an upstream and the
upstreams' responses to carry a question section. -/
theorem C22_deferred_absolute_attempt (env : Env) (cfg : Config) (tcp : Bool) (req : Msg)
    (staleRes : Option Msg) (w w1 : World) (q : Question) (qs : List Question)
    (hq : req.Question = q :: qs)
    (hrefuse : refuse cfg (env.CountLabel q.Name - 1) = false)
    (hndots : env.CountLabel q.Name - 1 < cfg.Ndots)
    (hfwd : env.CountLabel q.Name - 1 ≥ cfg.FwdNdots)
    (hstub : env.StubsNonempty cfg) (hcarry : env.AnswersCarryQuestion)
    (hsearch :
      ((cfg.EnableSearch && decide (cfg.SearchDomains.length > 0)) = false ∧
        w1 = w.incForwardCount) ∨
      ((cfg.EnableSearch && decide (cfg.SearchDomains.length > 0)) = true ∧
        ∃ sr, forwardSearch env cfg req tcp w.incForwardCount = some ((some sr, none), w1) ∧
          sr.Rcode ≠ RcodeSuccess)) :
    ∃ res w2 new, forwardQuery env cfg req tcp w1 = some (res, w2) ∧
      w2.calls = w1.calls ++ new ∧ new ≠ [] ∧ (∀ c ∈ new, c.req = req ∧ c.tcp = tcp) ∧
      ∃ m b w3, ServeDNSForward env cfg tcp req staleRes w = some (m, b, w3) ∧
        w3.calls = w2.calls := by
  have hqne : req.Question ≠ [] := by rw [hq]; simp
  have hns : cfg.Nameservers ≠ [] := by
    intro h0
    simp [refuse, h0] at hrefuse
  obtain ⟨res, w2, hfq, hgood⟩ := forwardQuery_returns env cfg req tcp w1 hqne hns hstub hcarry
  obtain ⟨new, hc1, hc2, hc3⟩ := forwardQuery_calls env cfg req tcp w1 res w2 hqne hns hstub hfq
  refine ⟨res, w2, new, hfq, hc1, hc2, hc3, ?_⟩
  have hnd : ¬ env.CountLabel q.Name - 1 ≥ cfg.Ndots := not_le.2 hndots
  rcases hsearch with ⟨hoff, rfl⟩ | ⟨hon, sr, hfs, hsr⟩
  · have key := absoluteLookup_then env cfg tcp req staleRes
      { didAbsolute := false, didSearch := false, absoluteRes := none, searchRes := none,
        absoluteErr := none, searchErr := none } w.incForwardCount res w2 hfq hgood
      ⟨fun h => absurd h (by simp), fun h => absurd h (by simp)⟩
    simpa only [ServeDNSForward, hq, hrefuse, Bool.false_eq_true, if_false, initialAbsolute, hnd,
      searchLookup, hoff, and_false, lateAbsolute, and_self, if_true, hfwd] using key
  · have key := absoluteLookup_then env cfg tcp req staleRes
      { didAbsolute := false, didSearch := true, absoluteRes := none, searchRes := some sr,
        absoluteErr := none, searchErr := none } w1 res w2 hfq hgood
      ⟨fun h => absurd h (by simp), fun _ _ => rfl⟩
    simpa only [ServeDNSForward, hq, hrefuse, Bool.false_eq_true, if_false, initialAbsolute, hnd,
      searchLookup, hon, and_self, if_true, hfs, hsr, lateAbsolute, hfwd] using key

theorem C22_deferred_absolute_attempt_witness :
    exMsgA.Question = exQuestionA :: [] ∧
    refuse (exConfigSearch [exDomX]) (exEnvZones.CountLabel exQuestionA.Name - 1) = false ∧
    exEnvZones.CountLabel exQuestionA.Name - 1 < (exConfigSearch [exDomX]).Ndots ∧
    exEnvZones.CountLabel exQuestionA.Name - 1 ≥ (exConfigSearch [exDomX]).FwdNdots ∧
    forwardSearch exEnvZones (exConfigSearch [exDomX]) exMsgA false exWorld.incForwardCount =
      some ((some ((exZoneReply (exCandidate exDomX) [97, 46, 120, 46]).withQuestion0
        exQuestionA), none), exWorldForward 2 [exCallZone exDomX]) ∧
    ∃ res w2 new,
      forwardQuery exEnvZones (exConfigSearch [exDomX]) exMsgA false
        (exWorldForward 2 [exCallZone exDomX]) = some (res, w2) ∧
      w2.calls = (exWorldForward 2 [exCallZone exDomX]).calls ++ new ∧ new ≠ [] ∧
      (∀ c ∈ new, c.req = exMsgA ∧ c.tcp = false) ∧
      ∃ m b w3, ServeDNSForward exEnvZones (exConfigSearch [exDomX]) false exMsgA none exWorld =
        some (m, b, w3) ∧ w3.calls = w2.calls :=
  ⟨rfl, by decide, by decide, by decide, by decide,
    C22_deferred_absolute_attempt exEnvZones (exConfigSearch [exDomX]) false exMsgA none exWorld
      (exWorldForward 2 [exCallZone exDomX]) exQuestionA [] rfl (by decide) (by decide)
      (by decide) (fun _ _ hp => absurd hp (by simp [exConfigSearch, exConfig, exEnvZones]))
      exEnvZones_AnswersCarryQuestion
      (Or.inr ⟨by decide,
        (exZoneReply (exCandidate exDomX) [97, 46, 120, 46]).withQuestion0 exQuestionA,
        by decide, by decide⟩)⟩

/-! ## The forwarder: the lookup blocks in a row -/

theorem ServeDNSForward_eq (env : Env) (cfg : Config) (tcp : Bool) (req : Msg)
    (staleRes : Option Msg) (w : World) (q0 : Question) (qs : List Question)
    (hq : req.Question = q0 :: qs) (hrefuse : refuse cfg (env.CountLabel q0.Name - 1) = false) :
    ServeDNSForward env cfg tcp req staleRes w =
      match lookupBlocks env cfg tcp req (env.CountLabel q0.Name - 1) w.incForwardCount with
      | none => none
      | some (Flow.ret m stale w) => some (m, stale, w)
      | some (Flow.next st w) => failureResponse req staleRes st w := by
  simp only [ServeDNSForward, hq, hrefuse, Bool.false_eq_true, if_false, lookupBlocks]
  rcases initialAbsolute env cfg tcp req (env.CountLabel q0.Name - 1) _ w.incForwardCount with
    _ | ⟨m, b, w1⟩ | ⟨st1, w1⟩
  · rfl
  · rfl
  · simp only []
    rcases searchLookup env cfg tcp req _ st1 w1 with _ | ⟨m, b, w2⟩ | ⟨st2, w2⟩
    · rfl
    · rfl
    · rfl

theorem absoluteLookup_Records (env : Env) (cfg : Config) (tcp : Bool) (req : Msg)
    (st : LookupState) (w : World) (st1 : LookupState) (w1 : World)
    (h0 : st.Records env cfg tcp req) (hg : st.Good)
    (h : absoluteLookup env cfg tcp req st w = some (Flow.next st1 w1)) :
    st1.Records env cfg tcp req ∧ st1.Good := by
  unfold absoluteLookup at h
  rcases hf : forwardQuery env cfg req tcp w with _ | ⟨⟨r, err⟩, w2⟩
  · rw [hf] at h; simp at h
  · rw [hf] at h
    simp only [] at h
    rcases err with _ | e
    · rcases r with _ | rm
      · simp at h
      · simp only [] at h
        split at h
        · simp at h
        · simp only [Option.some.injEq, Flow.next.injEq] at h
          obtain ⟨rfl, rfl⟩ := h
          exact ⟨⟨fun _ => ⟨w, _, hf⟩, fun hx => absurd hx (by simp), h0.2.2.1, h0.2.2.2⟩,
            fun _ _ => rfl, hg.2⟩
    · simp only [Option.some.injEq, Flow.next.injEq] at h
      obtain ⟨rfl, rfl⟩ := h
      exact ⟨⟨fun _ => ⟨w, _, hf⟩, fun hx => absurd hx (by simp), h0.2.2.1, h0.2.2.2⟩,
        fun _ he => absurd he (by simp), hg.2⟩

theorem searchLookup_Records (env : Env) (cfg : Config) (tcp : Bool) (req : Msg)
    (searchEnabled : Bool) (st : LookupState) (w : World) (st1 : LookupState) (w1 : World)
    (h0 : st.Records env cfg tcp req) (hg : st.Good)
    (h : searchLookup env cfg tcp req searchEnabled st w = some (Flow.next st1 w1)) :
    st1.Records env cfg tcp req ∧ st1.Good := by
  unfold searchLookup at h
  split at h
  · rcases hf : forwardSearch env cfg req tcp w with _ | ⟨⟨r, err⟩, w2⟩
    · rw [hf] at h; simp at h
    · rw [hf] at h
      simp only [] at h
      rcases err with _ | e
      · rcases r with _ | rm
        · simp at h
        · simp only [] at h
          split at h
          · simp at h
          · simp only [Option.some.injEq, Flow.next.injEq] at h
            obtain ⟨rfl, rfl⟩ := h
            exact ⟨⟨h0.1, h0.2.1, fun _ => ⟨w, _, hf⟩, fun hx => absurd hx (by simp)⟩,
              hg.1, fun _ _ => rfl⟩
      · simp only [Option.some.injEq, Flow.next.injEq] at h
        obtain ⟨rfl, rfl⟩ := h
        exact ⟨⟨h0.1, h0.2.1, fun _ => ⟨w, _, hf⟩, fun hx => absurd hx (by simp)⟩,
          hg.1, fun _ he => absurd he (by simp)⟩
  · simp only [Option.some.injEq, Flow.next.injEq] at h
    obtain ⟨rfl, rfl⟩ := h
    exact ⟨h0, hg⟩

/-- When the lookup blocks fall through to the failure branches, the local
variables record the attempts made, they can be used without a nil
dereference, and so far nothing was written and no failure was counted. -/
theorem lookupBlocks_next (env : Env) (cfg : Config) (tcp : Bool) (req : Msg) (nameDots : Int)
    (w : World) (st : LookupState) (w1 : World)
    (h : lookupBlocks env cfg tcp req nameDots w = some (Flow.next st w1)) :
    st.Records env cfg tcp req ∧ st.Good ∧
    ∃ new, w.Extends w1 new ∧ new.any Call.isNoError = false := by
  unfold lookupBlocks at h
  simp only [] at h
  have hr0 : LookupState.Records
      { didAbsolute := false, didSearch := false, absoluteRes := none, searchRes := none,
        absoluteErr := none, searchErr := none } env cfg tcp req :=
    ⟨fun hx => absurd hx (by simp), fun _ => ⟨rfl, rfl⟩, fun hx => absurd hx (by simp),
      fun _ => ⟨rfl, rfl⟩⟩
  have hg0 : LookupState.Good
      { didAbsolute := false, didSearch := false, absoluteRes := none, searchRes := none,
        absoluteErr := none, searchErr := none } :=
    ⟨fun hx => absurd hx (by simp), fun hx => absurd hx (by simp)⟩
  rcases h1 : initialAbsolute env cfg tcp req nameDots
      { didAbsolute := false, didSearch := false, absoluteRes := none, searchRes := none,
        absoluteErr := none, searchErr := none } w with _ | ⟨m, b, wa⟩ | ⟨sta, wa⟩
  · rw [h1] at h; simp at h
  · rw [h1] at h; simp at h
  · rw [h1] at h
    simp only [] at h
    obtain ⟨newa, hxa, hna⟩ := initialAbsolute_spec env cfg tcp req nameDots _ w _ h1
    have hra : sta.Records env cfg tcp req ∧ sta.Good := by
      unfold initialAbsolute at h1
      split at h1
      · split at h1
        · exact absoluteLookup_Records env cfg tcp req _ w sta wa hr0 hg0 h1
        · simp only [Option.some.injEq, Flow.next.injEq] at h1
          obtain ⟨rfl, rfl⟩ := h1
          exact ⟨hr0, hg0⟩
      · simp only [Option.some.injEq, Flow.next.injEq] at h1
        obtain ⟨rfl, rfl⟩ := h1
        exact ⟨hr0, hg0⟩
    rcases h2 : searchLookup env cfg tcp req
        (cfg.EnableSearch && decide (cfg.SearchDomains.length > 0)) sta wa with
      _ | ⟨m, b, wb⟩ | ⟨stb, wb⟩
    · rw [h2] at h; simp at h
    · rw [h2] at h; simp at h
    · rw [h2] at h
      simp only [] at h
      obtain ⟨newb, hxb, hnb⟩ := searchLookup_spec env cfg tcp req _ sta wa _ h2
      have hrb := searchLookup_Records env cfg tcp req _ sta wa stb wb hra.1 hra.2 h2
      obtain ⟨newc, hxc, hnc⟩ := lateAbsolute_spec env cfg tcp req nameDots stb wb _ h
      have hrc : st.Records env cfg tcp req ∧ st.Good := by
        unfold lateAbsolute at h
        split at h
        · split at h
          · exact absoluteLookup_Records env cfg tcp req _ wb st w1 hrb.1 hrb.2 h
          · simp only [Option.some.injEq, Flow.next.injEq] at h
            obtain ⟨rfl, rfl⟩ := h
            exact hrb
        · simp only [Option.some.injEq, Flow.next.injEq] at h
          obtain ⟨rfl, rfl⟩ := h
          exact hrb
      refine ⟨hrc.1, hrc.2, newa ++ newb ++ newc, (hxa.trans hxb).trans hxc, ?_⟩
      simp only [List.any_append, hna, hnb, hnc, Bool.or_self]

/-- The failure branches once control has fallen through the lookup blocks.
Take a request that is not refused, no
stale candidate, and let none of the attempts of `ServeDNSForward` yield
NOERROR, so that control falls through the three lookup blocks to the failure
branches with the local variables `st`.  These record the attempts: if an
absolute attempt was made, `(absoluteRes, absoluteErr)` is what `forwardQuery`
returned for the request as given, and if a search attempt was made,
`(searchRes, searchErr)` is what `forwardSearch` returned.  Then
`ServeDNSForward` returns `served_stale = false`, increments `request_fail`
exactly once and leaves `stale_cache_hit` alone, writes the returned message
to the client, and that message is: the response of the absolute attempt with
`Id` set to the request's id (and `Compress` set) if an absolute attempt
returned without transport error; otherwise a reply to the request with the
code of the search result if a search attempt returned without transport
error; otherwise a reply to the request with code SERVFAIL. -/
theorem ServeDNSForward_failure_selection (env : Env) (cfg : Config) (tcp : Bool) (req : Msg)
    (w : World) (q : Question) (qs : List Question) (st : LookupState) (w1 : World)
    (hq : req.Question = q :: qs)
    (hrefuse : refuse cfg (env.CountLabel q.Name - 1) = false)
    (hblocks : lookupBlocks env cfg tcp req (env.CountLabel q.Name - 1) w.incForwardCount =
      some (Flow.next st w1)) :
    st.Records env cfg tcp req ∧
    ∃ m w2, ServeDNSForward env cfg tcp req none w = some (m, false, w2) ∧
      w2.stats.RequestFail = w.stats.RequestFail + 1 ∧
      w2.stats.StaleCacheHit = w.stats.StaleCacheHit ∧
      w2.written = w.written ++ [m] ∧
      (∀ a, st.didAbsolute = true → st.absoluteErr = none → st.absoluteRes = some a →
        m = { a with Compress := true, Id := req.Id }) ∧
      (¬ (st.didAbsolute = true ∧ st.absoluteErr = none) →
        ∀ s, st.didSearch = true → st.searchErr = none → st.searchRes = some s →
          m = Msg.new.SetRcode req s.Rcode) ∧
      (¬ (st.didAbsolute = true ∧ st.absoluteErr = none) →
        ¬ (st.didSearch = true ∧ st.searchErr = none) →
          m = Msg.new.SetRcode req RcodeServerFailure) := by
  obtain ⟨hrec, hgood, new, hx, _⟩ := lookupBlocks_next env cfg tcp req _ _ st w1 hblocks
  obtain ⟨_, hwr, hsc, hrf, _, _⟩ := hx
  have hwr1 : w1.written = w.written := hwr
  have hsc1 : w1.stats.StaleCacheHit = w.stats.StaleCacheHit := hsc
  have hrf1 : w1.stats.RequestFail = w.stats.RequestFail := hrf
  refine ⟨hrec, ?_⟩
  rw [ServeDNSForward_eq env cfg tcp req none w q qs hq hrefuse, hblocks]
  simp only []
  by_cases hA : st.didAbsolute = true ∧ st.absoluteErr = none
  · obtain ⟨a, ha⟩ := Option.isSome_iff_exists.1 (hgood.1 hA.1 hA.2)
    refine ⟨{ a with Compress := true, Id := req.Id },
      writeMsg w1.incRequestFail { a with Compress := true, Id := req.Id }, ?_, ?_, ?_, ?_, ?_, ?_, ?_⟩
    · simp only [failureResponse, hA, and_self, if_true, ha, staleOr]
    · simp only [writeMsg, World.incRequestFail, hrf1]
    · simp only [writeMsg, World.incRequestFail, hsc1]
    · simp only [writeMsg, World.incRequestFail, hwr1]
    · intro a1 _ _ ha1
      rw [ha] at ha1
      simp only [Option.some.injEq] at ha1
      rw [ha1]
    · intro hn
      exact absurd hA hn
    · intro hn
      exact absurd hA hn
  · by_cases hS : st.didSearch = true ∧ st.searchErr = none
    · obtain ⟨s, hs⟩ := Option.isSome_iff_exists.1 (hgood.2 hS.1 hS.2)
      refine ⟨Msg.new.SetRcode req s.Rcode,
        writeMsg w1.incRequestFail.incNoDataCount (Msg.new.SetRcode req s.Rcode), ?_, ?_, ?_, ?_, ?_, ?_, ?_⟩
      · simp only [failureResponse, hA, if_false, hS, and_self, if_true, hs, staleOr]
      · simp only [writeMsg, World.incRequestFail, World.incNoDataCount, hrf1]
      · simp only [writeMsg, World.incRequestFail, World.incNoDataCount, hsc1]
      · simp only [writeMsg, World.incRequestFail, World.incNoDataCount, hwr1]
      · intro a h1 h2 _
        exact absurd ⟨h1, h2⟩ hA
      · intro _ s1 _ _ hs1
        rw [hs] at hs1
        simp only [Option.some.injEq] at hs1
        rw [hs1]
      · intro _ hn
        exact absurd hS hn
    · refine ⟨Msg.new.SetRcode req RcodeServerFailure,
        writeMsg w1.incRequestFail (Msg.new.SetRcode req RcodeServerFailure), ?_, ?_, ?_, ?_, ?_, ?_, ?_⟩
      · simp only [failureResponse, hA, if_false, hS, staleOr]
      · simp only [writeMsg, World.incRequestFail, hrf1]
      · simp only [writeMsg, World.incRequestFail, hsc1]
      · simp only [writeMsg, World.incRequestFail, hwr1]
      · intro a h1 h2 _
        exact absurd ⟨h1, h2⟩ hA
      · intro _ s h1 h2 _
        exact absurd ⟨h1, h2⟩ hS
      · intro _ _
        rfl

theorem ServeDNSForward_failure_selection_example :
    (lookupBlocks exEnvZones (exConfigSearch [exDomX]) false exMsgA
        (exEnvZones.CountLabel exQuestionA.Name - 1) exWorld.incForwardCount =
        some (Flow.next exLookupBoth (exWorldForward 3 [exCallZone exDomX, exCallAbsolute])) ∧
      ∃ m w2, ServeDNSForward exEnvZones (exConfigSearch [exDomX]) false exMsgA none exWorld =
          some (m, false, w2) ∧
        w2.stats.RequestFail = exWorld.stats.RequestFail + 1 ∧
        m = { exZoneReply exMsgA [97, 46] with Compress := true, Id := exMsgA.Id }) ∧
    (lookupBlocks exEnvZones (exConfigFwd [exDomX]) false exMsgA
        (exEnvZones.CountLabel exQuestionA.Name - 1) exWorld.incForwardCount =
        some (Flow.next exLookupSearch (exWorldForward 2 [exCallZone exDomX])) ∧
      ∃ m w2, ServeDNSForward exEnvZones (exConfigFwd [exDomX]) false exMsgA none exWorld =
          some (m, false, w2) ∧
        w2.stats.RequestFail = exWorld.stats.RequestFail + 1 ∧
        m = Msg.new.SetRcode exMsgA RcodeNameError) ∧
    (lookupBlocks exEnvZones (exConfigSearch [exDomT]) false exMsgA
        (exEnvZones.CountLabel exQuestionA.Name - 1) exWorld.incForwardCount =
        some (Flow.next exLookupTimeout (exWorldForward 0 [exCallTimeout])) ∧
      ∃ m w2, ServeDNSForward exEnvZones (exConfigSearch [exDomT]) false exMsgA none exWorld =
          some (m, false, w2) ∧
        w2.stats.RequestFail = exWorld.stats.RequestFail + 1 ∧
        m = Msg.new.SetRcode exMsgA RcodeServerFailure) :=
  ⟨⟨rfl,
    (ServeDNSForward_failure_selection exEnvZones (exConfigSearch [exDomX]) false exMsgA exWorld
      exQuestionA [] exLookupBoth (exWorldForward 3 [exCallZone exDomX, exCallAbsolute]) rfl
      (by decide) rfl).2.imp
      (fun _ h => h.imp (fun _ h => ⟨h.1, h.2.1, h.2.2.2.2.1 _ rfl rfl rfl⟩))⟩,
   ⟨rfl,
    (ServeDNSForward_failure_selection exEnvZones (exConfigFwd [exDomX]) false exMsgA exWorld
      exQuestionA [] exLookupSearch (exWorldForward 2 [exCallZone exDomX]) rfl
      (by decide) rfl).2.imp
      (fun _ h => h.imp (fun _ h =>
        ⟨h.1, h.2.1, h.2.2.2.2.2.1 (by decide) exSearchResX rfl rfl rfl⟩))⟩,
   ⟨rfl,
    (ServeDNSForward_failure_selection exEnvZones (exConfigSearch [exDomT]) false exMsgA exWorld
      exQuestionA [] exLookupTimeout (exWorldForward 0 [exCallTimeout]) rfl
      (by decide) rfl).2.imp
      (fun _ h => h.imp (fun _ h =>
        ⟨h.1, h.2.1, h.2.2.2.2.2.2 (by decide) (by decide)⟩))⟩⟩

/-! ## The forwarder when every exchange fails -/

theorem AllFailed.left {a b : List Call} (h : AllFailed (a ++ b)) : AllFailed a :=
  fun c hc => h c (List.mem_append_left _ hc)

theorem AllFailed.right {a b : List Call} (h : AllFailed (a ++ b)) : AllFailed b :=
  fun c hc => h c (List.mem_append_right _ hc)

theorem AllFailed.noNoError {new : List Call} (h : AllFailed new) :
    new.any Call.isNoError = false := by
  rw [List.any_eq_false]
  intro c hc
  have := h c hc
  unfold Call.rcode at this
  unfold Call.isNoError
  split
  · rename_i r hr
    rw [hr] at this
    simp at this
  · simp

theorem queryLoop_allFailed (env : Env) (req : Msg) (tcp : Bool) (ns : List Server)
    (acc : Result) (w : World) (res : Result) (w1 : World) (new : List Call)
    (h : queryLoop env req tcp ns acc w = some (res, w1)) (hnew : w1.calls = w.calls ++ new)
    (hf : AllFailed new) (hne : ns ≠ [] ∨ ∃ e, acc.2 = some e) : ∃ e, res.2 = some e := by
  induction ns generalizing acc w new with
  | nil =>
    simp only [queryLoop, Option.some.injEq, Prod.mk.injEq] at h
    obtain ⟨rfl, _⟩ := h
    rcases hne with h0 | h0
    · exact absurd rfl h0
    · exact h0
  | cons s rest ih =>
    unfold queryLoop at h
    cases hq : req.Question with
    | nil => rw [hq] at h; simp at h
    | cons q qs =>
      rw [hq] at h
      simp only [] at h
      have hmem : ∀ new1, w1.calls = (w.calls ++ [env.call w tcp req s]) ++ new1 →
          new = env.call w tcp req s :: new1 := by
        intro new1 h1
        rw [hnew, List.append_assoc] at h1
        exact List.append_cancel_left h1
      rcases hout : (env.call w tcp req s).out with r | ⟨r, e⟩
      · exfalso
        rw [hout] at h
        simp only [] at h
        have hc : ∃ new1, new = env.call w tcp req s :: new1 := by
          split at h
          · simp only [Option.some.injEq, Prod.mk.injEq] at h
            obtain ⟨_, rfl⟩ := h
            exact ⟨[], hmem [] (by rw [condNameError_calls]; simp)⟩
          · obtain ⟨new1, hx, _⟩ := queryLoop_spec _ _ _ _ _ _ _ _ h
            exact ⟨new1, hmem new1 (by rw [hx.1, condNameError_calls])⟩
        obtain ⟨new1, rfl⟩ := hc
        have := hf _ (List.mem_cons_self _ _)
        simp [Call.rcode, hout] at this
      · rw [hout] at h
        simp only [] at h
        obtain ⟨new1, hx, _⟩ := queryLoop_spec _ _ _ _ _ _ _ _ h
        have hn := hmem new1 hx.1
        subst hn
        exact ih _ _ new1 h hx.1 (fun c hc => hf c (List.mem_cons_of_mem _ hc))
          (Or.inr ⟨e, rfl⟩)

theorem forwardQuery_allFailed (env : Env) (cfg : Config) (req : Msg) (tcp : Bool) (w : World)
    (res : Result) (w1 : World) (new : List Call) (hq : req.Question ≠ [])
    (hns : cfg.Nameservers ≠ []) (hstub : env.StubsNonempty cfg)
    (h : forwardQuery env cfg req tcp w = some (res, w1)) (hnew : w1.calls = w.calls ++ new)
    (hf : AllFailed new) : ∃ e, res.2 = some e := by
  unfold forwardQuery at h
  obtain ⟨ns, w0, hs, hor⟩ := stubLoop_returns req (env.stubRange w.calls.length cfg.Stub)
    cfg.Nameservers w hq
  rw [hs] at h
  simp only [] at h
  have hne : ns ≠ [] := by
    rcases hor with rfl | ⟨p, hp, rfl⟩
    · exact hns
    · exact hstub _ p hp
  have h0 := (stubLoop_Extends req _ _ _ w w0 hs).1
  rw [List.append_nil] at h0
  rw [← h0] at hnew
  exact queryLoop_allFailed env req tcp ns _ w0 res w1 new h hnew hf (Or.inl hne)

/-- The two kinds of pass of the search loop: the domain is skipped, or the
upstream iteration `forwardQuery` runs for the candidate and its result is
stored in `r` and `err`; on a transport error the loop is left. -/
theorem searchStep_cases (env : Env) (cfg : Config) (name : Bytes) (tcp : Bool) (d : Bytes)
    (st : SearchState) (w : World) (b : Bool) (st1 : SearchState) (w1 : World)
    (h : searchStep env cfg name tcp d st w = some (b, st1, w1)) :
    (HasSuffix name d = true ∧ b = true ∧ st1 = st ∧ w1 = w) ∨
    (HasSuffix name d = false ∧ ∃ rq r err w2,
      searchRequest st.reqCopy (env.ToLower (env.appendDomain name d)) = some rq ∧
      forwardQuery env cfg rq tcp w = some ((r, err), w2) ∧ w1.calls = w2.calls ∧
      st1.r = r ∧ st1.err = err ∧ st1.didSearch = true ∧
      (∀ e, err = some e → b = false ∧ st1.nodata = st.nodata ∧ w1 = w2)) := by
  cases hs : HasSuffix name d with
  | true =>
    simp only [searchStep, hs, if_true, Option.some.injEq, Prod.mk.injEq] at h
    obtain ⟨rfl, rfl, rfl⟩ := h
    exact Or.inl ⟨rfl, rfl, rfl, rfl⟩
  | false =>
    right
    refine ⟨rfl, ?_⟩
    rcases hrq : searchRequest st.reqCopy (env.ToLower (env.appendDomain name d)) with _ | rq
    · simp [searchStep, hs, hrq] at h
    · rcases hf : forwardQuery env cfg rq tcp w with _ | ⟨⟨r, err⟩, w2⟩
      · simp [searchStep, hs, hrq, hf] at h
      · rw [searchStep_query env cfg name tcp d st w rq r err w2 hs hrq hf] at h
        refine ⟨rq, r, err, w2, rfl, hf, ?_⟩
        rcases err with _ | e
        · rcases r with _ | rm
          · simp at h
          · simp only [] at h
            split at h
            · split at h <;>
              · simp only [Option.some.injEq, Prod.mk.injEq] at h
                obtain ⟨rfl, rfl, rfl⟩ := h
                exact ⟨rfl, rfl, rfl, rfl, fun e he => absurd he (by simp)⟩
            · split at h
              · simp only [Option.some.injEq, Prod.mk.injEq] at h
                obtain ⟨rfl, rfl, rfl⟩ := h
                exact ⟨rfl, rfl, rfl, rfl, fun e he => absurd he (by simp)⟩
              · split at h <;>
                · simp only [Option.some.injEq, Prod.mk.injEq] at h
                  obtain ⟨rfl, rfl, rfl⟩ := h
                  exact ⟨rfl, rfl, rfl, rfl, fun e he => absurd he (by simp)⟩
        · simp only [Option.some.injEq, Prod.mk.injEq] at h
          obtain ⟨rfl, rfl, rfl⟩ := h
          exact ⟨rfl, rfl, rfl, rfl, fun _ _ => ⟨rfl, rfl, rfl⟩⟩

theorem searchStep_calls_extend (env : Env) (cfg : Config) (name : Bytes) (tcp : Bool)
    (d : Bytes) (st : SearchState) (w : World) (b : Bool) (st1 : SearchState) (w1 : World)
    (h : searchStep env cfg name tcp d st w = some (b, st1, w1)) :
    ∃ new, w1.calls = w.calls ++ new := by
  rcases searchStep_cases env cfg name tcp d st w b st1 w1 h with ⟨_, _, _, rfl⟩ |
    ⟨_, rq, r, err, w2, _, hf, hc, _⟩
  · exact ⟨[], by simp⟩
  · obtain ⟨new, hx, _⟩ := forwardQuery_spec env cfg rq tcp w _ w2 hf
    exact ⟨new, hc.trans hx.1⟩

theorem searchLoop_calls_extend (env : Env) (cfg : Config) (name : Bytes) (tcp : Bool)
    (domains : List Bytes) (st : SearchState) (w : World) (st1 : SearchState) (w1 : World)
    (h : searchLoop env cfg name tcp domains st w = some (st1, w1)) :
    ∃ new, w1.calls = w.calls ++ new := by
  induction domains generalizing st w with
  | nil =>
    simp only [searchLoop, Option.some.injEq, Prod.mk.injEq] at h
    obtain ⟨_, rfl⟩ := h
    exact ⟨[], by simp⟩
  | cons d rest ih =>
    rw [searchLoop_cons] at h
    rcases hs : searchStep env cfg name tcp d st w with _ | ⟨b, st2, w2⟩
    · rw [hs] at h; simp at h
    · obtain ⟨n1, h1⟩ := searchStep_calls_extend env cfg name tcp d st w b st2 w2 hs
      rw [hs] at h
      cases b with
      | false =>
        simp only [Option.some.injEq, Prod.mk.injEq] at h
        obtain ⟨_, rfl⟩ := h
        exact ⟨n1, h1⟩
      | true =>
        simp only [] at h
        obtain ⟨n2, h2⟩ := ih st2 w2 h
        exact ⟨n1 ++ n2, by rw [h2, h1, List.append_assoc]⟩

/-- The search loop when every exchange it makes fails: either every domain
is skipped and nothing changes, or the loop is left at the first candidate
with the transport error in `err`. -/
theorem searchLoop_allFailed (env : Env) (cfg : Config) (name : Bytes) (tcp : Bool)
    (domains : List Bytes) (st : SearchState) (w : World) (st1 : SearchState) (w1 : World)
    (new : List Call) (hns : cfg.Nameservers ≠ []) (hstub : env.StubsNonempty cfg)
    (h : searchLoop env cfg name tcp domains st w = some (st1, w1))
    (hnew : w1.calls = w.calls ++ new) (hf : AllFailed new) :
    (st1 = st ∧ w1 = w ∧ ∀ d ∈ domains, HasSuffix name d = true) ∨
    (st1.didSearch = true ∧ (∃ e, st1.err = some e) ∧ st1.nodata = st.nodata ∧
      ∃ d ∈ domains, HasSuffix name d = false) := by
  induction domains generalizing st w new with
  | nil =>
    simp only [searchLoop, Option.some.injEq, Prod.mk.injEq] at h
    obtain ⟨rfl, rfl⟩ := h
    exact Or.inl ⟨rfl, rfl, fun d hd => absurd hd (List.not_mem_nil d)⟩
  | cons d rest ih =>
    rw [searchLoop_cons] at h
    rcases hs : searchStep env cfg name tcp d st w with _ | ⟨b, st2, w2⟩
    · rw [hs] at h; simp at h
    · rw [hs] at h
      rcases searchStep_cases env cfg name tcp d st w b st2 w2 hs with ⟨hd, rfl, rfl, rfl⟩ |
        ⟨hd, rq, r, err, w3, hrq, hfq, hc, hr, he, hds, herr⟩
      · simp only [] at h
        rcases ih _ _ new h hnew hf with ⟨h1, h2, h3⟩ | ⟨h1, h2, h3, d1, hd1, hd2⟩
        · refine Or.inl ⟨h1, h2, ?_⟩
          intro d1 hd1
          rcases List.mem_cons.1 hd1 with rfl | hd1
          · exact hd
          · exact h3 d1 hd1
        · exact Or.inr ⟨h1, h2, h3, d1, List.mem_cons_of_mem _ hd1, hd2⟩
      · obtain ⟨n1, hx, _⟩ := forwardQuery_spec env cfg rq tcp w _ w3 hfq
        have hpre : ∃ n2, w1.calls = w2.calls ++ n2 := by
          cases b with
          | false =>
            simp only [Option.some.injEq, Prod.mk.injEq] at h
            obtain ⟨_, rfl⟩ := h
            exact ⟨[], by simp⟩
          | true => exact searchLoop_calls_extend env cfg name tcp rest st2 w2 st1 w1 h
        obtain ⟨n2, hn2⟩ := hpre
        have hnn : new = n1 ++ n2 := by
          rw [hc, hx.1, hnew, List.append_assoc] at hn2
          exact List.append_cancel_left hn2
        subst hnn
        obtain ⟨e, hee⟩ := forwardQuery_allFailed env cfg rq tcp w (r, err) w3 n1
          (searchRequest_Question _ _ _ hrq) hns hstub hfq hx.1 hf.left
        simp only at hee
        obtain ⟨rfl, hnd, rfl⟩ := herr e hee
        simp only [Option.some.injEq, Prod.mk.injEq] at h
        obtain ⟨rfl, rfl⟩ := h
        exact Or.inr ⟨hds, ⟨e, he.trans hee⟩, hnd, d, List.mem_cons_self _ _, hd⟩

theorem forwardSearch_allFailed (env : Env) (cfg : Config) (req : Msg) (tcp : Bool) (w : World)
    (q0 : Question) (qs : List Question) (res : Result) (w1 : World) (new : List Call)
    (hq : req.Question = q0 :: qs) (hns : cfg.Nameservers ≠ []) (hstub : env.StubsNonempty cfg)
    (h : forwardSearch env cfg req tcp w = some (res, w1)) (hnew : w1.calls = w.calls ++ new)
    (hf : AllFailed new) :
    (res = (some (Msg.new.SetRcode req RcodeNameError), none) ∧
      ∀ d ∈ cfg.SearchDomains, HasSuffix q0.Name d = true) ∨
    ((∃ e, res.2 = some e) ∧ ∃ d ∈ cfg.SearchDomains, HasSuffix q0.Name d = false) := by
  simp only [forwardSearch, hq] at h
  rcases hl : searchLoop env cfg q0.Name tcp cfg.SearchDomains
      { r := none, nodata := none, searchName := [], err := none, didSearch := false,
        reqCopy := req.Copy } w with _ | ⟨st1, w2⟩
  · rw [hl] at h; simp at h
  · rw [hl] at h
    simp only [] at h
    by_cases hd : st1.didSearch = true
    · simp only [hd, Bool.not_true, Bool.false_eq_true, if_false, Option.map_eq_some'] at h
      obtain ⟨res1, hfin, hres⟩ := h
      simp only [Prod.mk.injEq] at hres
      obtain ⟨rfl, rfl⟩ := hres
      rcases searchLoop_allFailed env cfg q0.Name tcp cfg.SearchDomains _ w st1 w2 new hns hstub
        hl hnew hf with ⟨h1, _, _⟩ | ⟨_, ⟨e, he⟩, hnd, hex⟩
      · rw [h1] at hd
        simp at hd
      · rw [searchFinish_err q0 st1 e he hnd] at hfin
        simp only [Option.some.injEq] at hfin
        subst hfin
        exact Or.inr ⟨⟨e, rfl⟩, hex⟩
    · have hd0 : st1.didSearch = false := by simpa using hd
      simp only [hd0, Bool.not_false, if_true, Option.some.injEq, Prod.mk.injEq] at h
      obtain ⟨rfl, rfl⟩ := h
      rcases searchLoop_allFailed env cfg q0.Name tcp cfg.SearchDomains _ w st1 w2 new hns hstub
        hl hnew hf with ⟨_, _, h3⟩ | ⟨h1, _⟩
      · exact Or.inl ⟨rfl, h3⟩
      · rw [h1] at hd0
        simp at hd0

theorem absoluteLookup_allFailed (env : Env) (cfg : Config) (tcp : Bool) (req : Msg)
    (st : LookupState) (w : World) (st1 : LookupState) (w1 : World) (new : List Call)
    (hq : req.Question ≠ []) (hns : cfg.Nameservers ≠ []) (hstub : env.StubsNonempty cfg)
    (h : absoluteLookup env cfg tcp req st w = some (Flow.next st1 w1))
    (hnew : w1.calls = w.calls ++ new) (hf : AllFailed new) :
    ∃ r e, st1 = { st with absoluteRes := r, absoluteErr := some e, didAbsolute := true } := by
  unfold absoluteLookup at h
  rcases hfq : forwardQuery env cfg req tcp w with _ | ⟨⟨r, err⟩, w2⟩
  · rw [hfq] at h; simp at h
  · rw [hfq] at h
    simp only [] at h
    rcases err with _ | e
    · exfalso
      rcases r with _ | rm
      · simp at h
      · simp only [] at h
        split at h
        · simp at h
        · simp only [Option.some.injEq, Flow.next.injEq] at h
          obtain ⟨_, rfl⟩ := h
          obtain ⟨e, he⟩ := forwardQuery_allFailed env cfg req tcp w _ _ new hq hns hstub hfq
            hnew hf
          simp at he
    · simp only [Option.some.injEq, Flow.next.injEq] at h
      obtain ⟨rfl, _⟩ := h
      exact ⟨r, e, rfl⟩

theorem searchLookup_allFailed (env : Env) (cfg : Config) (tcp : Bool) (req : Msg)
    (st : LookupState) (w : World) (st1 : LookupState) (w1 : World) (new : List Call)
    (q0 : Question) (qs : List Question)
    (hq : req.Question = q0 :: qs) (hns : cfg.Nameservers ≠ []) (hstub : env.StubsNonempty cfg)
    (herr : st.absoluteErr = none)
    (h : searchLookup env cfg tcp req true st w = some (Flow.next st1 w1))
    (hnew : w1.calls = w.calls ++ new) (hf : AllFailed new) :
    ((∀ d ∈ cfg.SearchDomains, HasSuffix q0.Name d = true) ∧
      st1 = { st with searchRes := some (Msg.new.SetRcode req RcodeNameError), searchErr := none,
                      didSearch := true }) ∨
    ((∃ d ∈ cfg.SearchDomains, HasSuffix q0.Name d = false) ∧
      ∃ r e, st1 = { st with searchRes := r, searchErr := some e, didSearch := true }) := by
  simp only [searchLookup, herr, and_self, if_true] at h
  rcases hfs : forwardSearch env cfg req tcp w with _ | ⟨⟨r, err⟩, w2⟩
  · rw [hfs] at h; simp at h
  · rw [hfs] at h
    simp only [] at h
    have hw : w1 = w2 := by
      rcases err with _ | e
      · rcases r with _ | rm
        · simp at h
        · simp only [] at h
          split at h
          · simp at h
          · simp only [Option.some.injEq, Flow.next.injEq] at h
            exact h.2.symm
      · simp only [Option.some.injEq, Flow.next.injEq] at h
        exact h.2.symm
    subst hw
    rcases forwardSearch_allFailed env cfg req tcp w q0 qs _ w1 new hq hns hstub hfs hnew hf with
      ⟨hres, hall⟩ | ⟨⟨e, he⟩, hex⟩
    · simp only [Prod.mk.injEq] at hres
      obtain ⟨rfl, rfl⟩ := hres
      have hrc : (Msg.new.SetRcode req RcodeNameError).Rcode = RcodeNameError := rfl
      have hne : ¬ RcodeNameError = RcodeSuccess := by decide
      simp only [hrc, hne, if_false, Option.some.injEq, Flow.next.injEq] at h
      obtain ⟨rfl, _⟩ := h
      exact Or.inl ⟨hall, by rw [herr]⟩
    · simp only at he
      subst he
      simp only [Option.some.injEq, Flow.next.injEq] at h
      obtain ⟨rfl, _⟩ := h
      exact Or.inr ⟨hex, r, e, by rw [herr]⟩

theorem initialAbsolute_skip (env : Env) (cfg : Config) (tcp : Bool) (req : Msg)
    (nameDots : Int) (st : LookupState) (w : World)
    (h : ¬ (nameDots ≥ cfg.Ndots ∧ nameDots ≥ cfg.FwdNdots)) :
    initialAbsolute env cfg tcp req nameDots st w = some (Flow.next st w) := by
  unfold initialAbsolute
  split
  · rename_i h1
    split
    · rename_i h2
      exact absurd ⟨h1, h2⟩ h
    · rfl
  · rfl

theorem initialAbsolute_made (env : Env) (cfg : Config) (tcp : Bool) (req : Msg)
    (nameDots : Int) (st : LookupState) (w : World)
    (h : nameDots ≥ cfg.Ndots ∧ nameDots ≥ cfg.FwdNdots) :
    initialAbsolute env cfg tcp req nameDots st w = absoluteLookup env cfg tcp req st w := by
  simp only [initialAbsolute, h.1, h.2, if_true]

theorem lateAbsolute_skip (env : Env) (cfg : Config) (tcp : Bool) (req : Msg)
    (nameDots : Int) (st : LookupState) (w : World)
    (h : ¬ (st.searchErr = none ∧ st.didAbsolute = false ∧ nameDots ≥ cfg.FwdNdots)) :
    lateAbsolute env cfg tcp req nameDots st w = some (Flow.next st w) := by
  unfold lateAbsolute
  split
  · rename_i h1
    split
    · rename_i h2
      exact absurd ⟨h1.1, h1.2, h2⟩ h
    · rfl
  · rfl

theorem lateAbsolute_made (env : Env) (cfg : Config) (tcp : Bool) (req : Msg)
    (nameDots : Int) (st : LookupState) (w : World)
    (h : st.searchErr = none ∧ st.didAbsolute = false ∧ nameDots ≥ cfg.FwdNdots) :
    lateAbsolute env cfg tcp req nameDots st w = absoluteLookup env cfg tcp req st w := by
  simp only [lateAbsolute, h.1, h.2.1, h.2.2, and_self, if_true]

theorem searchLookup_skip (env : Env) (cfg : Config) (tcp : Bool) (req : Msg)
    (searchEnabled : Bool) (st : LookupState) (w : World)
    (h : ¬ (st.absoluteErr = none ∧ searchEnabled = true)) :
    searchLookup env cfg tcp req searchEnabled st w = some (Flow.next st w) := by
  simp only [searchLookup, h, if_false]

/-- The late absolute block when every exchange it makes fails: the search
variables are kept, and no absolute response without error is recorded. -/
theorem lateAbsolute_allFailed (env : Env) (cfg : Config) (tcp : Bool) (req : Msg)
    (nameDots : Int) (st : LookupState) (w : World) (st1 : LookupState) (w1 : World)
    (new : List Call) (hq : req.Question ≠ []) (hns : cfg.Nameservers ≠ [])
    (hstub : env.StubsNonempty cfg)
    (h : lateAbsolute env cfg tcp req nameDots st w = some (Flow.next st1 w1))
    (hnew : w1.calls = w.calls ++ new) (hf : AllFailed new) :
    st1 = st ∨
    ∃ r e, st1 = { st with absoluteRes := r, absoluteErr := some e, didAbsolute := true } := by
  by_cases hc : st.searchErr = none ∧ st.didAbsolute = false ∧ nameDots ≥ cfg.FwdNdots
  · rw [lateAbsolute_made env cfg tcp req nameDots st w hc] at h
    exact Or.inr (absoluteLookup_allFailed env cfg tcp req st w st1 w1 new hq hns hstub h hnew hf)
  · rw [lateAbsolute_skip env cfg tcp req nameDots st w hc] at h
    simp only [Option.some.injEq, Flow.next.injEq] at h
    exact Or.inl h.1.symm

/-- The failure branches when no absolute response without error is recorded
and there is no stale candidate. -/
theorem failureResponse_noAbsolute (req : Msg) (st : LookupState) (w : World) (m : Msg)
    (b : Bool) (w1 : World) (hA : ¬ (st.didAbsolute = true ∧ st.absoluteErr = none))
    (h : failureResponse req none st w = some (m, b, w1)) :
    b = false ∧
    (∀ s, st.didSearch = true → st.searchErr = none → st.searchRes = some s →
      m = Msg.new.SetRcode req s.Rcode) ∧
    (¬ (st.didSearch = true ∧ st.searchErr = none) →
      m = Msg.new.SetRcode req RcodeServerFailure) := by
  simp only [failureResponse, hA, if_false] at h
  by_cases hS : st.didSearch = true ∧ st.searchErr = none
  · simp only [hS, and_self, if_true] at h
    rcases hs : st.searchRes with _ | s
    · rw [hs] at h; simp at h
    · rw [hs] at h
      simp only [staleOr, Option.some.injEq, Prod.mk.injEq] at h
      obtain ⟨rfl, rfl, _⟩ := h
      refine ⟨rfl, ?_, fun hn => absurd hS hn⟩
      intro s1 _ _ hs1
      simp only [Option.some.injEq] at hs1
      rw [hs1]
  · simp only [hS, if_false, staleOr, Option.some.injEq, Prod.mk.injEq] at h
    obtain ⟨rfl, rfl, _⟩ := h
    exact ⟨rfl, fun s h1 h2 _ => absurd ⟨h1, h2⟩ hS, fun _ => rfl⟩

/-- What `ServeDNSForward` returns without a stale candidate when every
exchange made during the call fails with a transport error: a reply with code
NXDOMAIN when the search attempt is made and finds no candidate to query, and
a reply with code SERVFAIL otherwise. -/
theorem ServeDNSForward_allFailed (env : Env) (cfg : Config) (tcp : Bool) (req : Msg)
    (w : World) (q : Question) (qs : List Question) (m : Msg) (b : Bool) (wF : World)
    (new : List Call) (hq : req.Question = q :: qs)
    (hrefuse : refuse cfg (env.CountLabel q.Name - 1) = false) (hstub : env.StubsNonempty cfg)
    (hres : ServeDNSForward env cfg tcp req none w = some (m, b, wF))
    (hnew : wF.calls = w.calls ++ new) (hf : AllFailed new) :
    b = false ∧
    ((¬ (env.CountLabel q.Name - 1 ≥ cfg.Ndots ∧ env.CountLabel q.Name - 1 ≥ cfg.FwdNdots) ∧
        (cfg.EnableSearch && decide (cfg.SearchDomains.length > 0)) = true ∧
        ∀ d ∈ cfg.SearchDomains, HasSuffix q.Name d = true) →
      m = Msg.new.SetRcode req RcodeNameError) ∧
    (¬ (¬ (env.CountLabel q.Name - 1 ≥ cfg.Ndots ∧ env.CountLabel q.Name - 1 ≥ cfg.FwdNdots) ∧
        (cfg.EnableSearch && decide (cfg.SearchDomains.length > 0)) = true ∧
        ∀ d ∈ cfg.SearchDomains, HasSuffix q.Name d = true) →
      m = Msg.new.SetRcode req RcodeServerFailure) := by
  have hqne : req.Question ≠ [] := by rw [hq]; simp
  have hns : cfg.Nameservers ≠ [] := by
    intro h0
    simp [refuse, h0] at hrefuse
  rw [ServeDNSForward_eq env cfg tcp req none w q qs hq hrefuse] at hres
  unfold lookupBlocks at hres
  simp only [] at hres
  have hw0 : w.incForwardCount.calls = w.calls := rfl
  rcases h1 : initialAbsolute env cfg tcp req (env.CountLabel q.Name - 1)
      { didAbsolute := false, didSearch := false, absoluteRes := none, searchRes := none,
        absoluteErr := none, searchErr := none } w.incForwardCount with
    _ | ⟨m1, b1, w1⟩ | ⟨st1, w1⟩
  · rw [h1] at hres; simp at hres
  · exfalso
    rw [h1] at hres
    simp only [Option.some.injEq, Prod.mk.injEq] at hres
    obtain ⟨_, _, rfl⟩ := hres
    obtain ⟨_, n1, hx1, hany⟩ := initialAbsolute_spec env cfg tcp req _ _ _ _ h1
    rw [hw0, hnew] at hx1
    have := List.append_cancel_left hx1
    subst this
    rw [hf.noNoError] at hany
    exact absurd hany (by simp)
  · rw [h1] at hres
    simp only [] at hres
    obtain ⟨n1, hx1, _⟩ := initialAbsolute_spec env cfg tcp req _ _ _ _ h1
    have hc1 : w1.calls = w.calls ++ n1 := hx1.1
    rcases h2 : searchLookup env cfg tcp req
        (cfg.EnableSearch && decide (cfg.SearchDomains.length > 0)) st1 w1 with
      _ | ⟨m2, b2, w2⟩ | ⟨st2, w2⟩
    · rw [h2] at hres; simp at hres
    · exfalso
      rw [h2] at hres
      simp only [Option.some.injEq, Prod.mk.injEq] at hres
      obtain ⟨_, _, rfl⟩ := hres
      obtain ⟨_, n2, hx2, hany⟩ := searchLookup_spec env cfg tcp req _ _ _ _ h2
      rw [hc1, hnew, List.append_assoc] at hx2
      have := List.append_cancel_left hx2
      subst this
      rw [hf.right.noNoError] at hany
      exact absurd hany (by simp)
    · rw [h2] at hres
      simp only [] at hres
      obtain ⟨n2, hx2, _⟩ := searchLookup_spec env cfg tcp req _ _ _ _ h2
      have hc2 : w2.calls = w1.calls ++ n2 := hx2.1
      rcases h3 : lateAbsolute env cfg tcp req (env.CountLabel q.Name - 1) st2 w2 with
        _ | ⟨m3, b3, w3⟩ | ⟨st3, w3⟩
      · rw [h3] at hres; simp at hres
      · exfalso
        rw [h3] at hres
        simp only [Option.some.injEq, Prod.mk.injEq] at hres
        obtain ⟨_, _, rfl⟩ := hres
        obtain ⟨_, n3, hx3, hany⟩ := lateAbsolute_spec env cfg tcp req _ _ _ _ h3
        rw [hc2, hc1, hnew, List.append_assoc, List.append_assoc] at hx3
        have := List.append_cancel_left hx3
        subst this
        rw [hf.right.right.noNoError] at hany
        exact absurd hany (by simp)
      · rw [h3] at hres
        simp only [] at hres
        obtain ⟨n3, hx3, _⟩ := lateAbsolute_spec env cfg tcp req _ _ _ _ h3
        have hc3 : w3.calls = w2.calls ++ n3 := hx3.1
        have hcF := (failureResponse_spec req none st3 w3 m b wF hres).2.1
        rw [hc3, hc2, hc1, hnew, List.append_assoc, List.append_assoc] at hcF
        have hn := List.append_cancel_left hcF
        subst hn
        have hf1 : AllFailed n1 := hf.left
        have hf2 : AllFailed n2 := hf.right.left
        have hf3 : AllFailed n3 := hf.right.right
        have hl := lateAbsolute_allFailed env cfg tcp req _ st2 w2 st3 w3 n3 hqne hns hstub h3
          hc3 hf3
        by_cases hA : env.CountLabel q.Name - 1 ≥ cfg.Ndots ∧
            env.CountLabel q.Name - 1 ≥ cfg.FwdNdots
        · rw [initialAbsolute_made env cfg tcp req _ _ _ hA] at h1
          obtain ⟨r, e, rfl⟩ := absoluteLookup_allFailed env cfg tcp req _ _ st1 w1 n1 hqne hns
            hstub h1 hx1.1 hf1
          rw [searchLookup_skip env cfg tcp req _ _ _ (by simp)] at h2
          simp only [Option.some.injEq, Flow.next.injEq] at h2
          obtain ⟨rfl, rfl⟩ := h2
          rw [lateAbsolute_skip env cfg tcp req _ _ _ (by simp)] at h3
          simp only [Option.some.injEq, Flow.next.injEq] at h3
          obtain ⟨rfl, rfl⟩ := h3
          obtain ⟨hb, _, hm⟩ := failureResponse_noAbsolute req _ _ m b wF (by simp) hres
          exact ⟨hb, fun hn => absurd hA hn.1, fun _ => hm (by simp)⟩
        · rw [initialAbsolute_skip env cfg tcp req _ _ _ hA] at h1
          simp only [Option.some.injEq, Flow.next.injEq] at h1
          obtain ⟨rfl, rfl⟩ := h1
          cases hse : (cfg.EnableSearch && decide (cfg.SearchDomains.length > 0)) with
          | false =>
            rw [hse] at h2
            rw [searchLookup_skip env cfg tcp req _ _ _ (by simp)] at h2
            simp only [Option.some.injEq, Flow.next.injEq] at h2
            obtain ⟨rfl, rfl⟩ := h2
            rcases hl with rfl | ⟨r, e, rfl⟩
            · obtain ⟨hb, _, hm⟩ := failureResponse_noAbsolute req _ _ m b wF (by simp) hres
              exact ⟨hb, fun hn => absurd hn.2.1 (by simp), fun _ => hm (by simp)⟩
            · obtain ⟨hb, _, hm⟩ := failureResponse_noAbsolute req _ _ m b wF (by simp) hres
              exact ⟨hb, fun hn => absurd hn.2.1 (by simp), fun _ => hm (by simp)⟩
          | true =>
            rw [hse] at h2
            rcases searchLookup_allFailed env cfg tcp req _ _ st2 w2 n2 q qs hq hns hstub rfl h2
              hc2 hf2 with ⟨hall, rfl⟩ | ⟨⟨d, hd, hdn⟩, r, e, rfl⟩
            · rcases hl with rfl | ⟨r, e, rfl⟩
              · obtain ⟨hb, hm, _⟩ := failureResponse_noAbsolute req _ _ m b wF (by simp) hres
                exact ⟨hb, fun _ => hm _ rfl rfl rfl, fun hn => absurd ⟨hA, rfl, hall⟩ hn⟩
              · obtain ⟨hb, hm, _⟩ := failureResponse_noAbsolute req _ _ m b wF (by simp) hres
                exact ⟨hb, fun _ => hm _ rfl rfl rfl, fun hn => absurd ⟨hA, rfl, hall⟩ hn⟩
            · have hnall : ¬ ∀ d ∈ cfg.SearchDomains, HasSuffix q.Name d = true := by
                intro hall
                rw [hall d hd] at hdn
                simp at hdn
              rcases hl with rfl | ⟨r1, e1, h0⟩
              · obtain ⟨hb, _, hm⟩ := failureResponse_noAbsolute req _ _ m b wF (by simp) hres
                exact ⟨hb, fun hn => absurd hn.2.2 hnall, fun _ => hm (by simp)⟩
              · subst h0
                obtain ⟨hb, _, hm⟩ := failureResponse_noAbsolute req _ _ m b wF (by simp) hres
                exact ⟨hb, fun hn => absurd hn.2.2 hnall, fun _ => hm (by simp)⟩

/-- C24 (counterexample).  The request `t. IN A` under the search domain `t.`
is not refused and has no stale candidate.  The search attempt finds no
candidate (the only search domain is a suffix of the name) and the absolute
lookup is the only exchange of the call; it fails with a transport error.  The
message returned has code NXDOMAIN, not SERVFAIL. -/
theorem C24_exhaustion_answers_nxdomain :
    refuse (exConfigSearch [exDomT]) (exEnvZones.CountLabel [116, 46] - 1) = false ∧
    observe (ServeDNSForward exEnvZones (exConfigSearch [exDomT]) false exMsgT none exWorld) =
      some (RcodeNameError, false, [exCallT],
        { (exWorldForward 0 []).stats with RequestFail := 1, NoDataCount := 1 }) ∧
    exCallT.rcode = none ∧ RcodeNameError ≠ RcodeServerFailure :=
  ⟨by decide, by decide, by decide, by decide⟩

/-- C24 (amended).  Upstream exhaustion.  For a request that is not refused and
no stale candidate, `ServeDNSForward` returns (every stub zone having an
upstream and the upstreams' responses carrying a question section), and if
every exchange made during the call fails with a transport error, then
`served_stale` is `false` and the returned message is a reply to the request
whose code is SERVFAIL, except when the initial absolute attempt is skipped,
search is enabled with at least one search domain and every search domain is a
suffix of the name: then the search attempt finds no candidate and the code is
NXDOMAIN. -/
theorem C24_upstream_exhaustion (env : Env) (cfg : Config) (tcp : Bool) (req : Msg)
    (w : World) (q : Question) (qs : List Question)
    (hq : req.Question = q :: qs)
    (hrefuse : refuse cfg (env.CountLabel q.Name - 1) = false)
    (hstub : env.StubsNonempty cfg) (hcarry : env.AnswersCarryQuestion) :
    (ServeDNSForward env cfg tcp req none w).isSome = true ∧
    ∀ m b wF new, ServeDNSForward env cfg tcp req none w = some (m, b, wF) →
      wF.calls = w.calls ++ new → AllFailed new →
      b = false ∧
      ((¬ (env.CountLabel q.Name - 1 ≥ cfg.Ndots ∧ env.CountLabel q.Name - 1 ≥ cfg.FwdNdots) ∧
          (cfg.EnableSearch && decide (cfg.SearchDomains.length > 0)) = true ∧
          ∀ d ∈ cfg.SearchDomains, HasSuffix q.Name d = true) →
        m = Msg.new.SetRcode req RcodeNameError ∧ m.Rcode = RcodeNameError) ∧
      (¬ (¬ (env.CountLabel q.Name - 1 ≥ cfg.Ndots ∧
              env.CountLabel q.Name - 1 ≥ cfg.FwdNdots) ∧
          (cfg.EnableSearch && decide (cfg.SearchDomains.length > 0)) = true ∧
          ∀ d ∈ cfg.SearchDomains, HasSuffix q.Name d = true) →
        m = Msg.new.SetRcode req RcodeServerFailure ∧ m.Rcode = RcodeServerFailure) := by
  refine ⟨ServeDNSForward_returns env cfg tcp req none w (by rw [hq]; simp) hstub hcarry, ?_⟩
  intro m b wF new hres hnew hf
  obtain ⟨hb, h1, h2⟩ := ServeDNSForward_allFailed env cfg tcp req w q qs m b wF new hq hrefuse
    hstub hres hnew hf
  refine ⟨hb, fun hc => ?_, fun hc => ?_⟩
  · rw [h1 hc]
    exact ⟨rfl, rfl⟩
  · rw [h2 hc]
    exact ⟨rfl, rfl⟩

theorem C24_upstream_exhaustion_witness :
    exMsgA.Question = exQuestionA :: [] ∧
    refuse (exConfigSearch [exDomT]) (exEnvZones.CountLabel exQuestionA.Name - 1) = false ∧
    ServeDNSForward exEnvZones (exConfigSearch [exDomT]) false exMsgA none exWorld =
      some (Msg.new.SetRcode exMsgA RcodeServerFailure, false,
        writeMsg (exWorldForward 0 [exCallTimeout]).incRequestFail
          (Msg.new.SetRcode exMsgA RcodeServerFailure)) ∧
    AllFailed [exCallTimeout] ∧
    (Msg.new.SetRcode exMsgA RcodeServerFailure).Rcode = RcodeServerFailure :=
  ⟨rfl, by decide, by decide, by unfold AllFailed; decide,
    (((C24_upstream_exhaustion exEnvZones (exConfigSearch [exDomT]) false exMsgA exWorld
      exQuestionA [] rfl (by decide)
      (fun _ _ hp => absurd hp (by simp [exConfigSearch, exConfig, exEnvZones]))
      exEnvZones_AnswersCarryQuestion).2
      (Msg.new.SetRcode exMsgA RcodeServerFailure) false
      (writeMsg (exWorldForward 0 [exCallTimeout]).incRequestFail
        (Msg.new.SetRcode exMsgA RcodeServerFailure)) [exCallTimeout] (by decide) rfl
      (by unfold AllFailed; decide)).2.2 (by decide)).2⟩

/-! ## Claims on the counters and on the upstream list -/

/-- The upstream loop of `forwardQuery` counts every NXDOMAIN response once. -/
theorem queryLoop_nameErrors (env : Env) (req : Msg) (tcp : Bool) (ns : List Server)
    (acc : Result) (w : World) (res : Result) (w1 : World)
    (h : queryLoop env req tcp ns acc w = some (res, w1)) :
    ∃ new, w1.calls = w.calls ++ new ∧
      w1.stats.NameErrorCount = w.stats.NameErrorCount + nameErrors new := by
  induction ns generalizing acc w with
  | nil =>
    simp only [queryLoop, Option.some.injEq, Prod.mk.injEq] at h
    obtain ⟨_, rfl⟩ := h
    exact ⟨[], by simp, rfl⟩
  | cons s rest ih =>
    unfold queryLoop at h
    cases hq : req.Question with
    | nil => rw [hq] at h; simp at h
    | cons q qs =>
      rw [hq] at h
      simp only [] at h
      rcases hout : (env.call w tcp req s).out with r | ⟨r, e⟩
      · rw [hout] at h
        simp only [] at h
        have hstep : (if r.Rcode = RcodeNameError then
              World.incNameErrorCount { w with calls := w.calls ++ [env.call w tcp req s] }
            else { w with calls := w.calls ++ [env.call w tcp req s] }).stats.NameErrorCount =
            w.stats.NameErrorCount + nameErrors [env.call w tcp req s] := by
          by_cases h3 : r.Rcode = RcodeNameError
          · simp [h3, nameErrors, Call.isNameError, Call.rcode, hout, World.incNameErrorCount]
          · simp [h3, nameErrors, Call.isNameError, Call.rcode, hout]
        split at h
        · simp only [Option.some.injEq, Prod.mk.injEq] at h
          obtain ⟨_, rfl⟩ := h
          exact ⟨[env.call w tcp req s], by rw [condNameError_calls], hstep⟩
        · obtain ⟨new, h1, h2⟩ := ih _ _ h
          refine ⟨env.call w tcp req s :: new, ?_, ?_⟩
          · rw [h1, condNameError_calls]
            simp
          · rw [h2, hstep]
            simp only [nameErrors, List.filter_cons, List.filter_nil]
            split <;> simp_arith
      · rw [hout] at h
        simp only [] at h
        obtain ⟨new, h1, h2⟩ := ih _ _ h
        refine ⟨env.call w tcp req s :: new, ?_, ?_⟩
        · rw [h1]
          simp
        · rw [h2]
          simp [nameErrors, List.filter_cons, Call.isNameError, Call.rcode, hout]

/-- The method `forwardQuery` counts every NXDOMAIN response it receives once. -/
theorem forwardQuery_nameErrors (env : Env) (cfg : Config) (req : Msg) (tcp : Bool) (w : World)
    (res : Result) (w1 : World) (h : forwardQuery env cfg req tcp w = some (res, w1)) :
    ∃ new, w1.calls = w.calls ++ new ∧
      w1.stats.NameErrorCount = w.stats.NameErrorCount + nameErrors new := by
  unfold forwardQuery at h
  rcases hs : stubLoop req (env.stubRange w.calls.length cfg.Stub) cfg.Nameservers w with
    _ | ⟨ns, w0⟩
  · rw [hs] at h; simp at h
  · rw [hs] at h
    simp only [] at h
    obtain ⟨new, h1, h2⟩ := queryLoop_nameErrors env req tcp ns _ w0 res w1 h
    have h0 := (stubLoop_Extends req _ _ _ w w0 hs).1
    rw [List.append_nil] at h0
    have hst : w0.stats.NameErrorCount = w.stats.NameErrorCount := by
      clear h h1 h2
      generalize env.stubRange w.calls.length cfg.Stub = stubs at hs
      induction stubs with
      | nil =>
        simp only [stubLoop, Option.some.injEq, Prod.mk.injEq] at hs
        rw [← hs.2]
      | cons p rest ih =>
        obtain ⟨zone, srv⟩ := p
        unfold stubLoop at hs
        cases hq : req.Question with
        | nil => rw [hq] at hs; simp at hs
        | cons q qs =>
          rw [hq] at hs
          simp only [] at hs
          split at hs
          · simp only [Option.some.injEq, Prod.mk.injEq] at hs
            rw [← hs.2]
            rfl
          · exact ih hs
    exact ⟨new, by rw [h1, h0], by rw [h2, hst]⟩

/-- C28. The counter `name_error_count` on the two paths of `ServeDNSForward`,
with the upstream of `exEnvZones`, which answers `a.` and `a.x.` NXDOMAIN.
On the absolute path (no search, request `a.x. IN A`) one NXDOMAIN response is
received and the counter increases by one.  On the search path (search domain
`x.`, request `a. IN A`) two NXDOMAIN responses are received, one for the
candidate `a.x.` and one for the name as given, and the counter increases by
three: the response to the candidate is counted by `forwardQuery` and again by
`forwardSearch`. -/
theorem C28_name_error_counted_twice_on_search_path :
    (∃ m b w1, ServeDNSForward exEnvZones exConfigOne false exMsgAX none exWorld =
        some (m, b, w1) ∧ w1.calls.map Call.rcode = [some RcodeNameError] ∧
      nameErrors w1.calls = 1 ∧
      w1.stats.NameErrorCount = exWorld.stats.NameErrorCount + 1) ∧
    (∃ m b w1, ServeDNSForward exEnvZones (exConfigSearch [exDomX]) false exMsgA none exWorld =
        some (m, b, w1) ∧
      w1.calls.map Call.rcode = [some RcodeNameError, some RcodeNameError] ∧
      nameErrors w1.calls = 2 ∧
      w1.stats.NameErrorCount = exWorld.stats.NameErrorCount + 3) :=
  ⟨⟨_, _, _, rfl, by decide, by decide, by decide⟩,
   ⟨_, _, _, rfl, by decide, by decide, by decide⟩⟩

/-- C25. The flag `rcache-non-negative` and the upstream loop.  The result of
`forwardQuery` does not depend on `RCacheNonNegative`, whatever the
environment, the configuration and the request.  With the flag set and the
upstreams `ns1`, `ns2`: the first upstream answers `a. IN A` with NXDOMAIN and
`a.r. IN A` with REFUSED, and each time `forwardQuery` returns that response at
once; `ns1` is the only upstream contacted. -/
theorem C25_non_negative_flag_not_read :
    (∀ (env : Env) (cfg : Config) (req : Msg) (tcp : Bool) (w : World) (b : Bool),
      forwardQuery env { cfg with RCacheNonNegative := b } req tcp w =
        forwardQuery env cfg req tcp w) ∧
    exConfigNonNegative.RCacheNonNegative = true ∧
    exConfigNonNegative.Nameservers = ["ns1", "ns2"] ∧
    (∃ r w1, forwardQuery exEnvZones exConfigNonNegative exMsgA false exWorld =
        some ((some r, none), w1) ∧
      r.Rcode = RcodeNameError ∧ w1.calls.map Call.server = ["ns1"] ∧
      w1.calls.map Call.rcode = [some RcodeNameError]) ∧
    (∃ r w1, forwardQuery exEnvZones exConfigNonNegative (exCandidate exDomR) false exWorld =
        some ((some r, none), w1) ∧
      r.Rcode = RcodeRefused ∧ w1.calls.map Call.server = ["ns1"] ∧
      w1.calls.map Call.rcode = [some RcodeRefused]) :=
  ⟨fun _ _ _ _ _ _ => rfl, rfl, rfl,
   ⟨_, _, rfl, by decide, by decide, by decide⟩,
   ⟨_, _, rfl, by decide, by decide, by decide⟩⟩

theorem stubLoop_noMatch (req : Msg) (q : Question) (qs : List Question)
    (stubs : List (Bytes × List Server)) (nservers : List Server) (w : World)
    (hq : req.Question = q :: qs) (h : ∀ p ∈ stubs, HasSuffix q.Name p.1 = false) :
    stubLoop req stubs nservers w = some (nservers, w) := by
  induction stubs with
  | nil => rfl
  | cons p rest ih =>
    obtain ⟨zone, srv⟩ := p
    have h0 : HasSuffix q.Name zone = false := h (zone, srv) (List.mem_cons_self _ _)
    simp only [stubLoop, hq, h0, Bool.false_eq_true, if_false]
    exact ih (fun p hp => h p (List.mem_cons_of_mem _ hp))

theorem stubLoop_match (req : Msg) (q : Question) (qs : List Question)
    (stubs : List (Bytes × List Server)) (nservers : List Server) (w : World)
    (hq : req.Question = q :: qs) (h : ∃ p ∈ stubs, HasSuffix q.Name p.1 = true) :
    ∃ p ∈ stubs, HasSuffix q.Name p.1 = true ∧
      stubLoop req stubs nservers w = some (p.2, w.incStubForwardCount) := by
  induction stubs with
  | nil =>
    obtain ⟨p, hp, _⟩ := h
    exact absurd hp (List.not_mem_nil p)
  | cons p0 rest ih =>
    obtain ⟨zone, srv⟩ := p0
    cases h0 : HasSuffix q.Name zone with
    | true =>
      refine ⟨(zone, srv), List.mem_cons_self _ _, h0, ?_⟩
      simp only [stubLoop, hq, h0, if_true]
    | false =>
      have h1 : ∃ p ∈ rest, HasSuffix q.Name p.1 = true := by
        obtain ⟨p, hp, hs⟩ := h
        rcases List.mem_cons.1 hp with rfl | hp
        · rw [h0] at hs
          simp at hs
        · exact ⟨p, hp, hs⟩
      obtain ⟨p, hp, hs, he⟩ := ih h1
      refine ⟨p, List.mem_cons_of_mem _ hp, hs, ?_⟩
      simp only [stubLoop, hq, h0, Bool.false_eq_true, if_false]
      exact he

/-- The upstream loop of `forwardQuery` returns for a request with a question;
the upstreams it contacts are the first ones of its list, in order, and it
leaves `stub_forward_count` alone. -/
theorem queryLoop_servers (env : Env) (req : Msg) (tcp : Bool) (ns : List Server)
    (acc : Result) (w : World) (hq : req.Question ≠ []) :
    ∃ res w1 new, queryLoop env req tcp ns acc w = some (res, w1) ∧
      w1.calls = w.calls ++ new ∧ new.map Call.server <+: ns ∧
      w1.stats.StubForwardCount = w.stats.StubForwardCount := by
  obtain ⟨q, qs, hq1⟩ := List.exists_cons_of_ne_nil hq
  induction ns generalizing acc w with
  | nil => exact ⟨acc, w, [], rfl, by simp, by simp, rfl⟩
  | cons s rest ih =>
    have hsrv : (env.call w tcp req s).server = s := rfl
    unfold queryLoop
    rw [hq1]
    simp only []
    rcases hout : (env.call w tcp req s).out with r | ⟨r, e⟩
    · simp only []
      have hst : (if r.Rcode = RcodeNameError then
            World.incNameErrorCount { w with calls := w.calls ++ [env.call w tcp req s] }
          else { w with calls := w.calls ++ [env.call w tcp req s] }).stats.StubForwardCount =
          w.stats.StubForwardCount := by
        split <;> rfl
      split
      · refine ⟨_, _, [env.call w tcp req s], rfl, by rw [condNameError_calls], ?_, hst⟩
        simp only [List.map_cons, List.map_nil, hsrv]
        exact ⟨rest, rfl⟩
      · obtain ⟨res, w1, new, h1, h2, h3, h4⟩ := ih (some r, none)
          (if r.Rcode = RcodeNameError then
            World.incNameErrorCount { w with calls := w.calls ++ [env.call w tcp req s] }
          else { w with calls := w.calls ++ [env.call w tcp req s] })
        refine ⟨res, w1, env.call w tcp req s :: new, h1, ?_, ?_, h4.trans hst⟩
        · rw [h2, condNameError_calls]
          simp
        · simp only [List.map_cons, hsrv]
          exact (List.prefix_cons_inj s).2 h3
    · simp only []
      obtain ⟨res, w1, new, h1, h2, h3, h4⟩ := ih (r, some e)
        { w with calls := w.calls ++ [env.call w tcp req s] }
      refine ⟨res, w1, env.call w tcp req s :: new, h1, ?_, ?_, h4⟩
      · rw [h2]
        simp
      · simp only [List.map_cons, hsrv]
        exact (List.prefix_cons_inj s).2 h3

/-- C29. Stub routing.  Let the `range` over the stub-zone map yield the
entries of the map in some order.  For a request with a question,
`forwardQuery` returns, and: if the question name ends in the suffix of some
stub zone, there is a stub zone whose suffix the name ends in such that the
upstreams contacted are the first ones of that zone's server list, in order,
and `stub_forward_count` is incremented exactly once; if the name ends in the
suffix of no stub zone, the upstreams contacted are the first ones of the
default nameserver list, in order, and `stub_forward_count` is unchanged. -/
theorem C29_stub_routing (env : Env) (cfg : Config) (req : Msg) (tcp : Bool) (w : World)
    (q : Question) (qs : List Question) (hq : req.Question = q :: qs)
    (hrange : (env.stubRange w.calls.length cfg.Stub).Perm cfg.Stub) :
    ∃ res w1 new, forwardQuery env cfg req tcp w = some (res, w1) ∧
      w1.calls = w.calls ++ new ∧
      ((∃ p ∈ cfg.Stub, HasSuffix q.Name p.1 = true) →
        ∃ p ∈ cfg.Stub, HasSuffix q.Name p.1 = true ∧ new.map Call.server <+: p.2 ∧
          (∀ c ∈ new, c.server ∈ p.2) ∧
          w1.stats.StubForwardCount = w.stats.StubForwardCount + 1) ∧
      ((∀ p ∈ cfg.Stub, HasSuffix q.Name p.1 = false) →
        new.map Call.server <+: cfg.Nameservers ∧ (∀ c ∈ new, c.server ∈ cfg.Nameservers) ∧
        w1.stats.StubForwardCount = w.stats.StubForwardCount) := by
  have hqne : req.Question ≠ [] := by rw [hq]; simp
  have hmem : ∀ (new : List Call) (l : List Server), new.map Call.server <+: l →
      ∀ c ∈ new, c.server ∈ l := fun new l hp c hc =>
    hp.subset (List.mem_map_of_mem Call.server hc)
  by_cases hm : ∃ p ∈ cfg.Stub, HasSuffix q.Name p.1 = true
  · have hm1 : ∃ p ∈ env.stubRange w.calls.length cfg.Stub, HasSuffix q.Name p.1 = true := by
      obtain ⟨p, hp, hs⟩ := hm
      exact ⟨p, hrange.symm.subset hp, hs⟩
    obtain ⟨p, hp, hs, he⟩ := stubLoop_match req q qs _ cfg.Nameservers w hq hm1
    obtain ⟨res, w1, new, h1, h2, h3, h4⟩ := queryLoop_servers env req tcp p.2 (none, none)
      w.incStubForwardCount hqne
    refine ⟨res, w1, new, ?_, h2, ?_, ?_⟩
    · simp only [forwardQuery, he, h1]
    · intro _
      exact ⟨p, hrange.subset hp, hs, h3, hmem new p.2 h3, h4⟩
    · intro hn
      rw [hn p (hrange.subset hp)] at hs
      simp at hs
  · have hn : ∀ p ∈ cfg.Stub, HasSuffix q.Name p.1 = false := by
      intro p hp
      cases hs : HasSuffix q.Name p.1 with
      | false => rfl
      | true => exact absurd ⟨p, hp, hs⟩ hm
    have he := stubLoop_noMatch req q qs (env.stubRange w.calls.length cfg.Stub) cfg.Nameservers w
      hq (fun p hp => hn p (hrange.subset hp))
    obtain ⟨res, w1, new, h1, h2, h3, h4⟩ := queryLoop_servers env req tcp cfg.Nameservers
      (none, none) w hqne
    refine ⟨res, w1, new, ?_, h2, fun h => absurd h hm, fun _ => ⟨h3, hmem new _ h3, h4⟩⟩
    simp only [forwardQuery, he, h1]

theorem C29_stub_routing_witness :
    (exCandidate exDomO).Question =
      { Name := [97, 46, 111, 46], Qtype := 1, Qclass := 1 } :: [] ∧
    (exEnvZones.stubRange exWorld.calls.length exConfigStub.Stub).Perm exConfigStub.Stub ∧
    (∃ p ∈ exConfigStub.Stub, HasSuffix [97, 46, 111, 46] p.1 = true) ∧
    (∀ p ∈ exConfigStub.Stub, HasSuffix [97, 46] p.1 = false) ∧
    (∃ res w1 new, forwardQuery exEnvZones exConfigStub (exCandidate exDomO) false exWorld =
        some (res, w1) ∧ w1.calls = exWorld.calls ++ new ∧
      ∃ p ∈ exConfigStub.Stub, HasSuffix [97, 46, 111, 46] p.1 = true ∧
        new.map Call.server <+: p.2 ∧
        w1.stats.StubForwardCount = exWorld.stats.StubForwardCount + 1) ∧
    (∃ res w1 new, forwardQuery exEnvZones exConfigStub exMsgA false exWorld =
        some (res, w1) ∧ w1.calls = exWorld.calls ++ new ∧
      new.map Call.server <+: exConfigStub.Nameservers ∧
      w1.stats.StubForwardCount = exWorld.stats.StubForwardCount) :=
  ⟨rfl, List.Perm.refl _, by decide, by decide,
    (C29_stub_routing exEnvZones exConfigStub (exCandidate exDomO) false exWorld
      { Name := [97, 46, 111, 46], Qtype := 1, Qclass := 1 } [] rfl (List.Perm.refl _)).imp
      (fun _ h => h.imp (fun _ h => h.imp (fun _ h =>
        ⟨h.1, h.2.1, (h.2.2.1 (by decide)).imp
          (fun _ h => ⟨h.1, h.2.1, h.2.2.1, h.2.2.2.2⟩)⟩))),
    (C29_stub_routing exEnvZones exConfigStub exMsgA false exWorld exQuestionA [] rfl
      (List.Perm.refl _)).imp
      (fun _ h => h.imp (fun _ h => h.imp (fun _ h =>
        ⟨h.1, h.2.1, (h.2.2.2 (by decide)).1, (h.2.2.2 (by decide)).2.2⟩)))⟩

/-! ## Claims on the layout of the key -/

/-- The constant `sha1Empty` is the SHA-1 digest of the empty input. -/
theorem sha1Sum_nil : sha1Sum [] = sha1Empty := by decide

/-- The model of SHA-1 on the test vector `abc` of FIPS 180. -/
theorem sha1Sum_abc :
    sha1Sum [97, 98, 99] =
      [0xa9, 0x99, 0x3e, 0x36, 0x47, 0x06, 0x81, 0x6a, 0xba, 0x3e,
       0x25, 0x71, 0x78, 0x50, 0xc2, 0x6c, 0x9c, 0xd0, 0xd8, 0x9d] := by decide

theorem Key_layout (q : Question) (dnssec tcp : Bool) :
    Key q dnssec tcp = keyPrefix q dnssec tcp ++ sha1Sum [] := by
  rw [sha1Sum_nil, Key_eq]
  simp only [keyPrefix, List.append_assoc]

/-- C30. Key layout.  For every question and flags, `Key` returns the prefix
(name, big-endian 16-bit type, flag bytes) followed by the SHA-1 digest of the
empty input: nothing is written to the hash before `h.Sum(i)`.  For the
question `a. IN A` without flags the prefix is `a.` followed by the bytes 0
and 1, its SHA-1 digest starts with the bytes `0x38, 0x79`, and the key ends
in the digest `da39a3ee...` of the empty input instead: the key is not the
prefix followed by the digest of the prefix. -/
theorem C30_key_digest_is_of_empty_input :
    (∀ (q : Question) (dnssec tcp : Bool),
      Key q dnssec tcp = keyPrefix q dnssec tcp ++ sha1Sum []) ∧
    keyPrefix exQuestionA false false = [97, 46, 0, 1] ∧
    sha1Sum (keyPrefix exQuestionA false false) =
      [0x38, 0x79, 0x6d, 0x5f, 0x27, 0xf4, 0xe9, 0x1a, 0x55, 0xdb,
       0xa6, 0xd3, 0xfc, 0x34, 0xa7, 0xda, 0x9d, 0x31, 0x0e, 0x94] ∧
    Key exQuestionA false false =
      [97, 46, 0, 1,
       0xda, 0x39, 0xa3, 0xee, 0x5e, 0x6b, 0x4b, 0x0d, 0x32, 0x55,
       0xbf, 0xef, 0x95, 0x60, 0x18, 0x90, 0xaf, 0xd8, 0x07, 0x09] ∧
    Key exQuestionA false false ≠
      keyPrefix exQuestionA false false ++ sha1Sum (keyPrefix exQuestionA false false) :=
  ⟨Key_layout, by decide, by decide, by decide, by decide⟩

/-! ## Claims on the name in the key and on inserts past the stale expiration -/

/-- C31 (counterexample).  The names `Example.COM.` and `example.com.` differ
only in the case of ASCII letters, the second being the lowercased first; for
the same type and flags `Key` returns two different keys, and the key of
`Example.COM.` starts with the name as given, capitals included. -/
theorem C31_key_keeps_the_case_of_the_name :
    specLowerName exNameMixed = exNameLower ∧ specLowerName exNameLower = exNameLower ∧
    Key { Name := exNameMixed, Qtype := 1, Qclass := 1 } false false ≠
      Key { Name := exNameLower, Qtype := 1, Qclass := 1 } false false ∧
    (Key { Name := exNameMixed, Qtype := 1, Qclass := 1 } false false).take 12 = exNameMixed :=
  ⟨by decide, by decide, by decide, by decide⟩

/-- C31 (amended).  `Key` does not change the name: for every two question
names and equal type and flags, `Key` returns the same key if and only if the
two names are byte for byte the same, so two different names that differ only
in the case of ASCII letters get different keys; and the key of a name is the
key of the lowercased name if and only if the name has no ASCII capital
letter. -/
theorem C31_key_is_case_sensitive (n1 n2 : Bytes) (qtype cl1 cl2 : Nat) (dnssec tcp : Bool) :
    (Key { Name := n1, Qtype := qtype, Qclass := cl1 } dnssec tcp =
        Key { Name := n2, Qtype := qtype, Qclass := cl2 } dnssec tcp ↔ n1 = n2) ∧
    (specLowerName n1 = specLowerName n2 → n1 ≠ n2 →
      Key { Name := n1, Qtype := qtype, Qclass := cl1 } dnssec tcp ≠
        Key { Name := n2, Qtype := qtype, Qclass := cl2 } dnssec tcp) ∧
    (Key { Name := n1, Qtype := qtype, Qclass := cl1 } dnssec tcp =
        Key { Name := specLowerName n1, Qtype := qtype, Qclass := cl1 } dnssec tcp ↔
      specLowerName n1 = n1) := by
  have key : ∀ (a b : Bytes) (ca cb : Nat),
      Key { Name := a, Qtype := qtype, Qclass := ca } dnssec tcp =
        Key { Name := b, Qtype := qtype, Qclass := cb } dnssec tcp ↔ a = b := by
    intro a b ca cb
    rw [Key_eq, Key_eq]
    constructor
    · intro h
      exact List.append_cancel_right h
    · intro h
      rw [h]
  refine ⟨key n1 n2 cl1 cl2, fun _ hne h => hne ((key n1 n2 cl1 cl2).1 h), ?_⟩
  rw [key n1 (specLowerName n1) cl1 cl1]
  exact eq_comm

theorem C31_key_is_case_sensitive_witness :
    specLowerName exNameMixed = specLowerName exNameLower ∧ exNameMixed ≠ exNameLower ∧
    Key { Name := exNameMixed, Qtype := 1, Qclass := 1 } false false ≠
      Key { Name := exNameLower, Qtype := 1, Qclass := 1 } false false :=
  ⟨by decide, by decide,
    (C31_key_is_case_sensitive exNameMixed exNameLower 1 1 1 false false).2.1 (by decide)
      (by decide)⟩

/-- The store of `InsertMessage` on an entry whose stale expiration the clock
has reached writes nothing. -/
theorem insertStore_pastStale (c : Cache) (s : Bytes) (msg : Msg) (clk : InsertClock)
    (e : elem) (h : c.m.get s = some e) (hstale : e.staleExpiration ≤ clk.sinceStale) :
    insertStore c s msg clk = c := by
  have h1 : ¬ Since clk.sinceStale e.staleExpiration < 0 := by
    rw [Since_neg_iff]
    exact not_lt.2 hstale
  simp only [insertStore, h, h1]
  simp

/-- C32. For every cache built by `New` with a positive capacity and a
sequence of `InsertMessage`, `Hit` and `Remove` calls, and every key whose
entry `e` is at or past its stale expiration when `InsertMessage` reads the
clock for it, `InsertMessage(key, M)` stores nothing and evicts nothing: the
cache afterwards equals the cache before, whatever the iteration orders, so
the key still has the entry `e` with its old message, expirations and
counters, and every other entry is unchanged.  The same holds for any number
of such calls in a row. -/
theorem C32_insert_past_stale_stores_nothing (c : Cache) (s : Bytes) (msg : Msg)
    (clk : InsertClock) (order1 order2 : List Bytes) (e : elem) (hr : c.Reachable)
    (hget : c.m.get s = some e) (hstale : e.staleExpiration ≤ clk.sinceStale) :
    InsertMessage c s msg clk order1 order2 = c ∧
    (InsertMessage c s msg clk order1 order2).m.get s = some e ∧
    ∀ ops : List Op, (∀ op ∈ ops, op.InsertsPastStale s e) → run c ops = c := by
  obtain ⟨hcap, hlen⟩ := hr.below_capacity
  have hnot : ¬ c.capacity ≤ 0 := by omega
  have one : ∀ (m : Msg) (k : InsertClock) (o1 o2 : List Bytes),
      e.staleExpiration ≤ k.sinceStale → InsertMessage c s m k o1 o2 = c := by
    intro m k o1 o2 hk
    simp only [InsertMessage, hnot, if_false, EvictRandom]
    rw [insertStore_pastStale c s m k e hget hk, evictRandomInternal_room _ _ _ _ hlen,
      evictRandomInternal_room _ _ _ _ hlen]
  refine ⟨one msg clk order1 order2 hstale, ?_, ?_⟩
  · rw [one msg clk order1 order2 hstale]
    exact hget
  · intro ops hops
    induction ops with
    | nil => rfl
    | cons op ops ih =>
      have hop := hops op (List.mem_cons_self _ _)
      cases op with
      | insert s1 m k o1 o2 =>
        obtain ⟨rfl, hk⟩ := hop
        simp only [run, Op.apply]
        rw [one m k o1 o2 hk]
        exact ih (fun op h => hops op (List.mem_cons_of_mem _ h))
      | hit q d t i ks rs k => exact absurd hop (by simp [Op.InsertsPastStale])
      | remove s1 => exact absurd hop (by simp [Op.InsertsPastStale])

theorem C32_insert_past_stale_stores_nothing_witness :
    exCacheHits.Reachable ∧
    exCacheHits.m.get exKeyA = some
      { expiration := 10 * Second, msg := exMsgA, staleExpiration := 30 * Second,
        hits := 1, staleHits := 1, ttlSeconds := 0 } ∧
    (30 * Second : Int) ≤ (InsertClock.const (40 * Second)).sinceStale ∧
    InsertMessage exCacheHits exKeyA exMsgB (InsertClock.const (40 * Second)) [exKeyA] [exKeyA] =
      exCacheHits :=
  ⟨⟨10, 10, 30, false, 0, exOpsHits, by decide, by decide, rfl⟩, by decide, by decide,
    (C32_insert_past_stale_stores_nothing exCacheHits exKeyA exMsgB
      (InsertClock.const (40 * Second)) [exKeyA] [exKeyA]
      { expiration := 10 * Second, msg := exMsgA, staleExpiration := 30 * Second,
        hits := 1, staleHits := 1, ttlSeconds := 0 }
      ⟨10, 10, 30, false, 0, exOpsHits, by decide, by decide, rfl⟩ (by decide) (by decide)).1⟩

/-! ## The forwarder: the captured NODATA reply in terms of the exchanges -/

theorem queryLoop_nodata (env : Env) (req : Msg) (tcp : Bool) (ns : List Server)
    (acc : Result) (w : World) (res : Result) (w1 : World) (hacc : acc.nodataList = [])
    (h : queryLoop env req tcp ns acc w = some (res, w1)) :
    ∃ new, w1.calls = w.calls ++ new ∧ new.filterMap Call.nodataReply = res.nodataList := by
  induction ns generalizing acc w with
  | nil =>
    simp only [queryLoop, Option.some.injEq, Prod.mk.injEq] at h
    obtain ⟨rfl, rfl⟩ := h
    exact ⟨[], by simp, by simp [hacc]⟩
  | cons s rest ih =>
    unfold queryLoop at h
    cases hq : req.Question with
    | nil => rw [hq] at h; simp at h
    | cons q qs =>
      rw [hq] at h
      simp only [] at h
      rcases hout : (env.call w tcp req s).out with r | ⟨r, e⟩
      · rw [hout] at h
        simp only [] at h
        have hc0 : Call.nodataReply (env.call w tcp req s) = if r.isNodata then some r else none := by
          simp only [Call.nodataReply, hout]
        split at h
        · simp only [Option.some.injEq, Prod.mk.injEq] at h
          obtain ⟨hres, hw1⟩ := h
          rw [← hres, ← hw1]
          refine ⟨[env.call w tcp req s], by rw [condNameError_calls], ?_⟩
          cases hn : r.isNodata <;>
            simp [List.filterMap_cons, hc0, Result.nodataList, hn]
        · rename_i hret
          have hnn : r.isNodata = false := by
            cases hn : r.isNodata with
            | false => rfl
            | true =>
              exfalso
              apply hret
              simp only [Msg.isNodata, Bool.and_eq_true, decide_eq_true_eq] at hn
              simp [returnsAtOnce, hn.1.1]
          obtain ⟨new, h1, h2⟩ := ih (some r, none) _ (by simp [Result.nodataList, hnn]) h
          refine ⟨env.call w tcp req s :: new, ?_, ?_⟩
          · rw [h1, condNameError_calls]
            simp
          · simp only [List.filterMap_cons, hc0, hnn]
            exact h2
      · rw [hout] at h
        simp only [] at h
        obtain ⟨new, h1, h2⟩ := ih (r, some e) _ (by simp [Result.nodataList]) h
        refine ⟨env.call w tcp req s :: new, ?_, ?_⟩
        · rw [h1]
          simp
        · have hc0 : Call.nodataReply (env.call w tcp req s) = none := by
            simp only [Call.nodataReply, hout]
          simp only [List.filterMap_cons, hc0]
          exact h2

/-- The exchanges of `forwardQuery` brought a NODATA reply exactly when
`forwardQuery` returns one without error, and then it is the only one. -/
theorem forwardQuery_nodata (env : Env) (cfg : Config) (req : Msg) (tcp : Bool) (w : World)
    (res : Result) (w1 : World) (h : forwardQuery env cfg req tcp w = some (res, w1)) :
    ∃ new, w1.calls = w.calls ++ new ∧ new.filterMap Call.nodataReply = res.nodataList := by
  unfold forwardQuery at h
  rcases hs : stubLoop req (env.stubRange w.calls.length cfg.Stub) cfg.Nameservers w with
    _ | ⟨ns, w0⟩
  · rw [hs] at h; simp at h
  · rw [hs] at h
    simp only [] at h
    obtain ⟨new, h1, h2⟩ := queryLoop_nodata env req tcp ns (none, none) w0 res w1 rfl h
    have h0 := (stubLoop_Extends req _ _ _ w w0 hs).1
    rw [List.append_nil] at h0
    exact ⟨new, by rw [h1, h0], h2⟩

theorem lastNodata_append_nil (a b : List Call) (h : b.filterMap Call.nodataReply = []) :
    lastNodata (a ++ b) = lastNodata a := by
  simp only [lastNodata, List.filterMap_append, h, List.append_nil]

theorem lastNodata_append_one (a b : List Call) (r : Msg)
    (h : b.filterMap Call.nodataReply = [r]) : lastNodata (a ++ b) = some r := by
  simp only [lastNodata, List.filterMap_append, h, List.getLast?_append, List.getLast?_singleton]
  rfl

/-- A pass of the search loop that ends in `continue`: the domain is skipped,
or the upstream iteration for the candidate returned a response without
error, which is captured in `nodata` exactly when it is a NODATA reply. -/
theorem searchStep_continue (env : Env) (cfg : Config) (name : Bytes) (tcp : Bool) (d : Bytes)
    (st : SearchState) (w : World) (st1 : SearchState) (w1 : World)
    (h : searchStep env cfg name tcp d st w = some (true, st1, w1)) :
    (HasSuffix name d = true ∧ st1 = st ∧ w1 = w) ∨
    (HasSuffix name d = false ∧ ∃ rq rm w2,
      searchRequest st.reqCopy (env.ToLower (env.appendDomain name d)) = some rq ∧
      forwardQuery env cfg rq tcp w = some ((some rm, none), w2) ∧ w1.calls = w2.calls ∧
      ((rm.isNodata = true ∧ st1.nodata = some rm) ∨
        (rm.isNodata = false ∧ st1.nodata = st.nodata))) := by
  cases hs : HasSuffix name d with
  | true =>
    simp only [searchStep, hs, if_true, Option.some.injEq, Prod.mk.injEq] at h
    obtain ⟨_, rfl, rfl⟩ := h
    exact Or.inl ⟨rfl, rfl, rfl⟩
  | false =>
    right
    refine ⟨rfl, ?_⟩
    rcases hrq : searchRequest st.reqCopy (env.ToLower (env.appendDomain name d)) with _ | rq
    · simp [searchStep, hs, hrq] at h
    · rcases hf : forwardQuery env cfg rq tcp w with _ | ⟨⟨r, err⟩, w2⟩
      · simp [searchStep, hs, hrq, hf] at h
      · rw [searchStep_query env cfg name tcp d st w rq r err w2 hs hrq hf] at h
        rcases err with _ | e
        · rcases r with _ | rm
          · simp at h
          · refine ⟨rq, rm, w2, rfl, hf, ?_⟩
            simp only [] at h
            by_cases h0 : rm.Rcode = RcodeSuccess
            · simp only [h0, if_true] at h
              by_cases hnd : rm.Answer = [] ∧ rm.Truncated = false
              · simp only [hnd, and_self, if_true, Option.some.injEq, Prod.mk.injEq, true_and] at h
                obtain ⟨rfl, rfl⟩ := h
                refine ⟨rfl, Or.inl ⟨?_, rfl⟩⟩
                simp [Msg.isNodata, h0, hnd.1, hnd.2]
              · simp only [hnd, if_false, Option.some.injEq, Prod.mk.injEq, Bool.false_eq_true,
                  false_and] at h
            · have hn : rm.isNodata = false := by
                simp [Msg.isNodata, h0]
              simp only [h0, if_false] at h
              split at h
              · simp only [Option.some.injEq, Prod.mk.injEq, true_and] at h
                obtain ⟨rfl, rfl⟩ := h
                exact ⟨rfl, Or.inr ⟨hn, rfl⟩⟩
              · split at h
                · simp only [Option.some.injEq, Prod.mk.injEq, true_and] at h
                  obtain ⟨rfl, rfl⟩ := h
                  exact ⟨rfl, Or.inr ⟨hn, rfl⟩⟩
                · simp only [Option.some.injEq, Prod.mk.injEq, Bool.false_eq_true,
                    false_and] at h
        · simp only [Option.some.injEq, Prod.mk.injEq, Bool.false_eq_true, false_and] at h

theorem searchPasses_lastNodata_from (env : Env) (cfg : Config) (name : Bytes) (tcp : Bool)
    (w : World) (pre : List Bytes) (st : SearchState) (wa : World) (st1 : SearchState)
    (w1 : World) (newa : List Call) (hwa : wa.calls = w.calls ++ newa)
    (hinv : st.nodata = lastNodata newa)
    (h : searchPasses env cfg name tcp pre st wa = some (st1, w1)) :
    ∃ new, w1.calls = w.calls ++ new ∧ st1.nodata = lastNodata new := by
  induction pre generalizing st wa newa with
  | nil =>
    simp only [searchPasses, Option.some.injEq, Prod.mk.injEq] at h
    obtain ⟨rfl, rfl⟩ := h
    exact ⟨newa, hwa, hinv⟩
  | cons d pre ih =>
    simp only [searchPasses] at h
    rcases hs : searchStep env cfg name tcp d st wa with _ | ⟨b, st2, w2⟩
    · rw [hs] at h; simp at h
    · cases b with
      | false => rw [hs] at h; simp at h
      | true =>
        rw [hs] at h
        simp only [] at h
        rcases searchStep_continue env cfg name tcp d st wa st2 w2 hs with ⟨_, rfl, rfl⟩ |
          ⟨_, rq, rm, w3, _, hfq, hc, hcase⟩
        · exact ih st2 w2 newa hwa hinv h
        · obtain ⟨newb, hb1, hb2⟩ := forwardQuery_nodata env cfg rq tcp wa _ w3 hfq
          have hw2 : w2.calls = w.calls ++ (newa ++ newb) := by
            rw [hc, hb1, hwa, List.append_assoc]
          refine ih st2 w2 (newa ++ newb) hw2 ?_ h
          rcases hcase with ⟨hn, hst⟩ | ⟨hn, hst⟩
          · rw [hst]
            simp only [Result.nodataList, hn, if_true] at hb2
            exact (lastNodata_append_one newa newb rm hb2).symm
          · rw [hst, hinv]
            simp only [Result.nodataList, hn, Bool.false_eq_true, if_false] at hb2
            exact (lastNodata_append_nil newa newb hb2).symm

/-- The variable `nodata` at the head of the search loop holds the most recent
NODATA reply among the exchanges made since `forwardSearch` was entered. -/
theorem searchPasses_lastNodata (env : Env) (cfg : Config) (name : Bytes) (tcp : Bool)
    (req : Msg) (w : World) (pre : List Bytes) (st : SearchState) (w1 : World)
    (h : searchPasses env cfg name tcp pre (searchInit req) w = some (st, w1)) :
    st.nodata = lastNodata (w1.calls.drop w.calls.length) := by
  obtain ⟨new, h1, h2⟩ := searchPasses_lastNodata_from env cfg name tcp w pre (searchInit req) w
    st w1 [] (by simp) rfl h
  rw [h1, List.drop_left]
  exact h2

theorem searchFinish_other_panics (q0 : Question) (st : SearchState) (rm : Msg)
    (herr : st.err = none) (hr : st.r = some rm) (h0 : rm.Rcode ≠ RcodeSuccess)
    (hnd : st.nodata = none) (hrq : rm.Question = []) : searchFinish q0 st = none := by
  simp only [searchFinish, herr, hr, h0, if_false, hnd, setQuestion0, hrq, Option.map_none']

theorem searchFinish_nodata_panics (q0 : Question) (st : SearchState) (rm nd : Msg)
    (herr : st.err = none) (hr : st.r = some rm) (h0 : rm.Rcode ≠ RcodeSuccess)
    (hnd : st.nodata = some nd) (hndq : nd.Question = []) : searchFinish q0 st = none := by
  simp only [searchFinish, herr, hr, h0, if_false, hnd, setQuestion0, hndq, Option.map_none']

/-! ## Claims on `forwardSearch` and replies without a question section -/

/-- C26 (amended).  Search stops on other codes.  Let the search loop of
`forwardSearch` reach the search domain `domain` in the world `w1` (every pass
for the domains before it ended in `continue`), let `domain` not be a suffix of
the question name, and let the upstream iteration for the candidate return
without error a response `rm` whose code is none of NOERROR, NXDOMAIN and
SERVFAIL.  Then no further search domain is queried, and what `forwardSearch`
does depends on the exchanges made for the earlier candidates.  If none of
them brought a NODATA reply (NOERROR, empty answer section, not truncated), the
response to return is `rm`; otherwise it is the most recent NODATA reply
among them.  If the response to return has a question section,
`forwardSearch` returns it without error, with the original question in first
place, in the world the candidate's lookup left; if it has no question
section, `forwardSearch` panics on the assignment `r.Question[0] = ...`. -/
theorem C26_search_stops_on_other_rcode (env : Env) (cfg : Config) (req : Msg) (tcp : Bool)
    (w : World) (q0 : Question) (qs : List Question) (pre : List Bytes) (domain : Bytes)
    (rest : List Bytes) (w1 : World) (rm : Msg) (w2 : World)
    (hq : req.Question = q0 :: qs) (hdom : cfg.SearchDomains = pre ++ domain :: rest)
    (hpre : (searchPasses env cfg q0.Name tcp pre (searchInit req) w).map (fun p => p.2) =
      some w1)
    (hsuf : HasSuffix q0.Name domain = false)
    (hquery : forwardQuery env cfg
      { req with
        Question := { Name := env.ToLower (env.appendDomain q0.Name domain), Qtype := q0.Qtype,
                      Qclass := q0.Qclass } :: qs } tcp w1 = some ((some rm, none), w2))
    (h0 : rm.Rcode ≠ RcodeSuccess) (h3 : rm.Rcode ≠ RcodeNameError)
    (h2 : rm.Rcode ≠ RcodeServerFailure) :
    (lastNodata (w1.calls.drop w.calls.length) = none →
      (rm.Question ≠ [] →
        forwardSearch env cfg req tcp w = some ((some (rm.withQuestion0 q0), none), w2) ∧
        (rm.withQuestion0 q0).Rcode = rm.Rcode ∧
        (rm.withQuestion0 q0).Question.head? = some q0) ∧
      (rm.Question = [] → forwardSearch env cfg req tcp w = none)) ∧
    (∀ nd, lastNodata (w1.calls.drop w.calls.length) = some nd →
      (nd.Question ≠ [] →
        forwardSearch env cfg req tcp w = some ((some (nd.withQuestion0 q0), none), w2) ∧
        (nd.withQuestion0 q0).Rcode = RcodeSuccess ∧ (nd.withQuestion0 q0).Answer = [] ∧
        (nd.withQuestion0 q0).Question.head? = some q0) ∧
      (nd.Question = [] → forwardSearch env cfg req tcp w = none)) := by
  obtain ⟨⟨st, w1a⟩, hpre1, hw⟩ := Option.map_eq_some'.1 hpre
  simp only at hw
  subst hw
  have hcopy := searchPasses_CopyOf env cfg q0.Name tcp req pre w st w1a hpre1
  have hndi := searchPasses_NodataInv env cfg q0.Name tcp req pre w st w1a hpre1
  have hlast := searchPasses_lastNodata env cfg q0.Name tcp req w pre st w1a hpre1
  have hreq := (hcopy (env.ToLower (env.appendDomain q0.Name domain))).trans
    (searchRequest_cons req q0 qs _ hq)
  have hstep := searchStep_query env cfg q0.Name tcp domain st w1a _ _ _ w2 hsuf hreq hquery
  simp only [h0, h3, h2, if_false] at hstep
  obtain ⟨st1, hstep1, hr1, he1, hn1, hd1⟩ : ∃ st1,
      searchStep env cfg q0.Name tcp domain st w1a = some (false, st1, w2) ∧ st1.r = some rm ∧
      st1.err = none ∧ st1.nodata = st.nodata ∧ st1.didSearch = true :=
    ⟨_, hstep, rfl, rfl, rfl, rfl⟩
  have hfs := forwardSearch_at env cfg req tcp w q0 qs pre domain rest st w1a st1 w2 hq hdom
    hpre1 hstep1 hd1
  constructor
  · intro hnone
    have hnd : st1.nodata = none := by rw [hn1, hlast, hnone]
    constructor
    · intro hrq
      refine ⟨?_, rfl, rfl⟩
      rw [hfs, searchFinish_other q0 st1 rm he1 hr1 h0 hnd hrq]
      rfl
    · intro hrq
      rw [hfs, searchFinish_other_panics q0 st1 rm he1 hr1 h0 hnd hrq]
      rfl
  · intro nd hsome
    have hnd : st1.nodata = some nd := by rw [hn1, hlast, hsome]
    have hnd0 : st.nodata = some nd := by rw [hlast, hsome]
    constructor
    · intro hndq
      refine ⟨?_, (hndi nd hnd0).1, (hndi nd hnd0).2.1, rfl⟩
      rw [hfs, searchFinish_nodata q0 st1 rm nd he1 hr1 h0 hnd hndq]
      rfl
    · intro hndq
      rw [hfs, searchFinish_nodata_panics q0 st1 rm nd he1 hr1 h0 hnd hndq]
      rfl

theorem C26_search_stops_on_other_rcode_witness :
    (lastNodata ((exWorldCalls [exCallSoa exDomN, exCallSoa exDomBN]).calls.drop
        exWorld.calls.length) =
        some (exSoaReply (exCandidate exDomBN) [97, 46, 98, 46, 110, 46]) ∧
      forwardSearch exEnvSoa (exConfigSearch [exDomN, exDomBN, exDomR, exDomO]) exMsgA false
        exWorld =
        some ((some ((exSoaReply (exCandidate exDomBN) [97, 46, 98, 46, 110, 46]).withQuestion0
          exQuestionA), none),
          exWorldCalls [exCallSoa exDomN, exCallSoa exDomBN, exCallZone exDomR]) ∧
      (exSoaReply (exCandidate exDomBN) [97, 46, 98, 46, 110, 46]).withQuestion0 exQuestionA ≠
        (exSoaReply (exCandidate exDomN) [97, 46, 110, 46]).withQuestion0 exQuestionA) ∧
    (lastNodata ((exWorldCalls []).calls.drop exWorld.calls.length) = none ∧
      forwardSearch exEnvZones (exConfigSearch [exDomR, exDomO]) exMsgA false exWorld =
        some ((some ((exZoneReply (exCandidate exDomR) [97, 46, 114, 46]).withQuestion0
          exQuestionA), none), exWorldCalls [exCallZone exDomR]) ∧
      ((exZoneReply (exCandidate exDomR) [97, 46, 114, 46]).withQuestion0 exQuestionA).Rcode =
        RcodeRefused) ∧
    forwardSearch exEnvBare (exConfigSearch [exDomR, exDomO]) exMsgA false exWorld = none :=
  ⟨⟨by decide,
    (((C26_search_stops_on_other_rcode exEnvSoa
      (exConfigSearch [exDomN, exDomBN, exDomR, exDomO]) exMsgA false exWorld exQuestionA []
      [exDomN, exDomBN] exDomR [exDomO] (exWorldCalls [exCallSoa exDomN, exCallSoa exDomBN])
      (exZoneReply (exCandidate exDomR) [97, 46, 114, 46])
      (exWorldCalls [exCallSoa exDomN, exCallSoa exDomBN, exCallZone exDomR])
      rfl rfl (by decide) (by decide) (by decide) (by decide) (by decide) (by decide)).2
      (exSoaReply (exCandidate exDomBN) [97, 46, 98, 46, 110, 46]) (by decide)).1
      (by decide)).1, by decide⟩,
   ⟨by decide,
    (((C26_search_stops_on_other_rcode exEnvZones (exConfigSearch [exDomR, exDomO]) exMsgA false
      exWorld exQuestionA [] [] exDomR [exDomO] exWorld
      (exZoneReply (exCandidate exDomR) [97, 46, 114, 46]) (exWorldCalls [exCallZone exDomR])
      rfl rfl (by decide) (by decide) (by decide) (by decide) (by decide) (by decide)).1
      (by decide)).1 (by decide)).1, by decide⟩,
   (((C26_search_stops_on_other_rcode exEnvBare (exConfigSearch [exDomR, exDomO]) exMsgA false
      exWorld exQuestionA [] [] exDomR [exDomO] exWorld
      { exZoneReply (exCandidate exDomR) [97, 46, 114, 46] with Question := [] }
      (exWorldCalls [exCallBare exDomR])
      rfl rfl (by decide) (by decide) (by decide) (by decide) (by decide) (by decide)).1
      (by decide)).2 rfl)⟩

/-- C21. Search CNAME synthesis and a reply without a question section.
With the search domain `o.` and the request `a. IN A`, the upstream of
`exEnvBare` answers the candidate `a.o.` with code NOERROR, one address record,
not truncated, and an empty question section: `forwardQuery` returns that
reply without error, and `forwardSearch` panics on the assignment
`r.Question[0] = req.Question[0]` instead of returning the CNAME followed by
the record.  When the same reply carries its question section (upstream of
`exEnvZones`), `forwardSearch` returns as claimed: code NOERROR, the CNAME
`a.` to `a.o.` with TTL 360 and class IN followed by the record, and the
original question. -/
theorem C21_search_panics_on_reply_without_question :
    forwardQuery exEnvBare (exConfigSearch [exDomO]) (exCandidate exDomO) false exWorld =
      some ((some { exZoneReply (exCandidate exDomO) [97, 46, 111, 46] with Question := [] },
        none), exWorldCalls [exCallBare exDomO]) ∧
    ({ exZoneReply (exCandidate exDomO) [97, 46, 111, 46] with Question := [] } : Msg).Rcode =
      RcodeSuccess ∧
    ({ exZoneReply (exCandidate exDomO) [97, 46, 111, 46] with Question := [] } : Msg).Answer =
      [exRRA] ∧
    ({ exZoneReply (exCandidate exDomO) [97, 46, 111, 46] with Question := [] } : Msg).Truncated =
      false ∧
    forwardSearch exEnvBare (exConfigSearch [exDomO]) exMsgA false exWorld = none ∧
    ∃ r, forwardSearch exEnvZones (exConfigSearch [exDomO]) exMsgA false exWorld =
        some ((some r, none), exWorldCalls [exCallZone exDomO]) ∧
      r.Rcode = RcodeSuccess ∧
      r.Answer =
        [{ Name := [97, 46], Rrtype := TypeCNAME, Class := ClassINET, Ttl := 360,
           rdata := RData.cname [97, 46, 111, 46] }, exRRA] ∧
      r.Question = [exQuestionA] :=
  ⟨by decide, by decide, by decide, by decide, by decide,
    ⟨_, rfl, by decide, by decide, by decide⟩⟩

/-- C27. A captured NODATA reply without a question section.  With the search
domains `n.`, `t.` and the request `a. IN A`, the upstream of `exEnvBare`
answers the candidate `a.n.` with a NODATA reply (NOERROR, empty answer, not
truncated) that has an empty question section, and the candidate `a.t.` ends
with a transport error: `forwardSearch` takes the captured reply and panics on
the assignment `r.Question[0] = req.Question[0]` instead of returning it.
When the NODATA reply carries its question section (upstream of `exEnvZones`),
`forwardSearch` returns it without error, with the original question. -/
theorem C27_captured_nodata_without_question_panics :
    forwardQuery exEnvBare (exConfigSearch [exDomN, exDomT]) (exCandidate exDomN) false exWorld =
      some ((some { exZoneReply (exCandidate exDomN) [97, 46, 110, 46] with Question := [] },
        none), exWorldCalls [exCallBare exDomN]) ∧
    Msg.isNodata { exZoneReply (exCandidate exDomN) [97, 46, 110, 46] with Question := [] } =
      true ∧
    forwardQuery exEnvBare (exConfigSearch [exDomN, exDomT]) (exCandidate exDomT) false
      (exWorldCalls [exCallBare exDomN]) =
      some ((none, some "i/o timeout"), exWorldCalls [exCallBare exDomN, exCallTimeout]) ∧
    forwardSearch exEnvBare (exConfigSearch [exDomN, exDomT]) exMsgA false exWorld = none ∧
    forwardSearch exEnvZones (exConfigSearch [exDomN, exDomT]) exMsgA false exWorld =
      some ((some ((exZoneReply (exCandidate exDomN) [97, 46, 110, 46]).withQuestion0
        exQuestionA), none), exWorldCalls [exCallZone exDomN, exCallTimeout]) :=
  ⟨by decide, by decide, by decide, by decide, by decide⟩

/-- C23. Failure response selection and a reply without a question section.
The request `a. IN A` with the search domain `x.` is not refused and has no
stale candidate; the upstream of `exEnvBare` answers the candidate `a.x.` with
code NXDOMAIN and an empty question section, so no attempt yields NOERROR.
`ServeDNSForward` does not return a message: the search attempt panics in
`forwardSearch` on the assignment `r.Question[0] = req.Question[0]`.  When the
replies carry their question section (upstream of `exEnvZones`), the call
returns the NXDOMAIN response of the absolute attempt with `served_stale`
false and `request_fail` incremented once. -/
theorem C23_failure_selection_panics_on_reply_without_question :
    refuse (exConfigSearch [exDomX]) (exEnvBare.CountLabel exQuestionA.Name - 1) = false ∧
    forwardQuery exEnvBare (exConfigSearch [exDomX]) (exCandidate exDomX) false
      exWorld.incForwardCount =
      some ((some { exZoneReply (exCandidate exDomX) [97, 46, 120, 46] with Question := [] },
        none), exWorldForward 1 [exCallBare exDomX]) ∧
    ({ exZoneReply (exCandidate exDomX) [97, 46, 120, 46] with Question := [] } : Msg).Rcode =
      RcodeNameError ∧
    forwardSearch exEnvBare (exConfigSearch [exDomX]) exMsgA false exWorld.incForwardCount =
      none ∧
    ServeDNSForward exEnvBare (exConfigSearch [exDomX]) false exMsgA none exWorld = none ∧
    observe (ServeDNSForward exEnvZones (exConfigSearch [exDomX]) false exMsgA none exWorld) =
      some (RcodeNameError, false, [exCallZone exDomX, exCallAbsolute],
        { (exWorldForward 3 []).stats with RequestFail := 1 }) :=
  ⟨by decide, by decide, by decide, by decide, by decide, by decide⟩

end GoDnsmasq
